import Mathlib

/-!
# Epoch payment ledger of the pairing keeper

A shallow embedding of `x/pairing/keeper/epoch_payments.go`.

* The typed key-value stores under the three type prefixes are maps from the index
  string to an optional record; a record is always stored under its own index.
* A `cachekv.Store` is a map of dirty entries layered over its parent store: a read
  looks at the dirty entries first and falls back to the parent, a write only touches
  the dirty entries, `Write` moves them to the parent.
* `uint64` values are natural numbers; additions that Go performs on `uint64`
  are taken modulo `2 ^ 64`.
* Logging (`utils.LavaFormatError`) has no effect on the state and is left out.
-/

namespace Lava

/-! ## Machine arithmetic -/

/-- Go addition on `uint64`: the result wraps around at `2 ^ 64`. -/
def addU64 (a b : Nat) : Nat := (a + b) % 2 ^ 64

/-! ## Records (package `types`) -/

/-- The `types.EpochPayments` record: the epoch index (a hexadecimal string) and the
ordered list of the keys of the provider payment storages of that epoch. -/
structure EpochPayments where
  Index : String
  ProviderPaymentStorageKeys : List String
deriving DecidableEq, Repr

/-- Modelled from the spec: the declaration of `types.ProviderPaymentStorage` is not among
the sources. The source reads its `Index` and its `UniquePaymentStorageClientProviderKeys`;
the spec describes it as one record per provider per epoch holding the aggregate
compute-unit usage (`UsedCU` here) and owning the keys of its unique usage records. -/
structure ProviderPaymentStorage where
  Index : String
  UniquePaymentStorageClientProviderKeys : List String
  UsedCU : Nat
deriving DecidableEq, Repr

/-- The `types.UniquePaymentStorageClientProvider` record, with the three fields the
source reads: `Index`, `Block` and `UsedCU`. -/
structure UniquePaymentStorageClientProvider where
  Index : String
  Block : Nat
  UsedCU : Nat
deriving DecidableEq, Repr

/-! ## Key-value stores -/

/-- A typed store under one type prefix. Every accessor of the keeper writes a record
under the key built from the record's own index (`SetEpochPayments` and its siblings), so
a store is a map from index to optional record in which every record sits under its own
index. -/
structure KVStore (α : Type) (index : α → String) where
  data : String → Option α
  wf : ∀ key v, data key = some v → index v = key

namespace KVStore

variable {α : Type} {index : α → String}

/-- The store with no entry. -/
def empty : KVStore α index :=
  { data := fun _ => none
    wf := fun _ _ h => by cases h }

/-- The `store.Get` operation. -/
def Get (s : KVStore α index) (key : String) : Option α := s.data key

/-- The `store.Set` operation at the key of the record's index. -/
def Set (s : KVStore α index) (v : α) : KVStore α index :=
  { data := Function.update s.data (index v) (some v)
    wf := fun key w h => by
      by_cases hk : key = index v
      · subst hk
        rw [Function.update_same] at h
        cases h
        rfl
      · rw [Function.update_noteq hk] at h
        exact s.wf key w h }

/-- The `store.Delete` operation. -/
def Delete (s : KVStore α index) (key : String) : KVStore α index :=
  { data := Function.update s.data key none
    wf := fun key2 w h => by
      by_cases hk : key2 = key
      · subst hk
        rw [Function.update_same] at h
        cases h
      · rw [Function.update_noteq hk] at h
        exact s.wf key2 w h }

/-- A `cachekv.Store` read: the dirty entries first, then the parent. -/
def cacheGet (cache parent : KVStore α index) (key : String) : Option α :=
  match cache.Get key with
  | some v => some v
  | none => parent.Get key

/-- The `cachekv.Store.Write` operation seen from the parent: every dirty entry is
written to the parent. -/
def cacheWrite (cache parent : KVStore α index) : KVStore α index :=
  { data := fun key => cacheGet cache parent key
    wf := fun key v h => by
      dsimp only [cacheGet, Get] at h
      cases hc : cache.data key with
      | none =>
        rw [hc] at h
        exact parent.wf key v h
      | some w =>
        rw [hc] at h
        cases h
        exact cache.wf key _ hc }

end KVStore

/-! ## Keys -/

/-- The `epochPaymentKey` function: `strconv.FormatUint(epoch, 16)`. -/
def epochPaymentKey (epoch : Nat) : String := String.mk (Nat.toDigits 16 epoch)

/-- The key helpers of the keeper that are not among the sources, taken as parameters:
how the key of a provider payment storage and of a unique usage record is built, and
how the consumer and the provider are read back from them. -/
structure KeyScheme where
  /-- Key of the provider payment storage of a chain, epoch and provider. -/
  GetProviderPaymentStorageKey : String → Nat → String → String
  /-- Key of the unique usage record of a chain, epoch, consumer (project), provider
  and request identifier. -/
  EncodeUniquePaymentKey : String → Nat → String → String → String → String
  /-- The `GetConsumerFromUniquePayment` helper. -/
  GetConsumerFromUniquePayment : String → String
  /-- The `GetProviderFromProviderPaymentStorage` helper; `none` is its error result. -/
  GetProviderFromProviderPaymentStorage : ProviderPaymentStorage → Option String

/-! ## Keeper and handler -/

/-- The keeper together with the block context: the three typed stores of the module and
the answer of the epoch storage keeper to `GetEarliestEpochStart`. -/
structure Keeper where
  epochPayments : KVStore EpochPayments EpochPayments.Index
  providerPaymentStorage : KVStore ProviderPaymentStorage ProviderPaymentStorage.Index
  uniquePaymentStorageClientProvider :
    KVStore UniquePaymentStorageClientProvider UniquePaymentStorageClientProvider.Index
  earliestEpochStart : Nat

/-- The `EpochPaymentHandler`: the keeper and the dirty entries of its three caches. -/
structure EpochPaymentHandler where
  keeper : Keeper
  EpochPaymentsCache : KVStore EpochPayments EpochPayments.Index
  ProviderPaymentStorageCache : KVStore ProviderPaymentStorage ProviderPaymentStorage.Index
  UniquePaymentStorageClientProviderCache :
    KVStore UniquePaymentStorageClientProvider UniquePaymentStorageClientProvider.Index

namespace Keeper

/-- The `SetEpochPayments` method. -/
def SetEpochPayments (k : Keeper) (epochPayments : EpochPayments) : Keeper :=
  { k with epochPayments := k.epochPayments.Set epochPayments }

/-- The `GetEpochPayments` method; `none` stands for `found = false`. -/
def GetEpochPayments (k : Keeper) (index : String) : Option EpochPayments :=
  k.epochPayments.Get index

/-- The `RemoveEpochPayments` method. -/
def RemoveEpochPayments (k : Keeper) (index : String) : Keeper :=
  { k with epochPayments := k.epochPayments.Delete index }

/-- The `GetEpochPaymentsFromBlock` method: the entry, if found, and the key. -/
def GetEpochPaymentsFromBlock (k : Keeper) (epoch : Nat) : Option EpochPayments × String :=
  (k.GetEpochPayments (epochPaymentKey epoch), epochPaymentKey epoch)

/-- Modelled from the spec: `GetProviderPaymentStorage` is called by the retirement but
is not among the sources; it reads the typed store of the provider payment storages as
`GetEpochPayments` reads the store of the entries (`none` stands for `found = false`). -/
def GetProviderPaymentStorage (k : Keeper) (index : String) : Option ProviderPaymentStorage :=
  k.providerPaymentStorage.Get index

/-- Modelled from the spec: `RemoveProviderPaymentStorage` is called by the retirement
but is not among the sources; it deletes from the typed store of the provider payment
storages as `RemoveEpochPayments` deletes from the store of the entries. -/
def RemoveProviderPaymentStorage (k : Keeper) (index : String) : Keeper :=
  { k with providerPaymentStorage := k.providerPaymentStorage.Delete index }

/-- Modelled from the spec: `GetUniquePaymentStorageClientProvider` is called by the
retirement but is not among the sources; it reads the typed store of the unique usage
records as `GetEpochPayments` reads the store of the entries. -/
def GetUniquePaymentStorageClientProvider (k : Keeper) (index : String) :
    Option UniquePaymentStorageClientProvider :=
  k.uniquePaymentStorageClientProvider.Get index

/-- Modelled from the spec: `RemoveUniquePaymentStorageClientProvider` is called by the
retirement but is not among the sources; it deletes from the typed store of the unique
usage records as `RemoveEpochPayments` deletes from the store of the entries. -/
def RemoveUniquePaymentStorageClientProvider (k : Keeper) (index : String) : Keeper :=
  { k with uniquePaymentStorageClientProvider :=
      k.uniquePaymentStorageClientProvider.Delete index }

/-- The `NewEpochPaymentHandler` method: three empty caches over the keeper stores. -/
def NewEpochPaymentHandler (k : Keeper) : EpochPaymentHandler :=
  { keeper := k
    EpochPaymentsCache := KVStore.empty
    ProviderPaymentStorageCache := KVStore.empty
    UniquePaymentStorageClientProviderCache := KVStore.empty }

end Keeper

namespace EpochPaymentHandler

/-- The `SetEpochPaymentsCached` method. -/
def SetEpochPaymentsCached (k : EpochPaymentHandler) (epochPayments : EpochPayments) :
    EpochPaymentHandler :=
  { k with EpochPaymentsCache := k.EpochPaymentsCache.Set epochPayments }

/-- The `GetEpochPaymentsCached` method. -/
def GetEpochPaymentsCached (k : EpochPaymentHandler) (index : String) : Option EpochPayments :=
  KVStore.cacheGet k.EpochPaymentsCache k.keeper.epochPayments index

/-- Modelled from the spec: the cached write of a provider payment storage is not among
the sources; it writes to `ProviderPaymentStorageCache` as `SetEpochPaymentsCached` writes
to `EpochPaymentsCache`. -/
def SetProviderPaymentStorageCached (k : EpochPaymentHandler) (s : ProviderPaymentStorage) :
    EpochPaymentHandler :=
  { k with ProviderPaymentStorageCache := k.ProviderPaymentStorageCache.Set s }

/-- Modelled from the spec: the cached read of a provider payment storage is not among
the sources; it reads through `ProviderPaymentStorageCache` as `GetEpochPaymentsCached`
reads through `EpochPaymentsCache`. -/
def GetProviderPaymentStorageCached (k : EpochPaymentHandler) (index : String) :
    Option ProviderPaymentStorage :=
  KVStore.cacheGet k.ProviderPaymentStorageCache k.keeper.providerPaymentStorage index

/-- Modelled from the spec: the cached write of a unique usage record is not among the
sources; it writes to `UniquePaymentStorageClientProviderCache` as `SetEpochPaymentsCached`
writes to `EpochPaymentsCache`. -/
def SetUniquePaymentStorageClientProviderCached (k : EpochPaymentHandler)
    (u : UniquePaymentStorageClientProvider) : EpochPaymentHandler :=
  { k with UniquePaymentStorageClientProviderCache :=
      k.UniquePaymentStorageClientProviderCache.Set u }

/-- Modelled from the spec: the cached read of a unique usage record is not among the
sources; it reads through `UniquePaymentStorageClientProviderCache` as
`GetEpochPaymentsCached` reads through `EpochPaymentsCache`. -/
def GetUniquePaymentStorageClientProviderCached (k : EpochPaymentHandler) (index : String) :
    Option UniquePaymentStorageClientProvider :=
  KVStore.cacheGet k.UniquePaymentStorageClientProviderCache
    k.keeper.uniquePaymentStorageClientProvider index

/-- The `Flush` method: the three caches are written to the stores and emptied. -/
def Flush (k : EpochPaymentHandler) : EpochPaymentHandler :=
  { keeper :=
      { k.keeper with
        epochPayments := KVStore.cacheWrite k.EpochPaymentsCache k.keeper.epochPayments
        providerPaymentStorage :=
          KVStore.cacheWrite k.ProviderPaymentStorageCache k.keeper.providerPaymentStorage
        uniquePaymentStorageClientProvider :=
          KVStore.cacheWrite k.UniquePaymentStorageClientProviderCache
            k.keeper.uniquePaymentStorageClientProvider }
    EpochPaymentsCache := KVStore.empty
    ProviderPaymentStorageCache := KVStore.empty
    UniquePaymentStorageClientProviderCache := KVStore.empty }

/-- Modelled from the spec: `AddProviderPaymentInEpoch` is not among the sources. Following
the spec, it (1) upserts the unique usage record of (consumer, provider, epoch, request),
leaving an existing record as it is, and (2) upserts the provider payment storage of the
epoch, appending the record key and adding `usedCU` to the aggregate only when the request
is seen for the first time. It returns the stored provider payment storage and the
aggregate of the provider for the epoch. All reads and writes go through the caches. -/
def AddProviderPaymentInEpoch (ks : KeyScheme) (k : EpochPaymentHandler) (chainID : String)
    (epoch : Nat) (projectID providerAddress : String) (usedCU : Nat)
    (uniqueIdentifier : String) : EpochPaymentHandler × ProviderPaymentStorage × Nat :=
  let uniqueKey := ks.EncodeUniquePaymentKey chainID epoch projectID providerAddress
    uniqueIdentifier
  let storageKey := ks.GetProviderPaymentStorageKey chainID epoch providerAddress
  let firstSeen := (k.GetUniquePaymentStorageClientProviderCached uniqueKey).isNone
  let k1 :=
    if firstSeen then
      k.SetUniquePaymentStorageClientProviderCached
        { Index := uniqueKey, Block := epoch, UsedCU := usedCU }
    else k
  let storage : ProviderPaymentStorage :=
    match k1.GetProviderPaymentStorageCached storageKey with
    | some s => s
    | none =>
      { Index := storageKey, UniquePaymentStorageClientProviderKeys := [],
        UsedCU := 0 }
  let storage :=
    if firstSeen then
      { storage with
        UniquePaymentStorageClientProviderKeys :=
          storage.UniquePaymentStorageClientProviderKeys ++ [uniqueKey]
        UsedCU := addU64 storage.UsedCU usedCU }
    else storage
  (k1.SetProviderPaymentStorageCached storage, storage, storage.UsedCU)

/-- The search loop of `AddEpochPayment` (lines 144-150): is `index` one of `keys`? -/
def providerPaymentStorageKeyFound (index : String) : List String → Bool
  | [] => false
  | providerPaymentStorageKey :: rest =>
    if providerPaymentStorageKey = index then true
    else providerPaymentStorageKeyFound index rest

/-- The `AddEpochPayment` method: the handler after the call and the value returned. -/
def AddEpochPayment (ks : KeyScheme) (k : EpochPaymentHandler) (chainID : String)
    (epoch : Nat) (projectID providerAddress : String) (usedCU : Nat)
    (uniqueIdentifier : String) : EpochPaymentHandler × Nat :=
  if epoch < k.keeper.earliestEpochStart then (k, 0)
  else
    let (k, userPaymentProviderStorage, usedCUProviderTotal) :=
      AddProviderPaymentInEpoch ks k chainID epoch projectID providerAddress usedCU
        uniqueIdentifier
    let key := epochPaymentKey epoch
    let epochPayments : EpochPayments :=
      match k.GetEpochPaymentsCached key with
      | none =>
        { Index := key, ProviderPaymentStorageKeys := [userPaymentProviderStorage.Index] }
      | some epochPayments =>
        if providerPaymentStorageKeyFound userPaymentProviderStorage.Index
            epochPayments.ProviderPaymentStorageKeys then epochPayments
        else
          { epochPayments with
            ProviderPaymentStorageKeys :=
              epochPayments.ProviderPaymentStorageKeys ++ [userPaymentProviderStorage.Index] }
    (k.SetEpochPaymentsCached epochPayments, usedCUProviderTotal)

end EpochPaymentHandler

/-! ## Retirement of an epoch -/

/-- The local type `couplingConsumerProvider` of the retirement function. -/
structure couplingConsumerProvider where
  consumer : String
  provider : String
deriving DecidableEq, Repr

/-- A Go `map[K]uint64`: the keys that are present and their values. -/
abbrev UsageMap (κ : Type) := κ → Option Nat

namespace UsageMap

variable {κ : Type} [DecidableEq κ]

/-- The empty map literal. -/
def empty : UsageMap κ := fun _ => none

/-- The comma-ok test `_, ok := m[key]`. -/
def has (m : UsageMap κ) (key : κ) : Bool := (m key).isSome

/-- The read `m[key]`: an absent key reads as zero. -/
def read (m : UsageMap κ) (key : κ) : Nat := (m key).getD 0

/-- The statement `m[key] += v` on `uint64` values. -/
def add (m : UsageMap κ) (key : κ) (v : Nat) : UsageMap κ :=
  Function.update m key (some (addU64 (m.read key) v))

end UsageMap

/-- One call `AppendAdjustment(ctx, consumer, provider, consumerUsage, couplingUsage)` to
the subscription keeper. -/
structure Adjustment where
  consumer : String
  provider : String
  consumerUsage : Nat
  couplingUsage : Nat
deriving DecidableEq, Repr

/-- The state of the retirement scan: the keeper and the three locals `consumerUsage`,
`iterationOrder` and `couplingUsage`. -/
structure RemovalState where
  keeper : Keeper
  consumerUsage : UsageMap String
  iterationOrder : List couplingConsumerProvider
  couplingUsage : UsageMap couplingConsumerProvider

namespace Keeper

/-- The body of the inner loop of the retirement function (lines 192-227), for one key of
the provider payment storage. -/
def removeUniquePayment (ks : KeyScheme) (blockForDelete : Nat)
    (providerPaymentStorage : ProviderPaymentStorage) (st : RemovalState)
    (uniquePaymentStorageKey : String) : RemovalState :=
  match st.keeper.GetUniquePaymentStorageClientProvider uniquePaymentStorageKey with
  | none => st
  | some uniquePaymentStorage =>
    if uniquePaymentStorage.Block > blockForDelete then st
    else
      let keeper :=
        st.keeper.RemoveUniquePaymentStorageClientProvider uniquePaymentStorage.Index
      let consumer := ks.GetConsumerFromUniquePayment uniquePaymentStorageKey
      match ks.GetProviderFromProviderPaymentStorage providerPaymentStorage with
      | none => { st with keeper := keeper }
      | some provider =>
        let coupling : couplingConsumerProvider := { consumer := consumer, provider := provider }
        { keeper := keeper
          iterationOrder :=
            if st.couplingUsage.has coupling then st.iterationOrder
            else st.iterationOrder ++ [coupling]
          consumerUsage := st.consumerUsage.add consumer uniquePaymentStorage.UsedCU
          couplingUsage := st.couplingUsage.add coupling uniquePaymentStorage.UsedCU }

/-- The body of the outer loop of the retirement function (lines 183-231), for one key of
the epoch payments entry. -/
def removeProviderPayments (ks : KeyScheme) (blockForDelete : Nat) (st : RemovalState)
    (userPaymentStorageKey : String) : RemovalState :=
  match st.keeper.GetProviderPaymentStorage userPaymentStorageKey with
  | none => st
  | some providerPaymentStorage =>
    let st :=
      providerPaymentStorage.UniquePaymentStorageClientProviderKeys.foldl
        (removeUniquePayment ks blockForDelete providerPaymentStorage) st
    { st with keeper := st.keeper.RemoveProviderPaymentStorage providerPaymentStorage.Index }

/-- The scan of the retirement function: both loops, from empty locals. -/
def removalScan (ks : KeyScheme) (k : Keeper) (blockForDelete : Nat)
    (userPaymentsStorageKeys : List String) : RemovalState :=
  userPaymentsStorageKeys.foldl (removeProviderPayments ks blockForDelete)
    { keeper := k
      consumerUsage := UsageMap.empty
      iterationOrder := []
      couplingUsage := UsageMap.empty }

/-- The last loop of the retirement function (lines 232-234): one adjustment per element
of `iterationOrder`, with the totals read from the two maps. -/
def appendAdjustments (st : RemovalState) : List Adjustment :=
  st.iterationOrder.map fun coupling =>
    { consumer := coupling.consumer
      provider := coupling.provider
      consumerUsage := st.consumerUsage.read coupling.consumer
      couplingUsage := st.couplingUsage.read coupling }

/-- The `RemoveAllEpochPaymentsForBlockAppendAdjustments` method: the keeper after the
call and the adjustments appended, in order. -/
def RemoveAllEpochPaymentsForBlockAppendAdjustments (ks : KeyScheme) (k : Keeper)
    (blockForDelete : Nat) : Keeper × List Adjustment :=
  match k.GetEpochPaymentsFromBlock blockForDelete with
  | (none, _) => (k, [])
  | (some epochPayments, key) =>
    let st := removalScan ks k blockForDelete epochPayments.ProviderPaymentStorageKeys
    (st.keeper.RemoveEpochPayments key, appendAdjustments st)

end Keeper

/-! ## Counted records

The records that the retirement scan counts, described without the bookkeeping of the
scan: a record is counted when it is found under a key listed by a provider payment
storage that is itself found under a key listed by the epoch entry, its block is at most
the block for delete, and the provider of its storage can be read. -/

/-- A counted record: its key, the pair it belongs to and its `UsedCU`. -/
structure CountedRecord where
  key : String
  coupling : couplingConsumerProvider
  usedCU : Nat
deriving DecidableEq, Repr

namespace Keeper

/-- What the scan does with one key of a provider payment storage: the keeper after the
step and the record counted by it, if any. -/
def countUniquePayment (ks : KeyScheme) (blockForDelete : Nat)
    (providerPaymentStorage : ProviderPaymentStorage) (k : Keeper)
    (uniquePaymentStorageKey : String) : Keeper × Option CountedRecord :=
  match k.GetUniquePaymentStorageClientProvider uniquePaymentStorageKey with
  | none => (k, none)
  | some uniquePaymentStorage =>
    if uniquePaymentStorage.Block > blockForDelete then (k, none)
    else
      (k.RemoveUniquePaymentStorageClientProvider uniquePaymentStorage.Index,
        (ks.GetProviderFromProviderPaymentStorage providerPaymentStorage).map fun provider =>
          { key := uniquePaymentStorageKey
            coupling :=
              { consumer := ks.GetConsumerFromUniquePayment uniquePaymentStorageKey
                provider := provider }
            usedCU := uniquePaymentStorage.UsedCU })

/-- The records counted under the keys of one provider payment storage, in list order,
and the keeper after them. -/
def countUniquePayments (ks : KeyScheme) (blockForDelete : Nat)
    (providerPaymentStorage : ProviderPaymentStorage) :
    Keeper → List String → Keeper × List CountedRecord
  | k, [] => (k, [])
  | k, key :: rest =>
    let r := countUniquePayment ks blockForDelete providerPaymentStorage k key
    let rs := countUniquePayments ks blockForDelete providerPaymentStorage r.1 rest
    (rs.1, r.2.toList ++ rs.2)

/-- The records counted under the keys of an epoch entry, in scan order, and the keeper
after the scan. -/
def countProviderPayments (ks : KeyScheme) (blockForDelete : Nat) :
    Keeper → List String → Keeper × List CountedRecord
  | k, [] => (k, [])
  | k, key :: rest =>
    match k.GetProviderPaymentStorage key with
    | none => countProviderPayments ks blockForDelete k rest
    | some providerPaymentStorage =>
      let r :=
        countUniquePayments ks blockForDelete providerPaymentStorage k
          providerPaymentStorage.UniquePaymentStorageClientProviderKeys
      let rs :=
        countProviderPayments ks blockForDelete
          (r.1.RemoveProviderPaymentStorage providerPaymentStorage.Index) rest
      (rs.1, r.2 ++ rs.2)

/-- The records counted by the retirement of `blockForDelete`, in scan order. -/
def countedRecords (ks : KeyScheme) (k : Keeper) (blockForDelete : Nat) :
    List CountedRecord :=
  match k.GetEpochPayments (epochPaymentKey blockForDelete) with
  | none => []
  | some epochPayments =>
    (countProviderPayments ks blockForDelete k epochPayments.ProviderPaymentStorageKeys).2

end Keeper

/-- Sum of the `UsedCU` of the counted records of one pair. -/
def couplingTotal (records : List CountedRecord) (coupling : couplingConsumerProvider) : Nat :=
  ((records.filter fun r => r.coupling = coupling).map CountedRecord.usedCU).sum

/-- Sum of the `UsedCU` of the counted records of one consumer, over all its providers. -/
def consumerTotal (records : List CountedRecord) (consumer : String) : Nat :=
  ((records.filter fun r => r.coupling.consumer = consumer).map CountedRecord.usedCU).sum

/-- The pair of an adjustment. -/
def Adjustment.coupling (a : Adjustment) : couplingConsumerProvider :=
  { consumer := a.consumer, provider := a.provider }

/-! ## Scenario data -/

/-- A sample key scheme for the scenarios: the key of a provider payment storage is
`chain_epoch_provider`, the key of a unique usage record starts with the consumer. -/
def sampleKeys : KeyScheme where
  GetProviderPaymentStorageKey chainID epoch provider :=
    chainID ++ "_" ++ epochPaymentKey epoch ++ "_" ++ provider
  EncodeUniquePaymentKey chainID epoch projectID provider uniqueIdentifier :=
    projectID ++ "/" ++ provider ++ "/" ++ epochPaymentKey epoch ++ "/" ++
      uniqueIdentifier ++ "/" ++ chainID
  GetConsumerFromUniquePayment key := String.mk (key.data.takeWhile fun c => c ≠ '/')
  GetProviderFromProviderPaymentStorage s :=
    if '_' ∈ s.Index.data then
      some (String.mk (s.Index.data.reverse.takeWhile fun c => c ≠ '_').reverse)
    else none

/-- The keeper with three empty stores and the given earliest retained epoch start. -/
def emptyKeeper (earliestEpochStart : Nat) : Keeper :=
  { epochPayments := KVStore.empty
    providerPaymentStorage := KVStore.empty
    uniquePaymentStorageClientProvider := KVStore.empty
    earliestEpochStart := earliestEpochStart }

/-! ## Description of the entry written by `AddEpochPayment` -/

/-- The entry that `AddEpochPayment` writes back (lines 138-156), given what it found under
the key of the epoch and the index of the provider payment storage. -/
def entryWithKey (found : Option EpochPayments) (key index : String) : EpochPayments :=
  match found with
  | none => { Index := key, ProviderPaymentStorageKeys := [index] }
  | some epochPayments =>
    if index ∈ epochPayments.ProviderPaymentStorageKeys then epochPayments
    else
      { epochPayments with
        ProviderPaymentStorageKeys := epochPayments.ProviderPaymentStorageKeys ++ [index] }

/-- The handler states that can be reached from an empty ledger by recording usage,
flushing, and retiring epochs. -/
inductive Reachable (ks : KeyScheme) : EpochPaymentHandler → Prop
  | init (earliestEpochStart : Nat) :
    Reachable ks (emptyKeeper earliestEpochStart).NewEpochPaymentHandler
  | add (k : EpochPaymentHandler) (chainID : String) (epoch : Nat)
      (projectID providerAddress : String) (usedCU : Nat) (uniqueIdentifier : String) :
    Reachable ks k →
    Reachable ks
      (EpochPaymentHandler.AddEpochPayment ks k chainID epoch projectID providerAddress usedCU
        uniqueIdentifier).1
  | flush (k : EpochPaymentHandler) : Reachable ks k → Reachable ks k.Flush
  | remove (k : EpochPaymentHandler) (blockForDelete : Nat) :
    Reachable ks k →
    Reachable ks
      { k with
        keeper :=
          (k.keeper.RemoveAllEpochPaymentsForBlockAppendAdjustments ks blockForDelete).1 }

/-- Every entry of the epochs, in the cache or in the store, lists each key of a provider
payment storage at most once. -/
def DedupEntries (k : EpochPaymentHandler) : Prop :=
  ∀ index epochPayments,
    (k.EpochPaymentsCache.Get index = some epochPayments ∨
      k.keeper.epochPayments.Get index = some epochPayments) →
    epochPayments.ProviderPaymentStorageKeys.Nodup

/-! ## Bookkeeping of the retirement scan -/

/-- What the scan does to its three locals when it counts a record (lines 220-226). -/
def RemovalState.count (st : RemovalState) (r : CountedRecord) : RemovalState :=
  { keeper := st.keeper
    iterationOrder :=
      if st.couplingUsage.has r.coupling then st.iterationOrder
      else st.iterationOrder ++ [r.coupling]
    consumerUsage := st.consumerUsage.add r.coupling.consumer r.usedCU
    couplingUsage := st.couplingUsage.add r.coupling r.usedCU }

/-- The three locals of the scan describe the records counted so far: `iterationOrder`
holds the pairs of the records once each in the order of their first record, and the two
maps hold the totals per pair and per consumer, as `uint64` values. -/
structure Tallied (st : RemovalState) (records : List CountedRecord) : Prop where
  nodup : st.iterationOrder.Nodup
  mem : ∀ c, c ∈ st.iterationOrder ↔ c ∈ records.map CountedRecord.coupling
  has : ∀ c, st.couplingUsage.has c = true ↔ c ∈ records.map CountedRecord.coupling
  order : st.iterationOrder.Pairwise fun a b =>
    (records.map CountedRecord.coupling).indexOf a
      < (records.map CountedRecord.coupling).indexOf b
  coupling : ∀ c, st.couplingUsage.read c = couplingTotal records c % 2 ^ 64
  consumer : ∀ x, st.consumerUsage.read x = consumerTotal records x % 2 ^ 64

/-! ## Scenarios -/

/-- The scenario of the spec: on an empty ledger, consumer `c1` uses provider `p1` in epoch
7, first 50 compute units (request `r1`), then 30 (request `r2`). -/
def scenarioHandler : EpochPaymentHandler :=
  (EpochPaymentHandler.AddEpochPayment sampleKeys
    (EpochPaymentHandler.AddEpochPayment sampleKeys (emptyKeeper 0).NewEpochPaymentHandler
      "LAV1" 7 "c1" "p1" 50 "r1").1
    "LAV1" 7 "c1" "p1" 30 "r2").1

/-- The keeper of the scenario after `Flush`. -/
def scenarioKeeper : Keeper := scenarioHandler.Flush.keeper

/-- A ledger in which the usage of one pair exceeds the `uint64` range: consumer `c1` uses
provider `p1` in epoch 7 twice, `2 ^ 63` compute units each time. -/
def wrapHandler : EpochPaymentHandler :=
  (EpochPaymentHandler.AddEpochPayment sampleKeys (emptyKeeper 0).NewEpochPaymentHandler
    "LAV1" 7 "c1" "p1" (2 ^ 63) "r1").1

/-- The keeper of the ledger of `wrapHandler` after the second usage and `Flush`. -/
def wrapKeeper : Keeper :=
  (EpochPaymentHandler.AddEpochPayment sampleKeys wrapHandler
    "LAV1" 7 "c1" "p1" (2 ^ 63) "r2").1.Flush.keeper

/-- The ledger of the scenario in which the record of request `r2` carries block 9, beyond
epoch 7. -/
def beyondKeeper : Keeper :=
  { scenarioKeeper with
    uniquePaymentStorageClientProvider :=
      scenarioKeeper.uniquePaymentStorageClientProvider.Set
        { Index := sampleKeys.EncodeUniquePaymentKey "LAV1" 7 "c1" "p1" "r2"
          Block := 9
          UsedCU := 30 } }

/-! ## Sequences of usage calls -/

/-- The arguments of one call of `AddEpochPayment`. -/
structure UsageCall where
  chainID : String
  epoch : Nat
  projectID : String
  providerAddress : String
  usedCU : Nat
  uniqueIdentifier : String
deriving DecidableEq, Repr

namespace UsageCall

/-- The key of the unique usage record of the call. -/
def uniqueKey (ks : KeyScheme) (c : UsageCall) : String :=
  ks.EncodeUniquePaymentKey c.chainID c.epoch c.projectID c.providerAddress c.uniqueIdentifier

/-- The key of the provider payment storage of the call. -/
def storageKey (ks : KeyScheme) (c : UsageCall) : String :=
  ks.GetProviderPaymentStorageKey c.chainID c.epoch c.providerAddress

end UsageCall

namespace EpochPaymentHandler

/-- The call `AddEpochPayment` with the arguments of `c`. -/
def record (ks : KeyScheme) (k : EpochPaymentHandler) (c : UsageCall) :
    EpochPaymentHandler × Nat :=
  AddEpochPayment ks k c.chainID c.epoch c.projectID c.providerAddress c.usedCU
    c.uniqueIdentifier

/-- The handler after a sequence of calls of `AddEpochPayment`, in order. -/
def recordAll (ks : KeyScheme) (k : EpochPaymentHandler) (calls : List UsageCall) :
    EpochPaymentHandler :=
  calls.foldl (fun k c => (k.record ks c).1) k

end EpochPaymentHandler

/-- The calls of a sequence whose usage is recorded, extended by one call: a call is
recorded when its epoch is retained and no recorded call before it has its unique key. -/
def recordedStep (ks : KeyScheme) (earliestEpochStart : Nat) (recorded : List UsageCall)
    (c : UsageCall) : List UsageCall :=
  if c.epoch < earliestEpochStart then recorded
  else if c.uniqueKey ks ∈ recorded.map (UsageCall.uniqueKey ks) then recorded
  else recorded ++ [c]

/-- The calls of a sequence whose usage is recorded, in order: the distinct requests of
the retained epochs. -/
def recordedCalls (ks : KeyScheme) (earliestEpochStart : Nat) (calls : List UsageCall) :
    List UsageCall :=
  calls.foldl (recordedStep ks earliestEpochStart) []

/-- Sum of the compute units of the recorded calls of one provider payment storage. -/
def storageTotal (ks : KeyScheme) (recorded : List UsageCall) (storageKey : String) : Nat :=
  ((recorded.filter fun c => c.storageKey ks = storageKey).map UsageCall.usedCU).sum

/-- The ledger seen through the caches holds exactly the recorded calls: one unique usage
record per recorded call, in each provider payment storage the keys and the total of the
recorded calls of that storage, and in each entry of an epoch keys of provider payment
storages of calls seen for that epoch (`seen` are the calls for retained epochs, recorded
or repeated). -/
structure Ledger (ks : KeyScheme) (k : EpochPaymentHandler) (seen recorded : List UsageCall) :
    Prop where
  sub : ∀ c ∈ recorded, c ∈ seen
  nodup : (recorded.map (UsageCall.uniqueKey ks)).Nodup
  present : ∀ c ∈ recorded,
    k.GetUniquePaymentStorageClientProviderCached (c.uniqueKey ks)
      = some { Index := c.uniqueKey ks, Block := c.epoch, UsedCU := c.usedCU }
  absent : ∀ u, u ∉ recorded.map (UsageCall.uniqueKey ks) →
    k.GetUniquePaymentStorageClientProviderCached u = none
  storage : ∀ s st, k.GetProviderPaymentStorageCached s = some st →
    st.UniquePaymentStorageClientProviderKeys
        = (recorded.filter fun c => c.storageKey ks = s).map (UsageCall.uniqueKey ks) ∧
      st.UsedCU = storageTotal ks recorded s % 2 ^ 64
  stored : ∀ c ∈ recorded, (k.GetProviderPaymentStorageCached (c.storageKey ks)).isSome = true
  listed : ∀ c ∈ recorded, ∃ epochPayments,
    k.GetEpochPaymentsCached (epochPaymentKey c.epoch) = some epochPayments ∧
      c.storageKey ks ∈ epochPayments.ProviderPaymentStorageKeys
  entries : ∀ index epochPayments, k.GetEpochPaymentsCached index = some epochPayments →
    epochPayments.ProviderPaymentStorageKeys.Nodup ∧
      ∀ s ∈ epochPayments.ProviderPaymentStorageKeys, ∃ c ∈ seen,
        index = epochPaymentKey c.epoch ∧ s = c.storageKey ks

/-- The first call of the ledger of `wrapHandler`. -/
def wrapCall1 : UsageCall :=
  { chainID := "LAV1", epoch := 7, projectID := "c1", providerAddress := "p1",
    usedCU := 2 ^ 63, uniqueIdentifier := "r1" }

/-- The second call of the ledger of `wrapHandler`. -/
def wrapCall2 : UsageCall :=
  { chainID := "LAV1", epoch := 7, projectID := "c1", providerAddress := "p1",
    usedCU := 2 ^ 63, uniqueIdentifier := "r2" }

/-- The first call of the scenario of the spec. -/
def scenarioCall1 : UsageCall :=
  { chainID := "LAV1", epoch := 7, projectID := "c1", providerAddress := "p1",
    usedCU := 50, uniqueIdentifier := "r1" }

/-- The second call of the scenario of the spec. -/
def scenarioCall2 : UsageCall :=
  { chainID := "LAV1", epoch := 7, projectID := "c1", providerAddress := "p1",
    usedCU := 30, uniqueIdentifier := "r2" }

/-! ## Reading a hexadecimal key back -/

/-- The value of a hexadecimal digit (lower case), 0 for any other character. -/
def hexDigitValue (c : Char) : Nat :=
  if c = '0' then 0 else if c = '1' then 1 else if c = '2' then 2 else if c = '3' then 3
  else if c = '4' then 4 else if c = '5' then 5 else if c = '6' then 6 else if c = '7' then 7
  else if c = '8' then 8 else if c = '9' then 9 else if c = 'a' then 10
  else if c = 'b' then 11 else if c = 'c' then 12 else if c = 'd' then 13
  else if c = 'e' then 14 else if c = 'f' then 15 else 0

/-- The number written by a list of hexadecimal digits, most significant first. -/
def hexValue (digits : List Char) : Nat :=
  digits.foldl (fun acc c => acc * 16 + hexDigitValue c) 0

/-! ## Usage held by a store -/

/-- The `UsedCU` of the record under a key of the store, 0 when there is none. -/
def Keeper.usedCUAt (k : Keeper) (key : String) : Nat :=
  match k.GetUniquePaymentStorageClientProvider key with
  | some uniquePaymentStorage => uniquePaymentStorage.UsedCU
  | none => 0

/-- The sum of the `UsedCU` of the records listed by the provider payment storage under a
key of the store, 0 when there is none. -/
def Keeper.storageUsage (k : Keeper) (key : String) : Nat :=
  match k.GetProviderPaymentStorage key with
  | some providerPaymentStorage =>
    (providerPaymentStorage.UniquePaymentStorageClientProviderKeys.map k.usedCUAt).sum
  | none => 0

/-- Sum of the compute units of the recorded calls of one epoch. -/
def epochTotal (recorded : List UsageCall) (epoch : Nat) : Nat :=
  ((recorded.filter fun c => c.epoch = epoch).map UsageCall.usedCU).sum

/-! ## The calls of a retirement, in order -/

/-- A call of the retirement function that deletes from a store or reaches the
subscription keeper: `RemoveUniquePaymentStorageClientProvider` (line 212),
`RemoveProviderPaymentStorage` (line 230), `AppendAdjustment` (line 233) and
`RemoveEpochPayments` (line 236). -/
inductive RemovalCall
  | removeUnique (index : String)
  | removeProvider (index : String)
  | appendAdjustment (adjustment : Adjustment)
  | removeEpochPayments (index : String)
deriving DecidableEq, Repr

/-- The keeper after a call. -/
def RemovalCall.apply (k : Keeper) : RemovalCall → Keeper
  | .removeUnique index => k.RemoveUniquePaymentStorageClientProvider index
  | .removeProvider index => k.RemoveProviderPaymentStorage index
  | .appendAdjustment _ => k
  | .removeEpochPayments index => k.RemoveEpochPayments index

namespace Keeper

/-- The deleting calls of one pass of the inner loop (lines 192-227), for one key. -/
def uniquePaymentCalls (blockForDelete : Nat) (k : Keeper) (uniquePaymentStorageKey : String) :
    List RemovalCall :=
  match k.GetUniquePaymentStorageClientProvider uniquePaymentStorageKey with
  | none => []
  | some uniquePaymentStorage =>
    if uniquePaymentStorage.Block > blockForDelete then []
    else [.removeUnique uniquePaymentStorage.Index]

/-- The deleting calls of the inner loop over the keys of a provider payment storage, in
order; each pass runs on the keeper left by the calls before it. -/
def uniquePaymentsCalls (blockForDelete : Nat) : Keeper → List String → List RemovalCall
  | _, [] => []
  | k, key :: rest =>
    uniquePaymentCalls blockForDelete k key ++
      uniquePaymentsCalls blockForDelete
        ((uniquePaymentCalls blockForDelete k key).foldl RemovalCall.apply k) rest

/-- The deleting calls of one pass of the outer loop (lines 183-231): those of the inner
loop, then the deletion of the provider payment storage. -/
def providerPaymentCalls (blockForDelete : Nat) (k : Keeper) (userPaymentStorageKey : String) :
    List RemovalCall :=
  match k.GetProviderPaymentStorage userPaymentStorageKey with
  | none => []
  | some providerPaymentStorage =>
    uniquePaymentsCalls blockForDelete k
        providerPaymentStorage.UniquePaymentStorageClientProviderKeys ++
      [.removeProvider providerPaymentStorage.Index]

/-- The deleting calls of the outer loop over the keys of the entry, in order. -/
def providerPaymentsCalls (blockForDelete : Nat) : Keeper → List String → List RemovalCall
  | _, [] => []
  | k, key :: rest =>
    providerPaymentCalls blockForDelete k key ++
      providerPaymentsCalls blockForDelete
        ((providerPaymentCalls blockForDelete k key).foldl RemovalCall.apply k) rest

/-- The calls of `RemoveAllEpochPaymentsForBlockAppendAdjustments`, in order: the scan, the
adjustments, the deletion of the entry. -/
def removalCalls (ks : KeyScheme) (k : Keeper) (blockForDelete : Nat) : List RemovalCall :=
  match k.GetEpochPaymentsFromBlock blockForDelete with
  | (none, _) => []
  | (some epochPayments, key) =>
    providerPaymentsCalls blockForDelete k epochPayments.ProviderPaymentStorageKeys ++
      (RemoveAllEpochPaymentsForBlockAppendAdjustments ks k blockForDelete).2.map
        RemovalCall.appendAdjustment ++
      [.removeEpochPayments key]

/-- The calls of the scan of one found provider payment storage: the deletions of some of
its records, then its own deletion. -/
def storageCalls (deleted : List String) (index : String) : List RemovalCall :=
  deleted.map RemovalCall.removeUnique ++ [.removeProvider index]

end Keeper

/-- A ledger with two epochs: the scenario of the spec in epoch 7 and one usage of provider
`p2` by consumer `c2` in epoch 8, flushed. -/
def twoEpochsKeeper : Keeper :=
  (EpochPaymentHandler.AddEpochPayment sampleKeys scenarioHandler
    "LAV1" 8 "c2" "p2" 20 "r3").1.Flush.keeper

/-! ## Block references of a batch (`protocol/chainlib/common.go`) -/

/-- The symbolic block references of `x/spec/types` that `common.go` names. Their
values are declared outside the sources at hand, so they are parameters here. -/
structure BlockTags where
  NOT_APPLICABLE : Int
  LATEST_BLOCK : Int
  EARLIEST_BLOCK : Int
  PENDING_BLOCK : Int
  SAFE_BLOCK : Int
  FINALIZED_BLOCK : Int

/-- The local closure `returnBigger` of `CompareRequestedBlockInBatch`: the larger of the
two numbers first. -/
def returnBigger (in_first in_second : Int) : Int × Int :=
  if in_first > in_second then (in_first, in_second) else (in_second, in_first)

/-- `CompareRequestedBlockInBatch`: the pair (latest, earliest) of two requested blocks.
The operands are `int64`; nothing is added or subtracted, so integers stand for them. -/
def CompareRequestedBlockInBatch (tags : BlockTags) (firstRequestedBlock second : Int) :
    Int × Int :=
  if firstRequestedBlock = tags.EARLIEST_BLOCK then (second, firstRequestedBlock)
  else if second = tags.EARLIEST_BLOCK then (firstRequestedBlock, second)
  else if firstRequestedBlock < 0 then
    if second < 0 then returnBigger firstRequestedBlock second
    else (firstRequestedBlock, second)
  else if second < 0 then (second, firstRequestedBlock)
  else returnBigger firstRequestedBlock second

/-- The five symbolic tags other than earliest. -/
def BlockTags.symbolic (tags : BlockTags) : List Int :=
  [tags.NOT_APPLICABLE, tags.LATEST_BLOCK, tags.PENDING_BLOCK, tags.SAFE_BLOCK,
    tags.FINALIZED_BLOCK]

/-- The encoding that the comparisons of `CompareRequestedBlockInBatch` rely on: the
five tags are negative numbers in the order of the hierarchy of the comment above the
function (finalized, safe, pending, latest, not applicable, from the smallest), and
earliest is a negative number that is none of the five. -/
def BlockTags.Ranked (tags : BlockTags) : Prop :=
  tags.FINALIZED_BLOCK < tags.SAFE_BLOCK ∧ tags.SAFE_BLOCK < tags.PENDING_BLOCK ∧
  tags.PENDING_BLOCK < tags.LATEST_BLOCK ∧ tags.LATEST_BLOCK < tags.NOT_APPLICABLE ∧
  tags.NOT_APPLICABLE < 0 ∧ tags.EARLIEST_BLOCK < 0 ∧
  tags.EARLIEST_BLOCK ∉ tags.symbolic

instance (tags : BlockTags) : Decidable tags.Ranked := by
  unfold BlockTags.Ranked
  infer_instance

/-- Modelled from the spec: the values of the constants of `x/spec/types` are not part
of the sources at hand. An encoding with the five tags negative and in the order of
their priority, and with earliest between latest and pending. -/
def sampleTags : BlockTags where
  NOT_APPLICABLE := -1
  LATEST_BLOCK := -2
  EARLIEST_BLOCK := -3
  PENDING_BLOCK := -4
  SAFE_BLOCK := -5
  FINALIZED_BLOCK := -6

/-- The block references of the spec: the concrete heights, which are not negative,
earliest, and the five symbolic tags. -/
def BlockTags.InDomain (tags : BlockTags) (a : Int) : Prop :=
  0 ≤ a ∨ a = tags.EARLIEST_BLOCK ∨ a ∈ tags.symbolic

instance (tags : BlockTags) (a : Int) : Decidable (tags.InDomain a) := by
  unfold BlockTags.InDomain
  infer_instance

/-- The priority of a symbolic tag in the words of the spec: not applicable is the
highest, then latest, pending, safe and finalized. Any other number has priority 0. -/
def BlockTags.priority (tags : BlockTags) (a : Int) : Nat :=
  if a = tags.NOT_APPLICABLE then 5
  else if a = tags.LATEST_BLOCK then 4
  else if a = tags.PENDING_BLOCK then 3
  else if a = tags.SAFE_BLOCK then 2
  else if a = tags.FINALIZED_BLOCK then 1
  else 0

/-- The rank of a block reference in the words of the spec, as a pair that is compared
first by its class and then inside the class: earliest is alone in the lowest class, the
concrete heights come next in their numeric order, and the symbolic tags are the highest
class in the order of their priority. -/
def BlockTags.rank (tags : BlockTags) (a : Int) : Nat × Int :=
  if a = tags.EARLIEST_BLOCK then (0, 0)
  else if a ∈ tags.symbolic then (2, (tags.priority a : Int))
  else (1, a)

/-- The order of two ranks: by class first, inside a class by the second component. -/
def rankLT (r s : Nat × Int) : Prop :=
  r.1 < s.1 ∨ (r.1 = s.1 ∧ r.2 < s.2)

instance (r s : Nat × Int) : Decidable (rankLT r s) := by
  unfold rankLT
  infer_instance

/-- One step of the fold over the requested blocks of a batch: the latest so far and the
earliest so far are each combined with the next block. -/
def combineStep (tags : BlockTags) (bounds : Int × Int) (requestedBlock : Int) : Int × Int :=
  ((CompareRequestedBlockInBatch tags bounds.1 requestedBlock).1,
    (CompareRequestedBlockInBatch tags bounds.2 requestedBlock).2)

/-- Modelled from the spec: the caller that folds `CompareRequestedBlockInBatch` over
the requested blocks of a batch is not part of the sources at hand. Left to right, from
the first block as both bounds; an empty batch has no bounds. -/
def combineBatch (tags : BlockTags) : List Int → Option (Int × Int)
  | [] => none
  | first :: rest => some (rest.foldl (combineStep tags) (first, first))

/-! ## Relay timeout (`protocol/chainlib/common.go`) -/

/-- A signed 64-bit result: Go wraps the sums and products of `time.Duration`. -/
def wrapInt64 (x : Int) : Int :=
  (x + 2 ^ 63) % 2 ^ 64 - 2 ^ 63

/-- What `GetRelayTimeout` reads of a `ChainMessageForSend`: the interface and the
helpers `IsHangingApi` and `GetComputeUnits` are declared outside the sources at hand, so
a message is the four values that they return for it. Durations are nanoseconds. -/
structure ChainMessageForSend where
  TimeoutOverride : Int
  IsHangingApi : Bool
  GetComputeUnits : Nat
  TimeoutMs : Nat

/-- The parts of `protocol/common` that `GetRelayTimeout` uses and that are declared
outside the sources at hand. -/
structure TimeoutSettings where
  GetTimePerCu : Nat → Int
  AverageWorldLatency : Int

/-- The constant `time.Millisecond`, in nanoseconds. -/
def Millisecond : Int := 1000000

/-- `GetRelayTimeout`: the override when there is one, else the extra time of a hanging
api plus the time of the api plus the world latency. -/
def GetRelayTimeout (settings : TimeoutSettings) (chainMessage : ChainMessageForSend)
    (averageBlockTime : Int) : Int :=
  if chainMessage.TimeoutOverride ≠ 0 then chainMessage.TimeoutOverride
  else
    let extraRelayTimeout : Int :=
      if chainMessage.IsHangingApi then wrapInt64 (averageBlockTime * 2) else 0
    let relayTimeAddition : Int :=
      if chainMessage.TimeoutMs > 0 then
        wrapInt64 (Millisecond * wrapInt64 (chainMessage.TimeoutMs : Int))
      else settings.GetTimePerCu chainMessage.GetComputeUnits
    wrapInt64 (wrapInt64 (extraRelayTimeout + relayTimeAddition)
      + settings.AverageWorldLatency)

/-- Settings for the scenarios: 100 milliseconds for each compute unit and a world
latency of 300 milliseconds. -/
def sampleSettings : TimeoutSettings where
  GetTimePerCu := fun cu => wrapInt64 ((cu : Int) * (100 * Millisecond))
  AverageWorldLatency := 300 * Millisecond

/-- A message with an override of 7 seconds. -/
def overrideMessage : ChainMessageForSend where
  TimeoutOverride := 7000000000
  IsHangingApi := true
  GetComputeUnits := 10
  TimeoutMs := 500

/-- The values of `int64`, the type under `time.Duration`. -/
def InInt64 (x : Int) : Prop :=
  -(2 ^ 63) ≤ x ∧ x < 2 ^ 63

instance (x : Int) : Decidable (InInt64 x) := by
  unfold InInt64
  infer_instance

/-- The duration in the words of the spec, in exact integers: the base duration, which is
the fixed timeout of the api in milliseconds when it has one and the time for its compute
units otherwise, plus the world latency, plus twice the average block time for a hanging
api. -/
def relayTimeoutSum (settings : TimeoutSettings) (chainMessage : ChainMessageForSend)
    (averageBlockTime : Int) : Int :=
  (if chainMessage.TimeoutMs > 0 then Millisecond * (chainMessage.TimeoutMs : Int)
    else settings.GetTimePerCu chainMessage.GetComputeUnits)
  + settings.AverageWorldLatency
  + (if chainMessage.IsHangingApi then 2 * averageBlockTime else 0)

/-- A message with no override and no fixed timeout, of the given compute units. -/
def plainMessage (hanging : Bool) (computeUnits : Nat) : ChainMessageForSend where
  TimeoutOverride := 0
  IsHangingApi := hanging
  GetComputeUnits := computeUnits
  TimeoutMs := 0

/-- A message with no override and a fixed timeout, in milliseconds. -/
def fixedMessage (hanging : Bool) (timeoutMs : Nat) : ChainMessageForSend where
  TimeoutOverride := 0
  IsHangingApi := hanging
  GetComputeUnits := 10
  TimeoutMs := timeoutMs

/-- A message with an override, in nanoseconds. -/
def overriddenMessage (hanging : Bool) (timeoutOverride : Int) : ChainMessageForSend where
  TimeoutOverride := timeoutOverride
  IsHangingApi := hanging
  GetComputeUnits := 10
  TimeoutMs := 0

/-! ## Verification containers (`protocol/chainlib/common.go`) -/

/-- The `VerificationKey` struct. -/
structure VerificationKey where
  Extension : String
  Addon : String

/-- The `VerificationContainer` struct. The types of `ParseDirective` and `Severity` are
declared in `x/spec/types`, outside the sources at hand, so they are parameters. -/
structure VerificationContainer (ParseDirective Severity : Type) where
  ConnectionType : String
  Name : String
  ParseDirective : ParseDirective
  Value : String
  LatestDistance : Nat
  Severity : Severity
  VerificationKey : VerificationKey

/-- The `IsActive` method. -/
def VerificationContainer.IsActive {ParseDirective Severity : Type}
    (vc : VerificationContainer ParseDirective Severity) : Bool :=
  if vc.Value = "" ∧ vc.LatestDistance = 0 then false
  else true

/-- A container with the given expected value and latest distance. -/
def sampleContainer (value : String) (latestDistance : Nat) : VerificationContainer Unit Nat where
  ConnectionType := "GET"
  Name := "chain-id"
  ParseDirective := ()
  Value := value
  LatestDistance := latestDistance
  Severity := 1
  VerificationKey := { Extension := "", Addon := "" }

/-! ## The api registry of a chain parser

The types `ApiContainer`, `ApiKey` and `CollectionKey` are those of `common.go`. The
parser that holds the registry and its methods are outside the sources at hand, which
have its tests (`rest_test.go`). -/

/-- The fields of `spectypes.Api` that the sources at hand read. -/
structure Api where
  Name : String
  Enabled : Bool
  ComputeUnits : Nat
  TimeoutMs : Nat
deriving DecidableEq

/-- The `CollectionKey` struct. -/
structure CollectionKey where
  ConnectionType : String
  InternalPath : String
  Addon : String
deriving DecidableEq

/-- The `ApiKey` struct. -/
structure ApiKey where
  Name : String
  ConnectionType : String
deriving DecidableEq

/-- The `ApiContainer` struct. -/
structure ApiContainer where
  api : Api
  collectionKey : CollectionKey
deriving DecidableEq

/-- The fields of `spectypes.Spec` that the test of `SetSpec` sets. -/
structure Spec where
  Enabled : Bool
  ReliabilityThreshold : Nat
  AllowedBlockLagForQosSync : Int
  AverageBlockTime : Int
  BlockDistanceForFinalizedData : Nat
  BlocksInFinalizationProof : Nat
deriving DecidableEq

/-- The zero value `spectypes.Spec{}`. -/
def Spec.zero : Spec :=
  { Enabled := false, ReliabilityThreshold := 0, AllowedBlockLagForQosSync := 0,
    AverageBlockTime := 0, BlockDistanceForFinalizedData := 0,
    BlocksInFinalizationProof := 0 }

/-- Modelled from the spec: `RestChainParser` is not among the sources. Of the parser the
registry keeps the spec and the map `serverApis` from api keys to api containers, as the
tests build it. A parser that was not constructed (a nil pointer) is `none` of
`Option RestChainParser`. -/
structure RestChainParser where
  spec : Spec
  serverApis : ApiKey → Option ApiContainer

/-- The zero value `RestChainParser{}`: the zero spec and a map without keys. -/
def RestChainParser.zero : RestChainParser :=
  { spec := Spec.zero, serverApis := fun _ => none }

/-- The two failures of a lookup in the words of the spec. -/
inductive LookupError where
  | NotFound (name : String)
  | Disabled
deriving DecidableEq

/-- The text of a failure, as the test `TestRestGetSupportedApi` reads it. -/
def LookupError.Error : LookupError → String
  | .NotFound name => "rest api not supported " ++ name
  | .Disabled => "api is disabled"

/-- The container stored under a key of the registry; a parser that was not constructed
stores none. -/
def storedApi (apip : Option RestChainParser) (name connectionType : String) :
    Option ApiContainer :=
  match apip with
  | none => none
  | some parser => parser.serverApis { Name := name, ConnectionType := connectionType }

/-- Modelled from the spec: `getSupportedApi` is not among the sources. Following the spec
(`Lookup`) and the test `TestRestGetSupportedApi`: a parser that was not constructed and
an unknown key give `NotFound`, a stored api that is not enabled gives `Disabled`, and a
stored api that is enabled is returned. -/
def getSupportedApi (apip : Option RestChainParser) (name connectionType : String) :
    Except LookupError ApiContainer :=
  match apip with
  | none => .error (.NotFound name)
  | some parser =>
    match parser.serverApis { Name := name, ConnectionType := connectionType } with
    | none => .error (.NotFound name)
    | some apiCont => if apiCont.api.Enabled then .ok apiCont else .error .Disabled

/-- Modelled from the spec: `SetSpec` is not among the sources. It stores the spec; on a
parser that was not constructed it does nothing. How the registry is built from the apis
of a spec is described neither by the spec nor by the tests and is left out. -/
def SetSpec (apip : Option RestChainParser) (spec : Spec) : Option RestChainParser :=
  match apip with
  | none => none
  | some parser => some { parser with spec := spec }

/-- Modelled from the spec: `DataReliabilityParams` is not among the sources. Following the
test `TestRestChainParser_Spec`: whether the spec is enabled and its reliability
threshold; the zero result on a parser that was not constructed. -/
def DataReliabilityParams (apip : Option RestChainParser) : Bool × Nat :=
  match apip with
  | none => (false, 0)
  | some parser => (parser.spec.Enabled, parser.spec.ReliabilityThreshold)

/-- Modelled from the spec: `ChainBlockStats` is not among the sources. Following the test
`TestRestChainParser_Spec`: the allowed block lag, the average block time as a duration
(the milliseconds of the spec times `time.Millisecond`), the block distance for finalized
data and the blocks in a finalization proof; the zero result on a parser that was not
constructed. -/
def ChainBlockStats (apip : Option RestChainParser) : Int × Int × Nat × Nat :=
  match apip with
  | none => (0, 0, 0, 0)
  | some parser =>
    (parser.spec.AllowedBlockLagForQosSync,
      wrapInt64 (parser.spec.AverageBlockTime * Millisecond),
      parser.spec.BlockDistanceForFinalizedData, parser.spec.BlocksInFinalizationProof)

/-- The message that `ParseMsg` returns, as the test `TestRestParseMessage` reads it: the
api, and the path, the spec path and the data of the rest message. -/
structure ParsedMessage where
  api : Api
  Path : String
  SpecPath : String
  Msg : List Nat
deriving DecidableEq

/-- Modelled from the spec: `ParseMsg` is not among the sources. Following the test
`TestRestParseMessage`: the api is looked up by the url and the connection type, and a
failure of the lookup is returned; the message carries the api found, the url as its path,
the name of the api as its spec path, and the data. -/
def ParseMsg (apip : Option RestChainParser) (url : String) (data : List Nat)
    (connectionType : String) : Except LookupError ParsedMessage :=
  match getSupportedApi apip url connectionType with
  | .error err => .error err
  | .ok apiCont => .ok { api := apiCont.api, Path := url, SpecPath := apiCont.api.Name, Msg := data }

/-- The registry of the first two cases of `TestRestGetSupportedApi`: the api `API1`,
enabled or not, under the connection type of the test. -/
def testParser (enabled : Bool) : RestChainParser where
  spec := Spec.zero
  serverApis := fun key =>
    if key = { Name := "API1", ConnectionType := "test" } then
      some { api := { Name := "API1", Enabled := enabled, ComputeUnits := 0, TimeoutMs := 0 }
             collectionKey := { ConnectionType := "test", InternalPath := "", Addon := "" } }
    else none

/-- A ledger whose entry of the epoch 7 lists a provider payment storage under the key
`orphan`, an index from which `sampleKeys` reads no provider, with one record of 50
compute units of consumer `c1` at block 7. -/
def unresolvedKeeper : Keeper :=
  { epochPayments :=
      KVStore.empty.Set
        { Index := epochPaymentKey 7, ProviderPaymentStorageKeys := ["orphan"] }
    providerPaymentStorage :=
      KVStore.empty.Set
        { Index := "orphan"
          UniquePaymentStorageClientProviderKeys :=
            [sampleKeys.EncodeUniquePaymentKey "LAV1" 7 "c1" "p1" "r1"]
          UsedCU := 50 }
    uniquePaymentStorageClientProvider :=
      KVStore.empty.Set
        { Index := sampleKeys.EncodeUniquePaymentKey "LAV1" 7 "c1" "p1" "r1"
          Block := 7
          UsedCU := 50 }
    earliestEpochStart := 0 }

/-- Modelled from the spec: `GetTimePerCu` is not among the sources. The spec says of the
base duration that it is a function of the compute-unit price in which a higher cost gives
a longer allowance. -/
def TimeoutSettings.LongerForHigherCost (settings : TimeoutSettings) : Prop :=
  ∀ cu1 cu2 : Nat, cu1 ≤ cu2 → settings.GetTimePerCu cu1 ≤ settings.GetTimePerCu cu2

/-- Settings in which a higher cost gives a longer allowance: 100 milliseconds for each
compute unit, for at most a million of them, and a world latency of 300 milliseconds. -/
def steadySettings : TimeoutSettings where
  GetTimePerCu := fun cu => ((min cu 1000000 : Nat) : Int) * (100 * Millisecond)
  AverageWorldLatency := 300 * Millisecond

/-! ## Transactions on the ledger -/

/-- One step of the owner of the ledger: a call of `AddEpochPayment`, or the `Flush` that
ends a transaction. The handler after `Flush` is the handler that `NewEpochPaymentHandler`
makes on the flushed keeper, so that the steps after a `Flush` are a new transaction. -/
inductive LedgerStep where
  | usage (c : UsageCall)
  | flush
deriving DecidableEq, Repr

/-- The calls of `AddEpochPayment` among the steps, in order. -/
def LedgerStep.calls : List LedgerStep → List UsageCall
  | [] => []
  | .usage c :: rest => c :: LedgerStep.calls rest
  | .flush :: rest => LedgerStep.calls rest

namespace EpochPaymentHandler

/-- The handler after one step. -/
def step (ks : KeyScheme) (k : EpochPaymentHandler) : LedgerStep → EpochPaymentHandler
  | .usage c => (k.record ks c).1
  | .flush => k.Flush

/-- The handler after a sequence of steps, in order. -/
def run (ks : KeyScheme) (k : EpochPaymentHandler) (steps : List LedgerStep) :
    EpochPaymentHandler :=
  steps.foldl (step ks) k

end EpochPaymentHandler

/-- Sum of the compute units of the recorded calls of one provider in one epoch, on one
chain. -/
def providerTotal (recorded : List UsageCall) (chainID : String) (epoch : Nat)
    (provider : String) : Nat :=
  ((recorded.filter fun c =>
      c.chainID = chainID ∧ c.epoch = epoch ∧ c.providerAddress = provider).map
    UsageCall.usedCU).sum

/-- Modelled from the spec: the key helpers are not among the sources. What the ledger
relies on: the key of a provider payment storage is that of one chain, one epoch and one
provider, and `GetProviderFromProviderPaymentStorage` reads the provider back from a
storage under such a key. -/
structure KeyScheme.Lawful (ks : KeyScheme) : Prop where
  storageKey_injective : ∀ (chainID : String) (epoch : Nat) (provider chainID2 : String)
    (epoch2 : Nat) (provider2 : String),
    ks.GetProviderPaymentStorageKey chainID epoch provider
        = ks.GetProviderPaymentStorageKey chainID2 epoch2 provider2 →
      chainID = chainID2 ∧ epoch = epoch2 ∧ provider = provider2
  provider_of_storageKey : ∀ (st : ProviderPaymentStorage) (chainID : String) (epoch : Nat)
    (provider : String),
    st.Index = ks.GetProviderPaymentStorageKey chainID epoch provider →
      ks.GetProviderFromProviderPaymentStorage st = some provider

/-- A key scheme that can be read back whatever the strings: the key of a provider payment
storage is the epoch in base 16, the length of the provider in base 16, the provider and
the chain, with an underscore after each of the two numbers. -/
def lawfulKeys : KeyScheme where
  GetProviderPaymentStorageKey chainID epoch provider :=
    epochPaymentKey epoch ++ "_" ++ epochPaymentKey provider.length ++ "_" ++ provider ++
      chainID
  EncodeUniquePaymentKey := sampleKeys.EncodeUniquePaymentKey
  GetConsumerFromUniquePayment := sampleKeys.GetConsumerFromUniquePayment
  GetProviderFromProviderPaymentStorage s :=
    let afterEpoch := (s.Index.data.dropWhile fun c => c ≠ '_').drop 1
    let afterLength := (afterEpoch.dropWhile fun c => c ≠ '_').drop 1
    let length := hexValue (afterEpoch.takeWhile fun c => c ≠ '_')
    if length ≤ afterLength.length then some (String.mk (afterLength.take length)) else none

/-! ## Lemmas on stores -/

namespace KVStore

variable {α : Type} {index : α → String}

theorem ext_data {s t : KVStore α index} (h : s.data = t.data) : s = t := by
  cases s
  cases t
  cases h
  rfl

theorem Get_empty (key : String) : (empty : KVStore α index).Get key = none := rfl

theorem Get_index {s : KVStore α index} {key : String} {v : α} (h : s.Get key = some v) :
    index v = key := s.wf key v h

theorem Get_Set (s : KVStore α index) (v : α) (key : String) :
    (s.Set v).Get key = if key = index v then some v else s.Get key := by
  unfold Get Set
  by_cases hk : key = index v
  · subst hk
    simp
  · simp [hk]

theorem Get_Set_self (s : KVStore α index) (v : α) : (s.Set v).Get (index v) = some v := by
  rw [Get_Set]
  simp

theorem Get_Set_ne (s : KVStore α index) (v : α) {key : String} (h : key ≠ index v) :
    (s.Set v).Get key = s.Get key := by
  rw [Get_Set]
  simp [h]

theorem Get_Delete (s : KVStore α index) (key key2 : String) :
    (s.Delete key).Get key2 = if key2 = key then none else s.Get key2 := by
  unfold Get Delete
  by_cases hk : key2 = key
  · subst hk
    simp
  · simp [hk]

theorem Set_eq_self {s : KVStore α index} {v : α} (h : s.Get (index v) = some v) :
    s.Set v = s := by
  apply ext_data
  unfold Set
  exact Function.update_eq_self_iff.mpr h.symm

theorem Delete_eq_self {s : KVStore α index} {key : String} (h : s.Get key = none) :
    s.Delete key = s := by
  apply ext_data
  unfold Delete
  exact Function.update_eq_self_iff.mpr h.symm

theorem Delete_comm (s : KVStore α index) (a b : String) :
    (s.Delete a).Delete b = (s.Delete b).Delete a := by
  apply ext_data
  funext key
  show ((s.Delete a).Delete b).Get key = ((s.Delete b).Delete a).Get key
  simp only [Get_Delete]
  by_cases h1 : key = a <;> by_cases h2 : key = b <;> simp [h1, h2]

theorem cacheGet_index {cache parent : KVStore α index} {key : String} {v : α}
    (h : cacheGet cache parent key = some v) : index v = key := by
  unfold cacheGet at h
  cases hc : cache.Get key with
  | none =>
    rw [hc] at h
    exact Get_index h
  | some w =>
    rw [hc] at h
    cases h
    exact Get_index hc

theorem cacheGet_Set (cache parent : KVStore α index) (v : α) (key : String) :
    cacheGet (cache.Set v) parent key
      = if key = index v then some v else cacheGet cache parent key := by
  unfold cacheGet
  rw [Get_Set]
  by_cases hk : key = index v
  · simp [hk]
  · simp [hk]

theorem cacheGet_empty (parent : KVStore α index) (key : String) :
    cacheGet empty parent key = parent.Get key := rfl

theorem Get_cacheWrite (cache parent : KVStore α index) (key : String) :
    (cacheWrite cache parent).Get key = cacheGet cache parent key := rfl

end KVStore

namespace EpochPaymentHandler

/-! ## The stale-write guard -/

/-- The guard of lines 128-130: for an epoch before the earliest retained epoch start the
call returns at once. -/
theorem AddEpochPayment_of_stale (ks : KeyScheme) (k : EpochPaymentHandler) (chainID : String)
    (epoch : Nat) (projectID providerAddress : String) (usedCU : Nat)
    (uniqueIdentifier : String) (h : epoch < k.keeper.earliestEpochStart) :
    AddEpochPayment ks k chainID epoch projectID providerAddress usedCU uniqueIdentifier
      = (k, 0) := by
  unfold AddEpochPayment
  rw [if_pos h]

/-- C1: for every handler state and every epoch strictly smaller than the earliest
retained epoch start, `AddEpochPayment` returns 0 and leaves the handler, that is the
three caches and the three backing stores, exactly as it was. -/
theorem AddEpochPayment_stale (ks : KeyScheme) (k : EpochPaymentHandler) (chainID : String)
    (epoch : Nat) (projectID providerAddress : String) (usedCU : Nat)
    (uniqueIdentifier : String) (h : epoch < k.keeper.earliestEpochStart) :
    AddEpochPayment ks k chainID epoch projectID providerAddress usedCU uniqueIdentifier
      = (k, 0) := by
  unfold AddEpochPayment
  rw [if_pos h]

/-- Witness of C1: epoch 3 when the earliest retained epoch start is 5. -/
theorem AddEpochPayment_stale_witness :
    3 < ((emptyKeeper 5).NewEpochPaymentHandler).keeper.earliestEpochStart ∧
    AddEpochPayment sampleKeys (emptyKeeper 5).NewEpochPaymentHandler "LAV1" 3 "c1" "p1" 50 "r1"
      = ((emptyKeeper 5).NewEpochPaymentHandler, 0) :=
  ⟨by decide, AddEpochPayment_stale sampleKeys _ "LAV1" 3 "c1" "p1" 50 "r1" (by decide)⟩

end EpochPaymentHandler

/-! ## Lemmas on `AddEpochPayment` -/

theorem entryWithKey_none (key index : String) :
    entryWithKey none key index = { Index := key, ProviderPaymentStorageKeys := [index] } := rfl

theorem entryWithKey_of_mem {ep : EpochPayments} (key : String) {index : String}
    (h : index ∈ ep.ProviderPaymentStorageKeys) : entryWithKey (some ep) key index = ep := by
  simp only [entryWithKey, h, if_true]

theorem entryWithKey_of_not_mem {ep : EpochPayments} (key : String) {index : String}
    (h : index ∉ ep.ProviderPaymentStorageKeys) :
    entryWithKey (some ep) key index
      = { ep with ProviderPaymentStorageKeys := ep.ProviderPaymentStorageKeys ++ [index] } := by
  simp only [entryWithKey, h, if_false]

theorem entryWithKey_Index {found : Option EpochPayments} {key : String} (index : String)
    (h : ∀ ep, found = some ep → ep.Index = key) :
    (entryWithKey found key index).Index = key := by
  cases found with
  | none => rfl
  | some ep =>
    have := h ep rfl
    by_cases hm : index ∈ ep.ProviderPaymentStorageKeys
    · rw [entryWithKey_of_mem key hm]; exact this
    · rw [entryWithKey_of_not_mem key hm]; exact this

theorem mem_entryWithKey (found : Option EpochPayments) (key index : String) :
    index ∈ (entryWithKey found key index).ProviderPaymentStorageKeys := by
  cases found with
  | none => exact List.mem_singleton.mpr rfl
  | some ep =>
    by_cases hm : index ∈ ep.ProviderPaymentStorageKeys
    · rw [entryWithKey_of_mem key hm]; exact hm
    · rw [entryWithKey_of_not_mem key hm]
      exact List.mem_append_right _ (List.mem_singleton.mpr rfl)

theorem entryWithKey_nodup (found : Option EpochPayments) (key index : String)
    (h : ∀ ep, found = some ep → ep.ProviderPaymentStorageKeys.Nodup) :
    (entryWithKey found key index).ProviderPaymentStorageKeys.Nodup := by
  cases found with
  | none => exact List.nodup_singleton _
  | some ep =>
    have hn := h ep rfl
    by_cases hm : index ∈ ep.ProviderPaymentStorageKeys
    · rw [entryWithKey_of_mem key hm]; exact hn
    · rw [entryWithKey_of_not_mem key hm]
      show (ep.ProviderPaymentStorageKeys ++ [index]).Nodup
      rw [List.nodup_append]
      refine ⟨hn, List.nodup_singleton _, ?_⟩
      intro a ha hb
      rw [List.mem_singleton] at hb
      subst hb
      exact hm ha

namespace EpochPaymentHandler

theorem providerPaymentStorageKeyFound_iff (index : String) (keys : List String) :
    providerPaymentStorageKeyFound index keys = true ↔ index ∈ keys := by
  induction keys with
  | nil => simp [providerPaymentStorageKeyFound]
  | cons a rest ih =>
    unfold providerPaymentStorageKeyFound
    by_cases h : a = index
    · simp [h]
    · simp only [h, if_false, ih, List.mem_cons]
      constructor
      · intro hm; exact Or.inr hm
      · rintro (hm | hm)
        · exact absurd hm.symm h
        · exact hm

/-- A repeated request on a state that holds the provider payment storage in its cache:
`AddProviderPaymentInEpoch` changes nothing. -/
theorem AddProviderPaymentInEpoch_seen (ks : KeyScheme) (k : EpochPaymentHandler)
    (chainID : String) (epoch : Nat) (projectID providerAddress : String) (usedCU : Nat)
    (uniqueIdentifier : String) (s : ProviderPaymentStorage)
    (hu : (k.GetUniquePaymentStorageClientProviderCached
      (ks.EncodeUniquePaymentKey chainID epoch projectID providerAddress
        uniqueIdentifier)).isNone = false)
    (hs : k.ProviderPaymentStorageCache.Get
      (ks.GetProviderPaymentStorageKey chainID epoch providerAddress) = some s) :
    AddProviderPaymentInEpoch ks k chainID epoch projectID providerAddress usedCU
      uniqueIdentifier = (k, s, s.UsedCU) := by
  have hidx : s.Index = ks.GetProviderPaymentStorageKey chainID epoch providerAddress :=
    KVStore.Get_index hs
  have hget : k.GetProviderPaymentStorageCached
      (ks.GetProviderPaymentStorageKey chainID epoch providerAddress) = some s := by
    unfold GetProviderPaymentStorageCached KVStore.cacheGet
    rw [hs]
  have hset : k.SetProviderPaymentStorageCached s = k := by
    unfold SetProviderPaymentStorageCached
    rw [KVStore.Set_eq_self (by rw [hidx]; exact hs)]
  simp only [AddProviderPaymentInEpoch, hu, Bool.false_eq_true, if_false]
  rw [hget]
  simp only [hset]

/-- What `AddProviderPaymentInEpoch` leaves behind, whatever the state it starts from. -/
theorem AddProviderPaymentInEpoch_post (ks : KeyScheme) (k : EpochPaymentHandler)
    (chainID : String) (epoch : Nat) (projectID providerAddress : String) (usedCU : Nat)
    (uniqueIdentifier : String) :
    let out := AddProviderPaymentInEpoch ks k chainID epoch projectID providerAddress usedCU
      uniqueIdentifier
    out.1.keeper = k.keeper ∧ out.1.EpochPaymentsCache = k.EpochPaymentsCache ∧
    out.1.ProviderPaymentStorageCache = k.ProviderPaymentStorageCache.Set out.2.1 ∧
    out.2.1.Index = ks.GetProviderPaymentStorageKey chainID epoch providerAddress ∧
    out.2.2 = out.2.1.UsedCU ∧
    (out.1.GetUniquePaymentStorageClientProviderCached
      (ks.EncodeUniquePaymentKey chainID epoch projectID providerAddress
        uniqueIdentifier)).isNone = false := by
  intro out
  have hidx : ∀ k2 : EpochPaymentHandler,
      (match k2.GetProviderPaymentStorageCached
          (ks.GetProviderPaymentStorageKey chainID epoch providerAddress) with
        | some s => s
        | none =>
          ({ Index := ks.GetProviderPaymentStorageKey chainID epoch providerAddress,
             UniquePaymentStorageClientProviderKeys := [],
             UsedCU := 0 } : ProviderPaymentStorage)).Index
        = ks.GetProviderPaymentStorageKey chainID epoch providerAddress := by
    intro k2
    cases hg : k2.GetProviderPaymentStorageCached
        (ks.GetProviderPaymentStorageKey chainID epoch providerAddress) with
    | none => rfl
    | some s => exact KVStore.cacheGet_index hg
  have hout : out = AddProviderPaymentInEpoch ks k chainID epoch projectID providerAddress
    usedCU uniqueIdentifier := rfl
  cases hu : (k.GetUniquePaymentStorageClientProviderCached
      (ks.EncodeUniquePaymentKey chainID epoch projectID providerAddress
        uniqueIdentifier)).isNone with
  | false =>
    simp only [AddProviderPaymentInEpoch, hu, Bool.false_eq_true, if_false] at hout
    rw [hout]
    exact ⟨rfl, rfl, rfl, hidx k, rfl, hu⟩
  | true =>
    simp only [AddProviderPaymentInEpoch, hu, if_true] at hout
    rw [hout]
    refine ⟨rfl, rfl, rfl, hidx _, rfl, ?_⟩
    simp only [GetUniquePaymentStorageClientProviderCached,
      SetProviderPaymentStorageCached, SetUniquePaymentStorageClientProviderCached,
      KVStore.cacheGet_Set]
    simp

/-- For a retained epoch, `AddEpochPayment` is `AddProviderPaymentInEpoch` followed by the
write of the entry of the epoch. -/
theorem AddEpochPayment_retained (ks : KeyScheme) (k : EpochPaymentHandler)
    (chainID : String) (epoch : Nat) (projectID providerAddress : String) (usedCU : Nat)
    (uniqueIdentifier : String) (h : k.keeper.earliestEpochStart ≤ epoch) :
    AddEpochPayment ks k chainID epoch projectID providerAddress usedCU uniqueIdentifier
      = ((AddProviderPaymentInEpoch ks k chainID epoch projectID providerAddress usedCU
            uniqueIdentifier).1.SetEpochPaymentsCached
          (entryWithKey (k.GetEpochPaymentsCached (epochPaymentKey epoch))
            (epochPaymentKey epoch)
            (ks.GetProviderPaymentStorageKey chainID epoch providerAddress)),
         (AddProviderPaymentInEpoch ks k chainID epoch projectID providerAddress usedCU
            uniqueIdentifier).2.2) := by
  obtain ⟨hk, hc, -, hi, -, -⟩ := AddProviderPaymentInEpoch_post ks k chainID epoch projectID
    providerAddress usedCU uniqueIdentifier
  have hget : (AddProviderPaymentInEpoch ks k chainID epoch projectID providerAddress usedCU
      uniqueIdentifier).1.GetEpochPaymentsCached (epochPaymentKey epoch)
      = k.GetEpochPaymentsCached (epochPaymentKey epoch) := by
    unfold GetEpochPaymentsCached
    rw [hk, hc]
  unfold AddEpochPayment
  rw [if_neg (Nat.not_lt.mpr h)]
  simp only [hget, hi]
  cases k.GetEpochPaymentsCached (epochPaymentKey epoch) with
  | none => rfl
  | some ep =>
    by_cases hm : ks.GetProviderPaymentStorageKey chainID epoch providerAddress
        ∈ ep.ProviderPaymentStorageKeys
    · rw [entryWithKey_of_mem _ hm]
      simp only [(providerPaymentStorageKeyFound_iff _ _).mpr hm, if_true]
    · have hf : providerPaymentStorageKeyFound
          (ks.GetProviderPaymentStorageKey chainID epoch providerAddress)
          ep.ProviderPaymentStorageKeys = false := by
        rw [Bool.eq_false_iff]
        intro hc2
        exact hm ((providerPaymentStorageKeyFound_iff _ _).mp hc2)
      rw [entryWithKey_of_not_mem _ hm]
      simp only [hf, if_false, Bool.false_eq_true]

/-- The keeper, and with it the earliest retained epoch start, is not touched by
`AddEpochPayment`. -/
theorem AddEpochPayment_keeper (ks : KeyScheme) (k : EpochPaymentHandler)
    (chainID : String) (epoch : Nat) (projectID providerAddress : String) (usedCU : Nat)
    (uniqueIdentifier : String) :
    (AddEpochPayment ks k chainID epoch projectID providerAddress usedCU
      uniqueIdentifier).1.keeper = k.keeper := by
  by_cases h : epoch < k.keeper.earliestEpochStart
  · rw [AddEpochPayment_of_stale ks k chainID epoch projectID providerAddress usedCU
      uniqueIdentifier h]
  · rw [AddEpochPayment_retained ks k chainID epoch projectID providerAddress usedCU
      uniqueIdentifier (Nat.not_lt.mp h)]
    exact (AddProviderPaymentInEpoch_post ks k chainID epoch projectID providerAddress usedCU
      uniqueIdentifier).1

/-- The entries of the epochs as read through the cache after `AddEpochPayment` for a
retained epoch: the entry of the epoch is the one written, the others are untouched. -/
theorem AddEpochPayment_entries (ks : KeyScheme) (k : EpochPaymentHandler)
    (chainID : String) (epoch : Nat) (projectID providerAddress : String) (usedCU : Nat)
    (uniqueIdentifier : String) (h : k.keeper.earliestEpochStart ≤ epoch) (index : String) :
    (AddEpochPayment ks k chainID epoch projectID providerAddress usedCU
      uniqueIdentifier).1.GetEpochPaymentsCached index
      = if index = epochPaymentKey epoch then
          some (entryWithKey (k.GetEpochPaymentsCached (epochPaymentKey epoch))
            (epochPaymentKey epoch)
            (ks.GetProviderPaymentStorageKey chainID epoch providerAddress))
        else k.GetEpochPaymentsCached index := by
  obtain ⟨hk, hc, -, -, -, -⟩ := AddProviderPaymentInEpoch_post ks k chainID epoch projectID
    providerAddress usedCU uniqueIdentifier
  rw [AddEpochPayment_retained ks k chainID epoch projectID providerAddress usedCU
    uniqueIdentifier h]
  have hI : (entryWithKey (k.GetEpochPaymentsCached (epochPaymentKey epoch))
      (epochPaymentKey epoch)
      (ks.GetProviderPaymentStorageKey chainID epoch providerAddress)).Index
      = epochPaymentKey epoch :=
    entryWithKey_Index _ (fun ep hep => KVStore.cacheGet_index hep)
  unfold GetEpochPaymentsCached at hI ⊢
  unfold SetEpochPaymentsCached
  simp only
  rw [KVStore.cacheGet_Set, hI, hk, hc]

/-! ## Idempotence of `AddEpochPayment` -/

/-- C2: for every retained epoch, a second `AddEpochPayment` with the same chain, epoch,
consumer, provider and request identifier (whatever the compute units it carries) returns
the value the first call returned and leaves the handler state of the first call as it
is; in particular the aggregate of the provider for the epoch is not increased twice. -/
theorem AddEpochPayment_idempotent (ks : KeyScheme) (k : EpochPaymentHandler)
    (chainID : String) (epoch : Nat) (projectID providerAddress : String)
    (usedCU usedCU2 : Nat) (uniqueIdentifier : String)
    (h : k.keeper.earliestEpochStart ≤ epoch) :
    AddEpochPayment ks
        (AddEpochPayment ks k chainID epoch projectID providerAddress usedCU
          uniqueIdentifier).1
        chainID epoch projectID providerAddress usedCU2 uniqueIdentifier
      = ((AddEpochPayment ks k chainID epoch projectID providerAddress usedCU
            uniqueIdentifier).1,
         (AddEpochPayment ks k chainID epoch projectID providerAddress usedCU
            uniqueIdentifier).2) := by
  obtain ⟨hk, hc, hp, hi, hr, hu⟩ := AddProviderPaymentInEpoch_post ks k chainID epoch
    projectID providerAddress usedCU uniqueIdentifier
  have hEi : (entryWithKey (k.GetEpochPaymentsCached (epochPaymentKey epoch))
      (epochPaymentKey epoch)
      (ks.GetProviderPaymentStorageKey chainID epoch providerAddress)).Index
      = epochPaymentKey epoch :=
    entryWithKey_Index _ (fun ep hep => KVStore.cacheGet_index hep)
  have hEm := mem_entryWithKey (k.GetEpochPaymentsCached (epochPaymentKey epoch))
    (epochPaymentKey epoch) (ks.GetProviderPaymentStorageKey chainID epoch providerAddress)
  rw [AddEpochPayment_retained ks k chainID epoch projectID providerAddress usedCU
    uniqueIdentifier h]
  generalize hA : AddProviderPaymentInEpoch ks k chainID epoch projectID providerAddress
    usedCU uniqueIdentifier = A at hk hc hp hi hr hu
  generalize entryWithKey (k.GetEpochPaymentsCached (epochPaymentKey epoch))
    (epochPaymentKey epoch) (ks.GetProviderPaymentStorageKey chainID epoch providerAddress)
    = E at hEi hEm
  have hK1 : (A.1.SetEpochPaymentsCached E).keeper.earliestEpochStart ≤ epoch := by
    show A.1.keeper.earliestEpochStart ≤ epoch
    rw [hk]
    exact h
  have hKu : ((A.1.SetEpochPaymentsCached E).GetUniquePaymentStorageClientProviderCached
      (ks.EncodeUniquePaymentKey chainID epoch projectID providerAddress
        uniqueIdentifier)).isNone = false := hu
  have hKs : (A.1.SetEpochPaymentsCached E).ProviderPaymentStorageCache.Get
      (ks.GetProviderPaymentStorageKey chainID epoch providerAddress) = some A.2.1 := by
    show A.1.ProviderPaymentStorageCache.Get _ = some A.2.1
    rw [hp, ← hi]
    exact KVStore.Get_Set_self _ _
  have hKe : (A.1.SetEpochPaymentsCached E).EpochPaymentsCache.Get (epochPaymentKey epoch)
      = some E := by
    show (A.1.EpochPaymentsCache.Set E).Get _ = some E
    rw [← hEi]
    exact KVStore.Get_Set_self _ _
  have hKg : (A.1.SetEpochPaymentsCached E).GetEpochPaymentsCached (epochPaymentKey epoch)
      = some E := by
    unfold GetEpochPaymentsCached KVStore.cacheGet
    rw [hKe]
  rw [AddEpochPayment_retained ks _ chainID epoch projectID providerAddress usedCU2
    uniqueIdentifier hK1]
  rw [AddProviderPaymentInEpoch_seen ks _ chainID epoch projectID providerAddress usedCU2
    uniqueIdentifier A.2.1 hKu hKs, hKg, entryWithKey_of_mem _ hEm]
  rw [hr]
  congr 1
  show EpochPaymentHandler.SetEpochPaymentsCached (A.1.SetEpochPaymentsCached E) E = _
  unfold SetEpochPaymentsCached
  simp only
  rw [KVStore.Set_eq_self (by rw [hEi]; exact hKe)]

/-- Witness of C2: request `r1` of consumer `c1` to provider `p1` in epoch 7, sent twice. -/
theorem AddEpochPayment_idempotent_witness :
    ((emptyKeeper 0).NewEpochPaymentHandler).keeper.earliestEpochStart ≤ 7 ∧
    AddEpochPayment sampleKeys
        (AddEpochPayment sampleKeys (emptyKeeper 0).NewEpochPaymentHandler
          "LAV1" 7 "c1" "p1" 50 "r1").1
        "LAV1" 7 "c1" "p1" 50 "r1"
      = ((AddEpochPayment sampleKeys (emptyKeeper 0).NewEpochPaymentHandler
            "LAV1" 7 "c1" "p1" 50 "r1").1,
         (AddEpochPayment sampleKeys (emptyKeeper 0).NewEpochPaymentHandler
            "LAV1" 7 "c1" "p1" 50 "r1").2) :=
  ⟨by decide,
    AddEpochPayment_idempotent sampleKeys _ "LAV1" 7 "c1" "p1" 50 50 "r1" (by decide)⟩

/-! ## The list of provider payment storage keys of an epoch -/

/-- C4: when the entry of the epoch already lists the key of the provider payment storage,
`AddEpochPayment` leaves the entry exactly as it was; and two calls for the same chain,
epoch and provider (whatever the consumers and request identifiers), starting from a
retained epoch with no entry, leave an entry whose list is that single key, of length 1. -/
theorem AddEpochPayment_listed (ks : KeyScheme) :
    (∀ (k : EpochPaymentHandler) (chainID : String) (epoch : Nat)
        (projectID providerAddress : String) (usedCU : Nat) (uniqueIdentifier : String)
        (epochPayments : EpochPayments),
      k.GetEpochPaymentsCached (epochPaymentKey epoch) = some epochPayments →
      ks.GetProviderPaymentStorageKey chainID epoch providerAddress
        ∈ epochPayments.ProviderPaymentStorageKeys →
      (AddEpochPayment ks k chainID epoch projectID providerAddress usedCU
        uniqueIdentifier).1.GetEpochPaymentsCached (epochPaymentKey epoch)
        = some epochPayments) ∧
    (∀ (k : EpochPaymentHandler) (chainID : String) (epoch : Nat)
        (projectID projectID2 providerAddress : String) (usedCU usedCU2 : Nat)
        (uniqueIdentifier uniqueIdentifier2 : String),
      k.keeper.earliestEpochStart ≤ epoch →
      k.GetEpochPaymentsCached (epochPaymentKey epoch) = none →
      ∃ epochPayments,
        (AddEpochPayment ks
          (AddEpochPayment ks k chainID epoch projectID providerAddress usedCU
            uniqueIdentifier).1
          chainID epoch projectID2 providerAddress usedCU2
          uniqueIdentifier2).1.GetEpochPaymentsCached (epochPaymentKey epoch)
          = some epochPayments ∧
        epochPayments.ProviderPaymentStorageKeys
          = [ks.GetProviderPaymentStorageKey chainID epoch providerAddress] ∧
        epochPayments.ProviderPaymentStorageKeys.length = 1) := by
  constructor
  · intro k chainID epoch projectID providerAddress usedCU uniqueIdentifier ep hep hmem
    by_cases h : epoch < k.keeper.earliestEpochStart
    · rw [AddEpochPayment_of_stale ks k chainID epoch projectID providerAddress usedCU
        uniqueIdentifier h]
      exact hep
    · rw [AddEpochPayment_entries ks k chainID epoch projectID providerAddress usedCU
        uniqueIdentifier (Nat.not_lt.mp h), if_pos rfl, hep, entryWithKey_of_mem _ hmem]
  · intro k chainID epoch projectID projectID2 providerAddress usedCU usedCU2
      uniqueIdentifier uniqueIdentifier2 h hnone
    have h1 := AddEpochPayment_entries ks k chainID epoch projectID providerAddress usedCU
      uniqueIdentifier h (epochPaymentKey epoch)
    rw [if_pos rfl, hnone, entryWithKey_none] at h1
    have hk2 : (AddEpochPayment ks k chainID epoch projectID providerAddress usedCU
        uniqueIdentifier).1.keeper.earliestEpochStart ≤ epoch := by
      rw [AddEpochPayment_keeper]
      exact h
    refine ⟨{ Index := epochPaymentKey epoch
              ProviderPaymentStorageKeys :=
                [ks.GetProviderPaymentStorageKey chainID epoch providerAddress] },
      ?_, rfl, rfl⟩
    rw [AddEpochPayment_entries ks _ chainID epoch projectID2 providerAddress usedCU2
      uniqueIdentifier2 hk2, if_pos rfl, h1,
      entryWithKey_of_mem _ (List.mem_singleton.mpr rfl)]

/-- Witness of C4: provider `p1` in epoch 7, requests `r1` and `r2`. -/
theorem AddEpochPayment_listed_witness :
    ∃ epochPayments,
      (AddEpochPayment sampleKeys
        (AddEpochPayment sampleKeys (emptyKeeper 0).NewEpochPaymentHandler
          "LAV1" 7 "c1" "p1" 50 "r1").1
        "LAV1" 7 "c1" "p1" 30 "r2").1.GetEpochPaymentsCached (epochPaymentKey 7)
        = some epochPayments ∧
      epochPayments.ProviderPaymentStorageKeys
        = [sampleKeys.GetProviderPaymentStorageKey "LAV1" 7 "p1"] ∧
      epochPayments.ProviderPaymentStorageKeys.length = 1 :=
  (AddEpochPayment_listed sampleKeys).2 (emptyKeeper 0).NewEpochPaymentHandler
    "LAV1" 7 "c1" "c1" "p1" 50 30 "r1" "r2" (by decide) (by decide)

/-- C5: for a retained epoch whose entry does not list the key of the provider payment
storage, `AddEpochPayment` stores the entry with that key appended at the end of the
previous list; when the epoch has no entry, it stores a new entry whose index is the key
of the epoch and whose list holds that one key. -/
theorem AddEpochPayment_appends (ks : KeyScheme) (k : EpochPaymentHandler)
    (chainID : String) (epoch : Nat) (projectID providerAddress : String) (usedCU : Nat)
    (uniqueIdentifier : String) (h : k.keeper.earliestEpochStart ≤ epoch) :
    (∀ epochPayments,
      k.GetEpochPaymentsCached (epochPaymentKey epoch) = some epochPayments →
      ks.GetProviderPaymentStorageKey chainID epoch providerAddress
        ∉ epochPayments.ProviderPaymentStorageKeys →
      (AddEpochPayment ks k chainID epoch projectID providerAddress usedCU
        uniqueIdentifier).1.GetEpochPaymentsCached (epochPaymentKey epoch)
        = some
          { epochPayments with
            ProviderPaymentStorageKeys :=
              epochPayments.ProviderPaymentStorageKeys ++
                [ks.GetProviderPaymentStorageKey chainID epoch providerAddress] }) ∧
    (k.GetEpochPaymentsCached (epochPaymentKey epoch) = none →
      (AddEpochPayment ks k chainID epoch projectID providerAddress usedCU
        uniqueIdentifier).1.GetEpochPaymentsCached (epochPaymentKey epoch)
        = some
          { Index := epochPaymentKey epoch
            ProviderPaymentStorageKeys :=
              [ks.GetProviderPaymentStorageKey chainID epoch providerAddress] }) := by
  constructor
  · intro ep hep hmem
    rw [AddEpochPayment_entries ks k chainID epoch projectID providerAddress usedCU
      uniqueIdentifier h, if_pos rfl, hep, entryWithKey_of_not_mem _ hmem]
  · intro hnone
    rw [AddEpochPayment_entries ks k chainID epoch projectID providerAddress usedCU
      uniqueIdentifier h, if_pos rfl, hnone, entryWithKey_none]

/-- Witness of C5: the first usage of epoch 7 creates the entry of the epoch. -/
theorem AddEpochPayment_appends_witness :
    (AddEpochPayment sampleKeys (emptyKeeper 0).NewEpochPaymentHandler "LAV1" 7 "c1" "p1" 50
      "r1").1.GetEpochPaymentsCached (epochPaymentKey 7)
      = some
        { Index := epochPaymentKey 7
          ProviderPaymentStorageKeys := [sampleKeys.GetProviderPaymentStorageKey "LAV1" 7 "p1"] } :=
  (AddEpochPayment_appends sampleKeys (emptyKeeper 0).NewEpochPaymentHandler "LAV1" 7 "c1" "p1"
    50 "r1" (by decide)).2 (by decide)

end EpochPaymentHandler

/-! ## The retirement scan does not touch the entries of the epochs -/

namespace Keeper

theorem removeUniquePayment_epochPayments (ks : KeyScheme) (blockForDelete : Nat)
    (providerPaymentStorage : ProviderPaymentStorage) (st : RemovalState) (key : String) :
    (removeUniquePayment ks blockForDelete providerPaymentStorage st key).keeper.epochPayments
      = st.keeper.epochPayments := by
  unfold removeUniquePayment
  cases st.keeper.GetUniquePaymentStorageClientProvider key with
  | none => rfl
  | some u =>
    simp only
    by_cases hb : u.Block > blockForDelete
    · rw [if_pos hb]
    · rw [if_neg hb]
      cases ks.GetProviderFromProviderPaymentStorage providerPaymentStorage <;> rfl

theorem foldl_removeUniquePayment_epochPayments (ks : KeyScheme) (blockForDelete : Nat)
    (providerPaymentStorage : ProviderPaymentStorage) (keys : List String)
    (st : RemovalState) :
    (keys.foldl (removeUniquePayment ks blockForDelete providerPaymentStorage)
      st).keeper.epochPayments = st.keeper.epochPayments := by
  induction keys generalizing st with
  | nil => rfl
  | cons key rest ih =>
    rw [List.foldl_cons, ih, removeUniquePayment_epochPayments]

theorem removeProviderPayments_epochPayments (ks : KeyScheme) (blockForDelete : Nat)
    (st : RemovalState) (key : String) :
    (removeProviderPayments ks blockForDelete st key).keeper.epochPayments
      = st.keeper.epochPayments := by
  unfold removeProviderPayments
  cases st.keeper.GetProviderPaymentStorage key with
  | none => rfl
  | some s =>
    show (List.foldl _ st _).keeper.epochPayments = _
    exact foldl_removeUniquePayment_epochPayments ks blockForDelete s _ st

theorem foldl_removeProviderPayments_epochPayments (ks : KeyScheme) (blockForDelete : Nat)
    (keys : List String) (st : RemovalState) :
    (keys.foldl (removeProviderPayments ks blockForDelete) st).keeper.epochPayments
      = st.keeper.epochPayments := by
  induction keys generalizing st with
  | nil => rfl
  | cons key rest ih =>
    rw [List.foldl_cons, ih, removeProviderPayments_epochPayments]

theorem removalScan_epochPayments (ks : KeyScheme) (k : Keeper) (blockForDelete : Nat)
    (keys : List String) :
    (removalScan ks k blockForDelete keys).keeper.epochPayments = k.epochPayments :=
  foldl_removeProviderPayments_epochPayments ks blockForDelete keys _

/-- The entries of the epochs after a retirement: the entry of the retired epoch is gone,
the others are untouched. -/
theorem RemoveAllEpochPaymentsForBlockAppendAdjustments_epochPayments (ks : KeyScheme)
    (k : Keeper) (blockForDelete : Nat) (index : String) :
    (RemoveAllEpochPaymentsForBlockAppendAdjustments ks k blockForDelete).1.epochPayments.Get
        index
      = if index = epochPaymentKey blockForDelete then none else k.epochPayments.Get index := by
  unfold RemoveAllEpochPaymentsForBlockAppendAdjustments GetEpochPaymentsFromBlock
  cases hg : k.GetEpochPayments (epochPaymentKey blockForDelete) with
  | none =>
    simp only
    by_cases hi : index = epochPaymentKey blockForDelete
    · rw [if_pos hi, hi]
      exact hg
    · rw [if_neg hi]
  | some ep =>
    simp only [RemoveEpochPayments, removalScan_epochPayments, KVStore.Get_Delete]

end Keeper

/-! ## The lists of the entries stay free of duplicates -/

theorem KVStore.cacheGet_cases {α : Type} {index : α → String} {cache parent : KVStore α index}
    {key : String} {v : α} (h : KVStore.cacheGet cache parent key = some v) :
    cache.Get key = some v ∨ parent.Get key = some v := by
  unfold KVStore.cacheGet at h
  cases hc : cache.Get key with
  | none =>
    rw [hc] at h
    exact Or.inr h
  | some w =>
    rw [hc] at h
    exact Or.inl h

namespace EpochPaymentHandler

theorem DedupEntries_init (earliestEpochStart : Nat) :
    DedupEntries (emptyKeeper earliestEpochStart).NewEpochPaymentHandler := by
  intro index ep h
  rcases h with h | h <;> cases h

theorem DedupEntries_AddEpochPayment (ks : KeyScheme) (k : EpochPaymentHandler)
    (chainID : String) (epoch : Nat) (projectID providerAddress : String) (usedCU : Nat)
    (uniqueIdentifier : String) (hk : DedupEntries k) :
    DedupEntries (AddEpochPayment ks k chainID epoch projectID providerAddress usedCU
      uniqueIdentifier).1 := by
  by_cases h : epoch < k.keeper.earliestEpochStart
  · rw [AddEpochPayment_of_stale ks k chainID epoch projectID providerAddress usedCU
      uniqueIdentifier h]
    exact hk
  · obtain ⟨hkeep, hc, -, -, -, -⟩ := AddProviderPaymentInEpoch_post ks k chainID epoch
      projectID providerAddress usedCU uniqueIdentifier
    rw [AddEpochPayment_retained ks k chainID epoch projectID providerAddress usedCU
      uniqueIdentifier (Nat.not_lt.mp h)]
    have hE := entryWithKey_nodup (k.GetEpochPaymentsCached (epochPaymentKey epoch))
      (epochPaymentKey epoch) (ks.GetProviderPaymentStorageKey chainID epoch providerAddress)
      (fun ep hep => hk _ ep (KVStore.cacheGet_cases hep))
    intro index ep hget
    rcases hget with hget | hget
    · have hget2 : (k.EpochPaymentsCache.Set (entryWithKey
          (k.GetEpochPaymentsCached (epochPaymentKey epoch)) (epochPaymentKey epoch)
          (ks.GetProviderPaymentStorageKey chainID epoch providerAddress))).Get index
          = some ep := by
        rw [← hc]
        exact hget
      rw [KVStore.Get_Set] at hget2
      split at hget2
      · cases hget2
        exact hE
      · exact hk index ep (Or.inl hget2)
    · have hget2 : k.keeper.epochPayments.Get index = some ep := by
        rw [← hkeep]
        exact hget
      exact hk index ep (Or.inr hget2)

theorem DedupEntries_Flush (k : EpochPaymentHandler) (hk : DedupEntries k) :
    DedupEntries k.Flush := by
  intro index ep hget
  rcases hget with hget | hget
  · cases hget
  · exact hk index ep (KVStore.cacheGet_cases hget)

theorem DedupEntries_remove (ks : KeyScheme) (k : EpochPaymentHandler) (blockForDelete : Nat)
    (hk : DedupEntries k) :
    DedupEntries
      { k with
        keeper :=
          (k.keeper.RemoveAllEpochPaymentsForBlockAppendAdjustments ks blockForDelete).1 } := by
  intro index ep hget
  rcases hget with hget | hget
  · exact hk index ep (Or.inl hget)
  · have hget2 : (Keeper.RemoveAllEpochPaymentsForBlockAppendAdjustments ks k.keeper
        blockForDelete).1.epochPayments.Get index = some ep := hget
    rw [Keeper.RemoveAllEpochPaymentsForBlockAppendAdjustments_epochPayments] at hget2
    split at hget2
    · cases hget2
    · exact hk index ep (Or.inr hget2)

/-- C6: if before a call to `AddEpochPayment` the list of every entry of the epochs, in the
cache and in the store, is free of duplicates, it is so after the call; hence every entry
of a state reached from an empty ledger by recording usage, flushing and retiring epochs
holds a duplicate-free list. -/
theorem AddEpochPayment_dedup (ks : KeyScheme) :
    (∀ (k : EpochPaymentHandler) (chainID : String) (epoch : Nat)
        (projectID providerAddress : String) (usedCU : Nat) (uniqueIdentifier : String),
      DedupEntries k →
      DedupEntries (AddEpochPayment ks k chainID epoch projectID providerAddress usedCU
        uniqueIdentifier).1) ∧
    (∀ k : EpochPaymentHandler, Reachable ks k → DedupEntries k) := by
  refine ⟨fun k chainID epoch projectID providerAddress usedCU uniqueIdentifier hk =>
    DedupEntries_AddEpochPayment ks k chainID epoch projectID providerAddress usedCU
      uniqueIdentifier hk, ?_⟩
  intro k hr
  induction hr with
  | init e => exact DedupEntries_init e
  | add k chainID epoch projectID providerAddress usedCU uniqueIdentifier _ ih =>
    exact DedupEntries_AddEpochPayment ks k chainID epoch projectID providerAddress usedCU
      uniqueIdentifier ih
  | flush k _ ih => exact DedupEntries_Flush k ih
  | remove k blockForDelete _ ih => exact DedupEntries_remove ks k blockForDelete ih

/-- Witness of C6: the state after two usages of provider `p1` in epoch 7. -/
theorem AddEpochPayment_dedup_witness :
    DedupEntries
      (AddEpochPayment sampleKeys
        (AddEpochPayment sampleKeys (emptyKeeper 0).NewEpochPaymentHandler
          "LAV1" 7 "c1" "p1" 50 "r1").1
        "LAV1" 7 "c1" "p1" 30 "r2").1 :=
  (AddEpochPayment_dedup sampleKeys).1 _ "LAV1" 7 "c1" "p1" 30 "r2"
    ((AddEpochPayment_dedup sampleKeys).2 _
      (Reachable.add _ "LAV1" 7 "c1" "p1" 50 "r1" (Reachable.init 0)))

end EpochPaymentHandler

/-! ## The scan and the counted records -/

theorem addU64_mod (a b : Nat) : addU64 (a % 2 ^ 64) b = (a + b) % 2 ^ 64 := by
  unfold addU64
  rw [Nat.mod_add_mod]

namespace UsageMap

variable {κ : Type} [DecidableEq κ]

theorem read_add (m : UsageMap κ) (key key2 : κ) (v : Nat) :
    (m.add key v).read key2 = if key2 = key then addU64 (m.read key) v else m.read key2 := by
  unfold add read
  by_cases h : key2 = key
  · subst h
    simp
  · simp [h]

theorem has_add (m : UsageMap κ) (key key2 : κ) (v : Nat) :
    (m.add key v).has key2 = (decide (key2 = key) || m.has key2) := by
  unfold add has
  by_cases h : key2 = key
  · subst h
    simp
  · simp [h]

end UsageMap

theorem couplingTotal_append (l : List CountedRecord) (r : CountedRecord)
    (c : couplingConsumerProvider) :
    couplingTotal (l ++ [r]) c
      = couplingTotal l c + if r.coupling = c then r.usedCU else 0 := by
  unfold couplingTotal
  rw [List.filter_append, List.map_append, List.sum_append]
  by_cases h : r.coupling = c
  · simp [h]
  · simp [h]

theorem consumerTotal_append (l : List CountedRecord) (r : CountedRecord) (x : String) :
    consumerTotal (l ++ [r]) x
      = consumerTotal l x + if r.coupling.consumer = x then r.usedCU else 0 := by
  unfold consumerTotal
  rw [List.filter_append, List.map_append, List.sum_append]
  by_cases h : r.coupling.consumer = x
  · simp [h]
  · simp [h]

theorem Tallied.nil (k : Keeper) :
    Tallied
      { keeper := k
        consumerUsage := UsageMap.empty
        iterationOrder := []
        couplingUsage := UsageMap.empty } [] where
  nodup := List.nodup_nil
  mem := fun c => by simp
  has := fun c => by simp [UsageMap.has, UsageMap.empty]
  order := List.Pairwise.nil
  coupling := fun c => by simp [UsageMap.read, UsageMap.empty, couplingTotal]
  consumer := fun x => by simp [UsageMap.read, UsageMap.empty, consumerTotal]

theorem Tallied.count {st : RemovalState} {records : List CountedRecord}
    (h : Tallied st records) (r : CountedRecord) : Tallied (st.count r) (records ++ [r]) := by
  have hseen : ∀ a, a ∈ st.iterationOrder →
      (List.map CountedRecord.coupling (records ++ [r])).indexOf a
        = (List.map CountedRecord.coupling records).indexOf a := by
    intro a ha
    rw [List.map_append]
    exact List.indexOf_append_of_mem ((h.mem a).mp ha)
  have horder : st.iterationOrder.Pairwise fun a b =>
      (List.map CountedRecord.coupling (records ++ [r])).indexOf a
        < (List.map CountedRecord.coupling (records ++ [r])).indexOf b := by
    refine List.Pairwise.imp_of_mem ?_ h.order
    intro a b ha hb hab
    rw [hseen a ha, hseen b hb]
    exact hab
  by_cases hc : r.coupling ∈ records.map CountedRecord.coupling
  · have hhas : st.couplingUsage.has r.coupling = true := (h.has _).mpr hc
    have hio : (st.count r).iterationOrder = st.iterationOrder := by
      simp only [RemovalState.count, hhas, if_true]
    refine ⟨?_, ?_, ?_, ?_, ?_, ?_⟩
    · rw [hio]; exact h.nodup
    · intro c
      rw [hio, h.mem, List.map_append, List.mem_append]
      constructor
      · exact Or.inl
      · rintro (hm | hm)
        · exact hm
        · simp only [List.map_cons, List.map_nil, List.mem_singleton] at hm
          rw [hm]; exact hc
    · intro c
      show (st.couplingUsage.add r.coupling r.usedCU).has c = true ↔ _
      rw [UsageMap.has_add, Bool.or_eq_true, decide_eq_true_eq, h.has, List.map_append,
        List.mem_append]
      constructor
      · rintro (hm | hm)
        · rw [hm]; exact Or.inl hc
        · exact Or.inl hm
      · rintro (hm | hm)
        · exact Or.inr hm
        · simp only [List.map_cons, List.map_nil, List.mem_singleton] at hm
          exact Or.inl hm
    · rw [hio]; exact horder
    · intro c
      show (st.couplingUsage.add r.coupling r.usedCU).read c = _
      rw [UsageMap.read_add, couplingTotal_append]
      by_cases hcc : c = r.coupling
      · subst hcc
        rw [if_pos rfl, if_pos rfl, h.coupling, addU64_mod]
      · rw [if_neg hcc, if_neg (fun e => hcc e.symm), h.coupling, Nat.add_zero]
    · intro x
      show (st.consumerUsage.add r.coupling.consumer r.usedCU).read x = _
      rw [UsageMap.read_add, consumerTotal_append]
      by_cases hcc : x = r.coupling.consumer
      · subst hcc
        rw [if_pos rfl, if_pos rfl, h.consumer, addU64_mod]
      · rw [if_neg hcc, if_neg (fun e => hcc e.symm), h.consumer, Nat.add_zero]
  · have hhas : st.couplingUsage.has r.coupling = false := by
      rw [Bool.eq_false_iff]
      intro hh
      exact hc ((h.has _).mp hh)
    have hio : (st.count r).iterationOrder = st.iterationOrder ++ [r.coupling] := by
      simp only [RemovalState.count, hhas, if_false, Bool.false_eq_true]
    have hnot : r.coupling ∉ st.iterationOrder := fun hm => hc ((h.mem _).mp hm)
    refine ⟨?_, ?_, ?_, ?_, ?_, ?_⟩
    · rw [hio, List.nodup_append]
      refine ⟨h.nodup, List.nodup_singleton _, ?_⟩
      intro a ha hb
      rw [List.mem_singleton] at hb
      subst hb
      exact hnot ha
    · intro c
      rw [hio, List.map_append, List.mem_append, List.mem_append, h.mem]
      simp
    · intro c
      show (st.couplingUsage.add r.coupling r.usedCU).has c = true ↔ _
      rw [UsageMap.has_add, Bool.or_eq_true, decide_eq_true_eq, h.has, List.map_append,
        List.mem_append]
      simp only [List.map_cons, List.map_nil, List.mem_singleton]
      exact Or.comm
    · rw [hio, List.pairwise_append]
      refine ⟨horder, List.pairwise_singleton _ _, ?_⟩
      intro a ha b hb
      rw [List.mem_singleton] at hb
      subst hb
      rw [hseen a ha, List.map_append, List.indexOf_append_of_not_mem hc]
      have : (List.map CountedRecord.coupling records).indexOf a
          < (List.map CountedRecord.coupling records).length :=
        List.indexOf_lt_length.mpr ((h.mem a).mp ha)
      omega
    · intro c
      show (st.couplingUsage.add r.coupling r.usedCU).read c = _
      rw [UsageMap.read_add, couplingTotal_append]
      by_cases hcc : c = r.coupling
      · subst hcc
        rw [if_pos rfl, if_pos rfl, h.coupling, addU64_mod]
      · rw [if_neg hcc, if_neg (fun e => hcc e.symm), h.coupling, Nat.add_zero]
    · intro x
      show (st.consumerUsage.add r.coupling.consumer r.usedCU).read x = _
      rw [UsageMap.read_add, consumerTotal_append]
      by_cases hcc : x = r.coupling.consumer
      · subst hcc
        rw [if_pos rfl, if_pos rfl, h.consumer, addU64_mod]
      · rw [if_neg hcc, if_neg (fun e => hcc e.symm), h.consumer, Nat.add_zero]

theorem Tallied.foldl {st : RemovalState} {records : List CountedRecord}
    (h : Tallied st records) (more : List CountedRecord) :
    Tallied (more.foldl RemovalState.count st) (records ++ more) := by
  induction more generalizing st records with
  | nil => rw [List.append_nil]; exact h
  | cons r rest ih =>
    rw [List.foldl_cons]
    have := ih (h.count r)
    rw [List.append_assoc] at this
    exact this

namespace Keeper

theorem RemovalState.count_keeper (st : RemovalState) (r : CountedRecord) :
    (st.count r).keeper = st.keeper := rfl

theorem foldl_count_keeper (records : List CountedRecord) (st : RemovalState) :
    (records.foldl RemovalState.count st).keeper = st.keeper := by
  induction records generalizing st with
  | nil => rfl
  | cons r rest ih => rw [List.foldl_cons, ih]; rfl

theorem foldl_count_with_keeper (records : List CountedRecord) (st : RemovalState)
    (k : Keeper) :
    records.foldl RemovalState.count { st with keeper := k }
      = { records.foldl RemovalState.count st with keeper := k } := by
  induction records generalizing st with
  | nil => rfl
  | cons r rest ih =>
    rw [List.foldl_cons, List.foldl_cons, ← ih]
    rfl

/-- One step of the inner loop: the keeper moves as `countUniquePayment` says and the
locals take in the record it counts, if any. -/
theorem removeUniquePayment_eq (ks : KeyScheme) (blockForDelete : Nat)
    (providerPaymentStorage : ProviderPaymentStorage) (st : RemovalState) (key : String) :
    removeUniquePayment ks blockForDelete providerPaymentStorage st key
      = { (countUniquePayment ks blockForDelete providerPaymentStorage st.keeper key).2.toList.foldl
            RemovalState.count st with
          keeper :=
            (countUniquePayment ks blockForDelete providerPaymentStorage st.keeper key).1 } := by
  unfold removeUniquePayment countUniquePayment
  cases st.keeper.GetUniquePaymentStorageClientProvider key with
  | none => rfl
  | some u =>
    simp only
    by_cases hb : u.Block > blockForDelete
    · rw [if_pos hb, if_pos hb]
      rfl
    · rw [if_neg hb, if_neg hb]
      cases ks.GetProviderFromProviderPaymentStorage providerPaymentStorage with
      | none => rfl
      | some provider => rfl

/-- The inner loop: the keeper moves as `countUniquePayments` says and the locals take in
the records it counts. -/
theorem foldl_removeUniquePayment_eq (ks : KeyScheme) (blockForDelete : Nat)
    (providerPaymentStorage : ProviderPaymentStorage) (keys : List String)
    (st : RemovalState) :
    keys.foldl (removeUniquePayment ks blockForDelete providerPaymentStorage) st
      = { (countUniquePayments ks blockForDelete providerPaymentStorage st.keeper keys).2.foldl
            RemovalState.count st with
          keeper :=
            (countUniquePayments ks blockForDelete providerPaymentStorage st.keeper keys).1 } := by
  induction keys generalizing st with
  | nil => rfl
  | cons key rest ih =>
    rw [List.foldl_cons, ih, removeUniquePayment_eq]
    simp only [countUniquePayments, List.foldl_append]
    rw [foldl_count_with_keeper]

/-- One step of the outer loop. -/
theorem removeProviderPayments_eq (ks : KeyScheme) (blockForDelete : Nat)
    (st : RemovalState) (key : String) :
    removeProviderPayments ks blockForDelete st key
      = { (countProviderPayments ks blockForDelete st.keeper [key]).2.foldl
            RemovalState.count st with
          keeper := (countProviderPayments ks blockForDelete st.keeper [key]).1 } := by
  unfold removeProviderPayments
  simp only [countProviderPayments]
  cases st.keeper.GetProviderPaymentStorage key with
  | none => rfl
  | some s =>
    simp only [List.append_nil]
    rw [foldl_removeUniquePayment_eq]

theorem countProviderPayments_cons (ks : KeyScheme) (blockForDelete : Nat) (k : Keeper)
    (key : String) (rest : List String) :
    countProviderPayments ks blockForDelete k (key :: rest)
      = ((countProviderPayments ks blockForDelete
            (countProviderPayments ks blockForDelete k [key]).1 rest).1,
         (countProviderPayments ks blockForDelete k [key]).2 ++
           (countProviderPayments ks blockForDelete
            (countProviderPayments ks blockForDelete k [key]).1 rest).2) := by
  simp only [countProviderPayments]
  cases k.GetProviderPaymentStorage key with
  | none => rfl
  | some s => simp only [List.append_nil]

/-- The outer loop: the keeper moves as `countProviderPayments` says and the locals take
in the records it counts. -/
theorem foldl_removeProviderPayments_eq (ks : KeyScheme) (blockForDelete : Nat)
    (keys : List String) (st : RemovalState) :
    keys.foldl (removeProviderPayments ks blockForDelete) st
      = { (countProviderPayments ks blockForDelete st.keeper keys).2.foldl
            RemovalState.count st with
          keeper := (countProviderPayments ks blockForDelete st.keeper keys).1 } := by
  induction keys generalizing st with
  | nil => rfl
  | cons key rest ih =>
    rw [countProviderPayments_cons ks blockForDelete st.keeper key rest, List.foldl_cons, ih,
      removeProviderPayments_eq]
    simp only [List.foldl_append]
    rw [foldl_count_with_keeper]

/-- The locals at the end of the scan describe the counted records. -/
theorem removalScan_tallied (ks : KeyScheme) (k : Keeper) (blockForDelete : Nat)
    (keys : List String) :
    Tallied (removalScan ks k blockForDelete keys)
      (countProviderPayments ks blockForDelete k keys).2 := by
  unfold removalScan
  rw [foldl_removeProviderPayments_eq]
  have h := (Tallied.nil k).foldl (countProviderPayments ks blockForDelete k keys).2
  rw [List.nil_append] at h
  exact { nodup := h.nodup, mem := h.mem, has := h.has, order := h.order,
          coupling := h.coupling, consumer := h.consumer }

theorem removalScan_keeper (ks : KeyScheme) (k : Keeper) (blockForDelete : Nat)
    (keys : List String) :
    (removalScan ks k blockForDelete keys).keeper
      = (countProviderPayments ks blockForDelete k keys).1 := by
  unfold removalScan
  rw [foldl_removeProviderPayments_eq]

/-! ## The adjustments of a retirement -/

theorem appendAdjustments_coupling (st : RemovalState) :
    (appendAdjustments st).map Adjustment.coupling = st.iterationOrder := by
  unfold appendAdjustments
  rw [List.map_map]
  exact List.map_id _

/-- The adjustments of a retirement are read off the locals of the scan over the keys of
the entry; there is none when the epoch has no entry. -/
theorem RemoveAllEpochPaymentsForBlockAppendAdjustments_adjustments (ks : KeyScheme)
    (k : Keeper) (blockForDelete : Nat) :
    (RemoveAllEpochPaymentsForBlockAppendAdjustments ks k blockForDelete).2
      = match k.GetEpochPayments (epochPaymentKey blockForDelete) with
        | none => []
        | some epochPayments =>
          appendAdjustments
            (removalScan ks k blockForDelete epochPayments.ProviderPaymentStorageKeys) := by
  unfold RemoveAllEpochPaymentsForBlockAppendAdjustments GetEpochPaymentsFromBlock
  cases k.GetEpochPayments (epochPaymentKey blockForDelete) <;> rfl

/-- C7: for every store state and epoch, the retirement appends exactly one adjustment
for each pair (consumer, provider) that has a counted record, never two for the same
pair, in the order in which the pairs are first met by the scan of the keys of the entry
and, within each provider payment storage, of its keys. -/
theorem RemoveAllEpochPaymentsForBlockAppendAdjustments_pairs (ks : KeyScheme) (k : Keeper)
    (blockForDelete : Nat) :
    ((RemoveAllEpochPaymentsForBlockAppendAdjustments ks k blockForDelete).2.map
        Adjustment.coupling).Nodup ∧
    (∀ c, c ∈ (RemoveAllEpochPaymentsForBlockAppendAdjustments ks k blockForDelete).2.map
        Adjustment.coupling
      ↔ c ∈ (countedRecords ks k blockForDelete).map CountedRecord.coupling) ∧
    ((RemoveAllEpochPaymentsForBlockAppendAdjustments ks k blockForDelete).2.map
        Adjustment.coupling).Pairwise fun a b =>
      ((countedRecords ks k blockForDelete).map CountedRecord.coupling).indexOf a
        < ((countedRecords ks k blockForDelete).map CountedRecord.coupling).indexOf b := by
  rw [RemoveAllEpochPaymentsForBlockAppendAdjustments_adjustments]
  unfold countedRecords
  cases k.GetEpochPayments (epochPaymentKey blockForDelete) with
  | none =>
    exact ⟨List.nodup_nil, fun c => Iff.rfl, List.Pairwise.nil⟩
  | some ep =>
    have h := removalScan_tallied ks k blockForDelete ep.ProviderPaymentStorageKeys
    simp only [appendAdjustments_coupling]
    exact ⟨h.nodup, h.mem, h.order⟩

/-- Counterexample to C8 as stated: two records of `2 ^ 63` compute units for the pair
(`c1`, `p1`) are both counted, their sum is `2 ^ 64`, and the one adjustment appended
carries 0 for the pair and 0 for the consumer. -/
theorem RemoveAllEpochPaymentsForBlockAppendAdjustments_wraps :
    (RemoveAllEpochPaymentsForBlockAppendAdjustments sampleKeys wrapKeeper 7).2
      = [{ consumer := "c1", provider := "p1", consumerUsage := 0, couplingUsage := 0 }] ∧
    couplingTotal (countedRecords sampleKeys wrapKeeper 7)
      { consumer := "c1", provider := "p1" } = 2 ^ 64 ∧
    consumerTotal (countedRecords sampleKeys wrapKeeper 7) "c1" = 2 ^ 64 ∧
    ¬ ∀ a ∈ (RemoveAllEpochPaymentsForBlockAppendAdjustments sampleKeys wrapKeeper 7).2,
      a.couplingUsage = couplingTotal (countedRecords sampleKeys wrapKeeper 7) a.coupling ∧
      a.consumerUsage = consumerTotal (countedRecords sampleKeys wrapKeeper 7) a.consumer := by
  decide

/-- C8, amended: every adjustment appended by the retirement carries, as its last
argument, the sum of `UsedCU` over all counted records of its pair and, as its third
argument, the sum of `UsedCU` over all counted records of its consumer across all
providers, both over the whole scan and both reduced modulo `2 ^ 64`; in the scenario of
the spec the retirement of epoch 7 appends exactly the adjustment (`c1`, `p1`, 80, 80). -/
theorem RemoveAllEpochPaymentsForBlockAppendAdjustments_totals :
    (∀ (ks : KeyScheme) (k : Keeper) (blockForDelete : Nat) (a : Adjustment),
      a ∈ (RemoveAllEpochPaymentsForBlockAppendAdjustments ks k blockForDelete).2 →
      a.couplingUsage
        = couplingTotal (countedRecords ks k blockForDelete) a.coupling % 2 ^ 64 ∧
      a.consumerUsage
        = consumerTotal (countedRecords ks k blockForDelete) a.consumer % 2 ^ 64) ∧
    (RemoveAllEpochPaymentsForBlockAppendAdjustments sampleKeys scenarioKeeper 7).2
      = [{ consumer := "c1", provider := "p1", consumerUsage := 80, couplingUsage := 80 }] := by
  refine ⟨?_, by decide⟩
  intro ks k blockForDelete a ha
  rw [RemoveAllEpochPaymentsForBlockAppendAdjustments_adjustments] at ha
  unfold countedRecords
  cases hg : k.GetEpochPayments (epochPaymentKey blockForDelete) with
  | none =>
    rw [hg] at ha
    cases ha
  | some ep =>
    rw [hg] at ha
    have h := removalScan_tallied ks k blockForDelete ep.ProviderPaymentStorageKeys
    simp only [appendAdjustments, List.mem_map] at ha
    obtain ⟨c, -, rfl⟩ := ha
    exact ⟨h.coupling c, h.consumer c.consumer⟩

/-- Witness of C8: the adjustment of the scenario of the spec. -/
theorem RemoveAllEpochPaymentsForBlockAppendAdjustments_totals_witness :
    (80 : Nat) = couplingTotal (countedRecords sampleKeys scenarioKeeper 7)
        { consumer := "c1", provider := "p1" } % 2 ^ 64 ∧
    (80 : Nat) = consumerTotal (countedRecords sampleKeys scenarioKeeper 7) "c1" % 2 ^ 64 :=
  RemoveAllEpochPaymentsForBlockAppendAdjustments_totals.1 sampleKeys scenarioKeeper 7
    { consumer := "c1", provider := "p1", consumerUsage := 80, couplingUsage := 80 }
    (by decide)

/-! ## A record whose block is beyond the block for delete -/

theorem RemoveUnique_comm (k : Keeper) (a b : String) :
    (k.RemoveUniquePaymentStorageClientProvider a).RemoveUniquePaymentStorageClientProvider b
      = (k.RemoveUniquePaymentStorageClientProvider b).RemoveUniquePaymentStorageClientProvider
          a := by
  unfold RemoveUniquePaymentStorageClientProvider
  simp only
  rw [KVStore.Delete_comm]

theorem GetUnique_RemoveUnique (k : Keeper) (a key : String) :
    (k.RemoveUniquePaymentStorageClientProvider a).GetUniquePaymentStorageClientProvider key
      = if key = a then none else k.GetUniquePaymentStorageClientProvider key :=
  KVStore.Get_Delete _ _ _

theorem countUniquePayment_none (ks : KeyScheme) (blockForDelete : Nat)
    (providerPaymentStorage : ProviderPaymentStorage) {k : Keeper} {key : String}
    (h : k.GetUniquePaymentStorageClientProvider key = none) :
    countUniquePayment ks blockForDelete providerPaymentStorage k key = (k, none) := by
  unfold countUniquePayment
  rw [h]

theorem countUniquePayment_beyond (ks : KeyScheme) {blockForDelete : Nat}
    (providerPaymentStorage : ProviderPaymentStorage) {k : Keeper} {key : String}
    {u : UniquePaymentStorageClientProvider}
    (h : k.GetUniquePaymentStorageClientProvider key = some u)
    (hb : u.Block > blockForDelete) :
    countUniquePayment ks blockForDelete providerPaymentStorage k key = (k, none) := by
  unfold countUniquePayment
  rw [h]
  simp only
  rw [if_pos hb]

theorem countUniquePayment_within (ks : KeyScheme) {blockForDelete : Nat}
    (providerPaymentStorage : ProviderPaymentStorage) {k : Keeper} {key : String}
    {u : UniquePaymentStorageClientProvider}
    (h : k.GetUniquePaymentStorageClientProvider key = some u)
    (hb : ¬ u.Block > blockForDelete) :
    countUniquePayment ks blockForDelete providerPaymentStorage k key
      = (k.RemoveUniquePaymentStorageClientProvider key,
          (ks.GetProviderFromProviderPaymentStorage providerPaymentStorage).map fun provider =>
            { key := key
              coupling :=
                { consumer := ks.GetConsumerFromUniquePayment key, provider := provider }
              usedCU := u.UsedCU }) := by
  have hidx : u.Index = key := KVStore.Get_index h
  unfold countUniquePayment
  rw [h]
  simp only
  rw [if_neg hb, hidx]

/-- One step of the scan next to a record `c` that is beyond the block for delete: the
step never deletes or counts `c`, and does the same whether `c` is in the store or not. -/
theorem countUniquePayment_skip (ks : KeyScheme) (blockForDelete : Nat)
    (providerPaymentStorage : ProviderPaymentStorage) (k : Keeper) (key c : String)
    (r : UniquePaymentStorageClientProvider)
    (hget : k.GetUniquePaymentStorageClientProvider c = some r)
    (hb : r.Block > blockForDelete) :
    (countUniquePayment ks blockForDelete providerPaymentStorage k
        key).1.GetUniquePaymentStorageClientProvider c = some r ∧
    (∀ rec ∈ (countUniquePayment ks blockForDelete providerPaymentStorage k key).2.toList,
      rec.key ≠ c) ∧
    countUniquePayment ks blockForDelete providerPaymentStorage
        (k.RemoveUniquePaymentStorageClientProvider c) key
      = ((countUniquePayment ks blockForDelete providerPaymentStorage k
            key).1.RemoveUniquePaymentStorageClientProvider c,
         (countUniquePayment ks blockForDelete providerPaymentStorage k key).2) := by
  by_cases hkc : key = c
  · subst hkc
    have h2 : (k.RemoveUniquePaymentStorageClientProvider key).GetUniquePaymentStorageClientProvider
        key = none := by
      rw [GetUnique_RemoveUnique, if_pos rfl]
    rw [countUniquePayment_beyond ks providerPaymentStorage hget hb,
      countUniquePayment_none ks blockForDelete providerPaymentStorage h2]
    exact ⟨hget, fun rec hrec => absurd hrec (List.not_mem_nil rec), rfl⟩
  · have h2 : (k.RemoveUniquePaymentStorageClientProvider c).GetUniquePaymentStorageClientProvider
        key = k.GetUniquePaymentStorageClientProvider key := by
      rw [GetUnique_RemoveUnique, if_neg hkc]
    cases hu : k.GetUniquePaymentStorageClientProvider key with
    | none =>
      rw [countUniquePayment_none ks blockForDelete providerPaymentStorage hu,
        countUniquePayment_none ks blockForDelete providerPaymentStorage (h2.trans hu)]
      exact ⟨hget, fun rec hrec => absurd hrec (List.not_mem_nil rec), rfl⟩
    | some u =>
      by_cases hbu : u.Block > blockForDelete
      · rw [countUniquePayment_beyond ks providerPaymentStorage hu hbu,
          countUniquePayment_beyond ks providerPaymentStorage (h2.trans hu) hbu]
        exact ⟨hget, fun rec hrec => absurd hrec (List.not_mem_nil rec), rfl⟩
      · rw [countUniquePayment_within ks providerPaymentStorage hu hbu,
          countUniquePayment_within ks providerPaymentStorage (h2.trans hu) hbu]
        refine ⟨?_, ?_, ?_⟩
        · show (k.RemoveUniquePaymentStorageClientProvider
            key).GetUniquePaymentStorageClientProvider c = some r
          rw [GetUnique_RemoveUnique, if_neg (fun e => hkc e.symm)]
          exact hget
        · intro rec hrec
          simp only [Option.mem_toList, Option.mem_def, Option.map_eq_some'] at hrec
          obtain ⟨p, -, rfl⟩ := hrec
          exact hkc
        · show (_, _) = (_, _)
          rw [RemoveUnique_comm]

/-- The scan of the keys of one provider payment storage next to a record that is beyond
the block for delete. -/
theorem countUniquePayments_skip (ks : KeyScheme) (blockForDelete : Nat)
    (providerPaymentStorage : ProviderPaymentStorage) (keys : List String) (k : Keeper)
    (c : String) (r : UniquePaymentStorageClientProvider)
    (hget : k.GetUniquePaymentStorageClientProvider c = some r)
    (hb : r.Block > blockForDelete) :
    (countUniquePayments ks blockForDelete providerPaymentStorage k
        keys).1.GetUniquePaymentStorageClientProvider c = some r ∧
    (∀ rec ∈ (countUniquePayments ks blockForDelete providerPaymentStorage k keys).2,
      rec.key ≠ c) ∧
    countUniquePayments ks blockForDelete providerPaymentStorage
        (k.RemoveUniquePaymentStorageClientProvider c) keys
      = ((countUniquePayments ks blockForDelete providerPaymentStorage k
            keys).1.RemoveUniquePaymentStorageClientProvider c,
         (countUniquePayments ks blockForDelete providerPaymentStorage k keys).2) := by
  induction keys generalizing k with
  | nil => exact ⟨hget, fun rec hrec => absurd hrec (List.not_mem_nil rec), rfl⟩
  | cons key rest ih =>
    obtain ⟨h1, h2, h3⟩ := countUniquePayment_skip ks blockForDelete providerPaymentStorage
      k key c r hget hb
    obtain ⟨i1, i2, i3⟩ := ih _ h1
    simp only [countUniquePayments]
    refine ⟨i1, ?_, ?_⟩
    · intro rec hrec
      rw [List.mem_append] at hrec
      rcases hrec with hrec | hrec
      · exact h2 rec hrec
      · exact i2 rec hrec
    · rw [h3]
      simp only
      rw [i3]

/-- The scan of the keys of an entry next to a record that is beyond the block for
delete. -/
theorem countProviderPayments_skip (ks : KeyScheme) (blockForDelete : Nat)
    (keys : List String) (k : Keeper) (c : String) (r : UniquePaymentStorageClientProvider)
    (hget : k.GetUniquePaymentStorageClientProvider c = some r)
    (hb : r.Block > blockForDelete) :
    (countProviderPayments ks blockForDelete k keys).1.GetUniquePaymentStorageClientProvider c
      = some r ∧
    (∀ rec ∈ (countProviderPayments ks blockForDelete k keys).2, rec.key ≠ c) ∧
    countProviderPayments ks blockForDelete (k.RemoveUniquePaymentStorageClientProvider c) keys
      = ((countProviderPayments ks blockForDelete k
            keys).1.RemoveUniquePaymentStorageClientProvider c,
         (countProviderPayments ks blockForDelete k keys).2) := by
  induction keys generalizing k with
  | nil => exact ⟨hget, fun rec hrec => absurd hrec (List.not_mem_nil rec), rfl⟩
  | cons key rest ih =>
    have hp : (k.RemoveUniquePaymentStorageClientProvider c).GetProviderPaymentStorage key
        = k.GetProviderPaymentStorage key := rfl
    simp only [countProviderPayments, hp]
    cases k.GetProviderPaymentStorage key with
    | none => exact ih k hget
    | some s =>
      obtain ⟨h1, h2, h3⟩ := countUniquePayments_skip ks blockForDelete s
        s.UniquePaymentStorageClientProviderKeys k c r hget hb
      have h1b : ((countUniquePayments ks blockForDelete s k
          s.UniquePaymentStorageClientProviderKeys).1.RemoveProviderPaymentStorage
            s.Index).GetUniquePaymentStorageClientProvider c = some r := h1
      obtain ⟨i1, i2, i3⟩ := ih _ h1b
      simp only
      refine ⟨i1, ?_, ?_⟩
      · intro rec hrec
        rw [List.mem_append] at hrec
        rcases hrec with hrec | hrec
        · exact h2 rec hrec
        · exact i2 rec hrec
      · rw [h3]
        simp only
        have hcomm : ((countUniquePayments ks blockForDelete s k
            s.UniquePaymentStorageClientProviderKeys).1.RemoveUniquePaymentStorageClientProvider
              c).RemoveProviderPaymentStorage s.Index
            = ((countUniquePayments ks blockForDelete s k
                s.UniquePaymentStorageClientProviderKeys).1.RemoveProviderPaymentStorage
                  s.Index).RemoveUniquePaymentStorageClientProvider c := rfl
        rw [hcomm, i3]

theorem appendAdjustments_with_keeper (st : RemovalState) (k : Keeper) :
    appendAdjustments { st with keeper := k } = appendAdjustments st := rfl

theorem appendAdjustments_congr {a b : RemovalState}
    (h1 : a.iterationOrder = b.iterationOrder) (h2 : a.consumerUsage = b.consumerUsage)
    (h3 : a.couplingUsage = b.couplingUsage) : appendAdjustments a = appendAdjustments b := by
  unfold appendAdjustments
  rw [h1, h2, h3]

/-- The adjustments of a scan are determined by the records it counts. -/
theorem removalScan_adjustments (ks : KeyScheme) (k : Keeper) (blockForDelete : Nat)
    (keys : List String) :
    appendAdjustments (removalScan ks k blockForDelete keys)
      = appendAdjustments
          ((countProviderPayments ks blockForDelete k keys).2.foldl RemovalState.count
            { keeper := emptyKeeper 0
              consumerUsage := UsageMap.empty
              iterationOrder := []
              couplingUsage := UsageMap.empty }) := by
  have h : (countProviderPayments ks blockForDelete k keys).2.foldl RemovalState.count
      { keeper := k
        consumerUsage := UsageMap.empty
        iterationOrder := []
        couplingUsage := UsageMap.empty }
      = { (countProviderPayments ks blockForDelete k keys).2.foldl RemovalState.count
            { keeper := emptyKeeper 0
              consumerUsage := UsageMap.empty
              iterationOrder := []
              couplingUsage := UsageMap.empty } with keeper := k } :=
    foldl_count_with_keeper (countProviderPayments ks blockForDelete k keys).2
      { keeper := emptyKeeper 0
        consumerUsage := UsageMap.empty
        iterationOrder := []
        couplingUsage := UsageMap.empty } k
  unfold removalScan
  rw [foldl_removeProviderPayments_eq]
  apply appendAdjustments_congr
  · show (List.foldl RemovalState.count _ _).iterationOrder = _
    rw [h]
  · show (List.foldl RemovalState.count _ _).consumerUsage = _
    rw [h]
  · show (List.foldl RemovalState.count _ _).couplingUsage = _
    rw [h]

/-- C10: for every record of the store whose block is greater than the block for delete,
reached by the retirement or not, the record is still in the store after the retirement,
it is not among the counted records (so its `UsedCU` enters no total), and the retirement
goes on as if the record were absent: on the store without the record it appends the same
adjustments and ends in the same store but for that record. -/
theorem RemoveAllEpochPaymentsForBlockAppendAdjustments_skips (ks : KeyScheme) (k : Keeper)
    (blockForDelete : Nat) (c : String) (r : UniquePaymentStorageClientProvider)
    (hget : k.GetUniquePaymentStorageClientProvider c = some r)
    (hb : r.Block > blockForDelete) :
    (RemoveAllEpochPaymentsForBlockAppendAdjustments ks k
        blockForDelete).1.GetUniquePaymentStorageClientProvider c = some r ∧
    (∀ rec ∈ countedRecords ks k blockForDelete, rec.key ≠ c) ∧
    (RemoveAllEpochPaymentsForBlockAppendAdjustments ks
        (k.RemoveUniquePaymentStorageClientProvider c) blockForDelete).2
      = (RemoveAllEpochPaymentsForBlockAppendAdjustments ks k blockForDelete).2 ∧
    (RemoveAllEpochPaymentsForBlockAppendAdjustments ks
        (k.RemoveUniquePaymentStorageClientProvider c) blockForDelete).1
      = (RemoveAllEpochPaymentsForBlockAppendAdjustments ks k
          blockForDelete).1.RemoveUniquePaymentStorageClientProvider c := by
  have he : (k.RemoveUniquePaymentStorageClientProvider c).GetEpochPayments
      (epochPaymentKey blockForDelete) = k.GetEpochPayments (epochPaymentKey blockForDelete) :=
    rfl
  unfold RemoveAllEpochPaymentsForBlockAppendAdjustments GetEpochPaymentsFromBlock countedRecords
  rw [he]
  cases k.GetEpochPayments (epochPaymentKey blockForDelete) with
  | none =>
    exact ⟨hget, fun rec hrec => absurd hrec (List.not_mem_nil rec), rfl, rfl⟩
  | some ep =>
    obtain ⟨h1, h2, h3⟩ := countProviderPayments_skip ks blockForDelete
      ep.ProviderPaymentStorageKeys k c r hget hb
    simp only [removalScan_keeper, removalScan_adjustments, h3]
    exact ⟨h1, h2, trivial, rfl⟩

/-- Witness of C10: in the ledger of the scenario the record of request `r2` carries block
9; the retirement of epoch 7 leaves it in the store and counts the 50 compute units of
request `r1` only. -/
theorem RemoveAllEpochPaymentsForBlockAppendAdjustments_skips_witness :
    (RemoveAllEpochPaymentsForBlockAppendAdjustments sampleKeys beyondKeeper
        7).1.GetUniquePaymentStorageClientProvider
        (sampleKeys.EncodeUniquePaymentKey "LAV1" 7 "c1" "p1" "r2")
      = some { Index := sampleKeys.EncodeUniquePaymentKey "LAV1" 7 "c1" "p1" "r2"
               Block := 9
               UsedCU := 30 } ∧
    (RemoveAllEpochPaymentsForBlockAppendAdjustments sampleKeys beyondKeeper 7).2
      = [{ consumer := "c1", provider := "p1", consumerUsage := 50, couplingUsage := 50 }] :=
  ⟨(RemoveAllEpochPaymentsForBlockAppendAdjustments_skips sampleKeys beyondKeeper 7
      (sampleKeys.EncodeUniquePaymentKey "LAV1" 7 "c1" "p1" "r2")
      { Index := sampleKeys.EncodeUniquePaymentKey "LAV1" 7 "c1" "p1" "r2"
        Block := 9
        UsedCU := 30 }
      (by decide) (by decide)).1,
    by decide⟩

end Keeper

namespace EpochPaymentHandler

/-! ## The ledger after a sequence of calls -/

/-- The provider payment storage that `AddProviderPaymentInEpoch` starts from: the one it
finds, or a fresh one with no key and no usage. -/
theorem AddProviderPaymentInEpoch_first (ks : KeyScheme) (k : EpochPaymentHandler)
    (chainID : String) (epoch : Nat) (projectID providerAddress : String) (usedCU : Nat)
    (uniqueIdentifier : String)
    (hu : k.GetUniquePaymentStorageClientProviderCached
      (ks.EncodeUniquePaymentKey chainID epoch projectID providerAddress uniqueIdentifier)
        = none) :
    ∃ st : ProviderPaymentStorage,
      (k.GetProviderPaymentStorageCached
          (ks.GetProviderPaymentStorageKey chainID epoch providerAddress) = some st ∨
        (k.GetProviderPaymentStorageCached
            (ks.GetProviderPaymentStorageKey chainID epoch providerAddress) = none ∧
          st.UniquePaymentStorageClientProviderKeys = [] ∧ st.UsedCU = 0)) ∧
      (∀ u, (AddProviderPaymentInEpoch ks k chainID epoch projectID providerAddress usedCU
          uniqueIdentifier).1.GetUniquePaymentStorageClientProviderCached u
        = if u = ks.EncodeUniquePaymentKey chainID epoch projectID providerAddress
              uniqueIdentifier then
            some { Index := ks.EncodeUniquePaymentKey chainID epoch projectID providerAddress
                     uniqueIdentifier
                   Block := epoch
                   UsedCU := usedCU }
          else k.GetUniquePaymentStorageClientProviderCached u) ∧
      (∀ s, (AddProviderPaymentInEpoch ks k chainID epoch projectID providerAddress usedCU
          uniqueIdentifier).1.GetProviderPaymentStorageCached s
        = if s = ks.GetProviderPaymentStorageKey chainID epoch providerAddress then
            some { st with
              UniquePaymentStorageClientProviderKeys :=
                st.UniquePaymentStorageClientProviderKeys ++
                  [ks.EncodeUniquePaymentKey chainID epoch projectID providerAddress
                    uniqueIdentifier]
              UsedCU := addU64 st.UsedCU usedCU }
          else k.GetProviderPaymentStorageCached s) ∧
      (AddProviderPaymentInEpoch ks k chainID epoch projectID providerAddress usedCU
          uniqueIdentifier).2.2 = addU64 st.UsedCU usedCU := by
  have hn : (k.GetUniquePaymentStorageClientProviderCached
      (ks.EncodeUniquePaymentKey chainID epoch projectID providerAddress
        uniqueIdentifier)).isNone = true := by
    rw [hu]; rfl
  have hp : ∀ (u : UniquePaymentStorageClientProvider) (s : String),
      (k.SetUniquePaymentStorageClientProviderCached u).GetProviderPaymentStorageCached s
        = k.GetProviderPaymentStorageCached s := fun _ _ => rfl
  cases hg : k.GetProviderPaymentStorageCached
      (ks.GetProviderPaymentStorageKey chainID epoch providerAddress) with
  | none =>
    refine ⟨{ Index := ks.GetProviderPaymentStorageKey chainID epoch providerAddress,
              UniquePaymentStorageClientProviderKeys := [], UsedCU := 0 },
      Or.inr ⟨rfl, rfl, rfl⟩, ?_, ?_, ?_⟩
    · intro u
      simp only [AddProviderPaymentInEpoch, hn, if_true, hp, hg]
      simp only [GetUniquePaymentStorageClientProviderCached,
        SetProviderPaymentStorageCached, SetUniquePaymentStorageClientProviderCached,
        KVStore.cacheGet_Set]
    · intro s
      simp only [AddProviderPaymentInEpoch, hn, if_true, hp, hg]
      simp only [GetProviderPaymentStorageCached,
        SetProviderPaymentStorageCached, SetUniquePaymentStorageClientProviderCached,
        KVStore.cacheGet_Set]
    · simp only [AddProviderPaymentInEpoch, hn, if_true, hp, hg]
  | some st =>
    have hidx : st.Index = ks.GetProviderPaymentStorageKey chainID epoch providerAddress :=
      KVStore.cacheGet_index hg
    refine ⟨st, Or.inl rfl, ?_, ?_, ?_⟩
    · intro u
      simp only [AddProviderPaymentInEpoch, hn, if_true, hp, hg]
      simp only [GetUniquePaymentStorageClientProviderCached,
        SetProviderPaymentStorageCached, SetUniquePaymentStorageClientProviderCached,
        KVStore.cacheGet_Set]
    · intro s
      simp only [AddProviderPaymentInEpoch, hn, if_true, hp, hg]
      simp only [GetProviderPaymentStorageCached,
        SetProviderPaymentStorageCached, SetUniquePaymentStorageClientProviderCached,
        KVStore.cacheGet_Set, hidx]
    · simp only [AddProviderPaymentInEpoch, hn, if_true, hp, hg]

/-- A repeated request: `AddProviderPaymentInEpoch` leaves the records as they are and
writes back the provider payment storage it finds, or a fresh one with no key and no
usage. -/
theorem AddProviderPaymentInEpoch_repeated (ks : KeyScheme) (k : EpochPaymentHandler)
    (chainID : String) (epoch : Nat) (projectID providerAddress : String) (usedCU : Nat)
    (uniqueIdentifier : String) (r : UniquePaymentStorageClientProvider)
    (hu : k.GetUniquePaymentStorageClientProviderCached
      (ks.EncodeUniquePaymentKey chainID epoch projectID providerAddress uniqueIdentifier)
        = some r) :
    ∃ st : ProviderPaymentStorage,
      (k.GetProviderPaymentStorageCached
          (ks.GetProviderPaymentStorageKey chainID epoch providerAddress) = some st ∨
        (k.GetProviderPaymentStorageCached
            (ks.GetProviderPaymentStorageKey chainID epoch providerAddress) = none ∧
          st.UniquePaymentStorageClientProviderKeys = [] ∧ st.UsedCU = 0)) ∧
      (∀ u, (AddProviderPaymentInEpoch ks k chainID epoch projectID providerAddress usedCU
          uniqueIdentifier).1.GetUniquePaymentStorageClientProviderCached u
        = k.GetUniquePaymentStorageClientProviderCached u) ∧
      (∀ s, (AddProviderPaymentInEpoch ks k chainID epoch projectID providerAddress usedCU
          uniqueIdentifier).1.GetProviderPaymentStorageCached s
        = if s = ks.GetProviderPaymentStorageKey chainID epoch providerAddress then some st
          else k.GetProviderPaymentStorageCached s) ∧
      (AddProviderPaymentInEpoch ks k chainID epoch projectID providerAddress usedCU
          uniqueIdentifier).2.2 = st.UsedCU := by
  have hn : (k.GetUniquePaymentStorageClientProviderCached
      (ks.EncodeUniquePaymentKey chainID epoch projectID providerAddress
        uniqueIdentifier)).isNone = false := by
    rw [hu]; rfl
  cases hg : k.GetProviderPaymentStorageCached
      (ks.GetProviderPaymentStorageKey chainID epoch providerAddress) with
  | none =>
    refine ⟨{ Index := ks.GetProviderPaymentStorageKey chainID epoch providerAddress,
              UniquePaymentStorageClientProviderKeys := [], UsedCU := 0 },
      Or.inr ⟨rfl, rfl, rfl⟩, ?_, ?_, ?_⟩
    · intro u
      simp only [AddProviderPaymentInEpoch, hn, Bool.false_eq_true, if_false, hg]
      rfl
    · intro s
      simp only [AddProviderPaymentInEpoch, hn, Bool.false_eq_true, if_false, hg]
      simp only [GetProviderPaymentStorageCached, SetProviderPaymentStorageCached,
        KVStore.cacheGet_Set]
    · simp only [AddProviderPaymentInEpoch, hn, Bool.false_eq_true, if_false, hg]
  | some st =>
    have hidx : st.Index = ks.GetProviderPaymentStorageKey chainID epoch providerAddress :=
      KVStore.cacheGet_index hg
    refine ⟨st, Or.inl rfl, ?_, ?_, ?_⟩
    · intro u
      simp only [AddProviderPaymentInEpoch, hn, Bool.false_eq_true, if_false, hg]
      rfl
    · intro s
      simp only [AddProviderPaymentInEpoch, hn, Bool.false_eq_true, if_false, hg]
      simp only [GetProviderPaymentStorageCached, SetProviderPaymentStorageCached,
        KVStore.cacheGet_Set, hidx]
    · simp only [AddProviderPaymentInEpoch, hn, Bool.false_eq_true, if_false, hg]

end EpochPaymentHandler

theorem mem_entryWithKey_of_mem {ep : EpochPayments} (key index : String) {s : String}
    (h : s ∈ ep.ProviderPaymentStorageKeys) :
    s ∈ (entryWithKey (some ep) key index).ProviderPaymentStorageKeys := by
  by_cases hm : index ∈ ep.ProviderPaymentStorageKeys
  · rw [entryWithKey_of_mem key hm]; exact h
  · rw [entryWithKey_of_not_mem key hm]
    exact List.mem_append_left _ h

theorem mem_entryWithKey_cases {found : Option EpochPayments} {key index s : String}
    (h : s ∈ (entryWithKey found key index).ProviderPaymentStorageKeys) :
    (∃ ep, found = some ep ∧ s ∈ ep.ProviderPaymentStorageKeys) ∨ s = index := by
  cases found with
  | none =>
    rw [entryWithKey_none] at h
    exact Or.inr (List.mem_singleton.mp h)
  | some ep =>
    by_cases hm : index ∈ ep.ProviderPaymentStorageKeys
    · rw [entryWithKey_of_mem key hm] at h
      exact Or.inl ⟨ep, rfl, h⟩
    · rw [entryWithKey_of_not_mem key hm] at h
      rcases List.mem_append.mp h with h | h
      · exact Or.inl ⟨ep, rfl, h⟩
      · exact Or.inr (List.mem_singleton.mp h)

theorem storageTotal_append (ks : KeyScheme) (l : List UsageCall) (c : UsageCall)
    (s : String) :
    storageTotal ks (l ++ [c]) s
      = storageTotal ks l s + if c.storageKey ks = s then c.usedCU else 0 := by
  unfold storageTotal
  rw [List.filter_append, List.map_append, List.sum_append]
  by_cases h : c.storageKey ks = s
  · simp [h]
  · simp [h]

theorem filter_storageKey_append (ks : KeyScheme) (l : List UsageCall) (c : UsageCall)
    (s : String) :
    (l ++ [c]).filter (fun c2 => c2.storageKey ks = s)
      = l.filter (fun c2 => c2.storageKey ks = s)
          ++ if c.storageKey ks = s then [c] else [] := by
  rw [List.filter_append]
  by_cases h : c.storageKey ks = s
  · simp [h]
  · simp [h]

section LedgerLemmas

open EpochPaymentHandler

theorem Ledger.init (ks : KeyScheme) (earliestEpochStart : Nat) :
    Ledger ks (emptyKeeper earliestEpochStart).NewEpochPaymentHandler [] [] where
  sub := fun c hc => hc
  nodup := List.nodup_nil
  present := fun c hc => absurd hc (List.not_mem_nil c)
  absent := fun _ _ => rfl
  storage := fun s st h => by cases h
  stored := fun c hc => absurd hc (List.not_mem_nil c)
  listed := fun c hc => absurd hc (List.not_mem_nil c)
  entries := fun index ep h => by cases h

/-- The entries of the epochs after one recorded call. -/
theorem Ledger.entries_record (ks : KeyScheme) {k : EpochPaymentHandler}
    {seen recorded : List UsageCall} (h : Ledger ks k seen recorded) (c : UsageCall)
    (hr : k.keeper.earliestEpochStart ≤ c.epoch) :
    (∀ c2, (c2 ∈ recorded ∨ c2 = c) → ∃ epochPayments,
      (k.record ks c).1.GetEpochPaymentsCached (epochPaymentKey c2.epoch)
        = some epochPayments ∧
      c2.storageKey ks ∈ epochPayments.ProviderPaymentStorageKeys) ∧
    (∀ index epochPayments,
      (k.record ks c).1.GetEpochPaymentsCached index = some epochPayments →
      epochPayments.ProviderPaymentStorageKeys.Nodup ∧
        ∀ s ∈ epochPayments.ProviderPaymentStorageKeys, ∃ c2 ∈ seen ++ [c],
          index = epochPaymentKey c2.epoch ∧ s = c2.storageKey ks) := by
  have hE := AddEpochPayment_entries ks k c.chainID c.epoch c.projectID c.providerAddress
    c.usedCU c.uniqueIdentifier hr
  constructor
  · intro c2 hc2
    show ∃ ep, (AddEpochPayment ks k c.chainID c.epoch c.projectID c.providerAddress c.usedCU
      c.uniqueIdentifier).1.GetEpochPaymentsCached (epochPaymentKey c2.epoch) = some ep ∧ _
    rw [hE]
    rcases hc2 with hc2 | hc2
    · obtain ⟨ep, hep, hmem⟩ := h.listed c2 hc2
      by_cases hk : epochPaymentKey c2.epoch = epochPaymentKey c.epoch
      · rw [if_pos hk]
        rw [hk] at hep
        refine ⟨_, rfl, ?_⟩
        rw [hep]
        exact mem_entryWithKey_of_mem _ _ hmem
      · rw [if_neg hk]
        exact ⟨ep, hep, hmem⟩
    · subst hc2
      rw [if_pos rfl]
      exact ⟨_, rfl, mem_entryWithKey _ _ _⟩
  · intro index ep hep
    have hep2 : (AddEpochPayment ks k c.chainID c.epoch c.projectID c.providerAddress c.usedCU
      c.uniqueIdentifier).1.GetEpochPaymentsCached index = some ep := hep
    rw [hE] at hep2
    by_cases hk : index = epochPaymentKey c.epoch
    · rw [if_pos hk] at hep2
      cases hep2
      refine ⟨entryWithKey_nodup _ _ _ (fun ep0 h0 => (h.entries _ ep0 h0).1), ?_⟩
      intro s hs
      rcases mem_entryWithKey_cases hs with ⟨ep0, h0, hs0⟩ | hs0
      · obtain ⟨c2, hc2, he, hsk⟩ := (h.entries _ ep0 h0).2 s hs0
        exact ⟨c2, List.mem_append_left _ hc2, hk.trans he, hsk⟩
      · exact ⟨c, List.mem_append_right _ (List.mem_singleton.mpr rfl), hk, hs0⟩
    · rw [if_neg hk] at hep2
      obtain ⟨hn, hall⟩ := h.entries index ep hep2
      refine ⟨hn, fun s hs => ?_⟩
      obtain ⟨c2, hc2, he, hsk⟩ := hall s hs
      exact ⟨c2, List.mem_append_left _ hc2, he, hsk⟩

end LedgerLemmas

namespace EpochPaymentHandler

theorem record_views (ks : KeyScheme) (k : EpochPaymentHandler) (c : UsageCall)
    (hr : k.keeper.earliestEpochStart ≤ c.epoch) :
    (∀ u, (k.record ks c).1.GetUniquePaymentStorageClientProviderCached u
      = (AddProviderPaymentInEpoch ks k c.chainID c.epoch c.projectID c.providerAddress
          c.usedCU c.uniqueIdentifier).1.GetUniquePaymentStorageClientProviderCached u) ∧
    (∀ s, (k.record ks c).1.GetProviderPaymentStorageCached s
      = (AddProviderPaymentInEpoch ks k c.chainID c.epoch c.projectID c.providerAddress
          c.usedCU c.uniqueIdentifier).1.GetProviderPaymentStorageCached s) ∧
    (k.record ks c).2
      = (AddProviderPaymentInEpoch ks k c.chainID c.epoch c.projectID c.providerAddress
          c.usedCU c.uniqueIdentifier).2.2 := by
  unfold record
  rw [AddEpochPayment_retained ks k c.chainID c.epoch c.projectID c.providerAddress c.usedCU
    c.uniqueIdentifier hr]
  exact ⟨fun _ => rfl, fun _ => rfl, rfl⟩

end EpochPaymentHandler

section LedgerLemmas

open EpochPaymentHandler

/-- The storage found by a call, or the fresh one, agrees with the recorded calls. -/
theorem Ledger.storage_base (ks : KeyScheme) {k : EpochPaymentHandler}
    {seen recorded : List UsageCall} (h : Ledger ks k seen recorded) (s : String)
    (st : ProviderPaymentStorage)
    (hst : k.GetProviderPaymentStorageCached s = some st ∨
      (k.GetProviderPaymentStorageCached s = none ∧
        st.UniquePaymentStorageClientProviderKeys = [] ∧ st.UsedCU = 0)) :
    st.UniquePaymentStorageClientProviderKeys
        = (recorded.filter fun c => c.storageKey ks = s).map (UsageCall.uniqueKey ks) ∧
      st.UsedCU = storageTotal ks recorded s % 2 ^ 64 := by
  rcases hst with hst | ⟨hnone, hkeys, hcu⟩
  · exact h.storage s st hst
  · have hf : (recorded.filter fun c => c.storageKey ks = s) = [] := by
      rw [List.filter_eq_nil_iff]
      intro c hc hsk
      have hsk2 : c.storageKey ks = s := of_decide_eq_true hsk
      have := h.stored c hc
      rw [hsk2, hnone] at this
      cases this
    unfold storageTotal
    rw [hf, hkeys, hcu]
    exact ⟨rfl, rfl⟩

/-- One recorded call keeps the ledger in line with the recorded calls and returns the
total of the provider payment storage of the call, as a `uint64`. -/
theorem Ledger.record (ks : KeyScheme) {k : EpochPaymentHandler}
    {seen recorded : List UsageCall} (h : Ledger ks k seen recorded) (c : UsageCall)
    (hr : k.keeper.earliestEpochStart ≤ c.epoch) :
    Ledger ks (k.record ks c).1 (seen ++ [c])
        (recordedStep ks k.keeper.earliestEpochStart recorded c) ∧
      (k.record ks c).2
        = storageTotal ks (recordedStep ks k.keeper.earliestEpochStart recorded c)
            (c.storageKey ks) % 2 ^ 64 := by
  obtain ⟨hvu, hvs, hret⟩ := record_views ks k c hr
  obtain ⟨hlisted, hentries⟩ := h.entries_record ks c hr
  unfold recordedStep
  rw [if_neg (Nat.not_lt.mpr hr)]
  by_cases hseen : c.uniqueKey ks ∈ recorded.map (UsageCall.uniqueKey ks)
  · rw [if_pos hseen]
    obtain ⟨c0, hc0, huk⟩ := List.mem_map.mp hseen
    have hu := h.present c0 hc0
    rw [huk] at hu
    obtain ⟨st, hst, hu2, hs2, hr2⟩ := AddProviderPaymentInEpoch_repeated ks k c.chainID
      c.epoch c.projectID c.providerAddress c.usedCU c.uniqueIdentifier _ hu
    have hbase := h.storage_base ks (c.storageKey ks) st hst
    refine ⟨⟨fun c2 hc2 => List.mem_append_left _ (h.sub c2 hc2), h.nodup, ?_, ?_, ?_, ?_,
      fun c2 hc2 => hlisted c2 (Or.inl hc2), hentries⟩, ?_⟩
    · intro c2 hc2
      rw [hvu, hu2]
      exact h.present c2 hc2
    · intro u hu3
      rw [hvu, hu2]
      exact h.absent u hu3
    · intro s st2 hst2
      rw [hvs, hs2] at hst2
      by_cases hs : s = ks.GetProviderPaymentStorageKey c.chainID c.epoch c.providerAddress
      · rw [if_pos hs] at hst2
        cases hst2
        rw [hs]
        exact hbase
      · rw [if_neg hs] at hst2
        exact h.storage s st2 hst2
    · intro c2 hc2
      rw [hvs, hs2]
      by_cases hs : c2.storageKey ks
          = ks.GetProviderPaymentStorageKey c.chainID c.epoch c.providerAddress
      · rw [if_pos hs]; rfl
      · rw [if_neg hs]
        exact h.stored c2 hc2
    · rw [hret, hr2]
      exact hbase.2
  · rw [if_neg hseen]
    have hu := h.absent _ hseen
    obtain ⟨st, hst, hu2, hs2, hr2⟩ := AddProviderPaymentInEpoch_first ks k c.chainID
      c.epoch c.projectID c.providerAddress c.usedCU c.uniqueIdentifier hu
    have hbase := h.storage_base ks (c.storageKey ks) st hst
    have htotal : addU64 st.UsedCU c.usedCU
        = storageTotal ks (recorded ++ [c]) (c.storageKey ks) % 2 ^ 64 := by
      rw [hbase.2, addU64_mod, storageTotal_append, if_pos rfl]
    refine ⟨⟨?_, ?_, ?_, ?_, ?_, ?_, ?_, hentries⟩, ?_⟩
    · intro c2 hc2
      rcases List.mem_append.mp hc2 with hc2 | hc2
      · exact List.mem_append_left _ (h.sub c2 hc2)
      · exact List.mem_append_right _ hc2
    · rw [List.map_append, List.nodup_append]
      refine ⟨h.nodup, List.nodup_singleton _, ?_⟩
      intro a ha hb
      simp only [List.map_cons, List.map_nil, List.mem_singleton] at hb
      subst hb
      exact hseen ha
    · intro c2 hc2
      rw [hvu, hu2]
      rcases List.mem_append.mp hc2 with hc2 | hc2
      · have hne : c2.uniqueKey ks ≠ ks.EncodeUniquePaymentKey c.chainID c.epoch c.projectID
            c.providerAddress c.uniqueIdentifier := by
          intro he
          have he2 : c2.uniqueKey ks = c.uniqueKey ks := he
          exact hseen (he2 ▸ List.mem_map_of_mem _ hc2)
        rw [if_neg hne]
        exact h.present c2 hc2
      · rw [List.mem_singleton] at hc2
        subst hc2
        exact if_pos rfl
    · intro u hu3
      rw [List.map_append, List.mem_append, not_or] at hu3
      rw [hvu, hu2]
      have hne : u ≠ ks.EncodeUniquePaymentKey c.chainID c.epoch c.projectID
          c.providerAddress c.uniqueIdentifier := by
        intro he
        have he2 : u = c.uniqueKey ks := he
        exact hu3.2 (he2 ▸ List.mem_singleton.mpr rfl)
      rw [if_neg hne]
      exact h.absent u hu3.1
    · intro s st2 hst2
      rw [hvs, hs2] at hst2
      by_cases hs : s = ks.GetProviderPaymentStorageKey c.chainID c.epoch c.providerAddress
      · rw [if_pos hs] at hst2
        cases hst2
        rw [hs]
        constructor
        · show st.UniquePaymentStorageClientProviderKeys ++ [c.uniqueKey ks] = _
          rw [hbase.1]
          show _ = List.map _ (List.filter (fun c2 => decide (c2.storageKey ks = c.storageKey ks))
            (recorded ++ [c]))
          rw [filter_storageKey_append, if_pos rfl, List.map_append]
          rfl
        · exact htotal
      · rw [if_neg hs] at hst2
        have hne : ¬ c.storageKey ks = s := fun he => hs he.symm
        obtain ⟨hk, hcu⟩ := h.storage s st2 hst2
        constructor
        · rw [filter_storageKey_append, if_neg hne, List.append_nil]
          exact hk
        · rw [storageTotal_append, if_neg hne, Nat.add_zero]
          exact hcu
    · intro c2 hc2
      rw [hvs, hs2]
      by_cases hs : c2.storageKey ks
          = ks.GetProviderPaymentStorageKey c.chainID c.epoch c.providerAddress
      · rw [if_pos hs]; rfl
      · rw [if_neg hs]
        rcases List.mem_append.mp hc2 with hc2 | hc2
        · exact h.stored c2 hc2
        · rw [List.mem_singleton] at hc2
          subst hc2
          exact absurd rfl hs
    · intro c2 hc2
      rcases List.mem_append.mp hc2 with hc2 | hc2
      · exact hlisted c2 (Or.inl hc2)
      · exact hlisted c2 (Or.inr (List.mem_singleton.mp hc2))
    · rw [hret, hr2]
      exact htotal

end LedgerLemmas

section LedgerLemmas

open EpochPaymentHandler

theorem recordAll_keeper (ks : KeyScheme) (k : EpochPaymentHandler) (calls : List UsageCall) :
    (k.recordAll ks calls).keeper = k.keeper := by
  induction calls generalizing k with
  | nil => rfl
  | cons c rest ih =>
    show (EpochPaymentHandler.recordAll ks (k.record ks c).1 rest).keeper = _
    rw [ih]
    exact AddEpochPayment_keeper ks k _ _ _ _ _ _

theorem recordAll_append (ks : KeyScheme) (k : EpochPaymentHandler) (calls : List UsageCall)
    (c : UsageCall) :
    k.recordAll ks (calls ++ [c]) = ((k.recordAll ks calls).record ks c).1 := by
  unfold EpochPaymentHandler.recordAll
  rw [List.foldl_append]
  rfl

theorem recordedCalls_append (ks : KeyScheme) (earliestEpochStart : Nat)
    (calls : List UsageCall) (c : UsageCall) :
    recordedCalls ks earliestEpochStart (calls ++ [c])
      = recordedStep ks earliestEpochStart (recordedCalls ks earliestEpochStart calls) c := by
  unfold recordedCalls
  rw [List.foldl_append]
  rfl

/-- The calls of a sequence for retained epochs. -/
theorem retained_append (earliestEpochStart : Nat) (calls : List UsageCall) (c : UsageCall) :
    (calls ++ [c]).filter (fun c2 => earliestEpochStart ≤ c2.epoch)
      = calls.filter (fun c2 => earliestEpochStart ≤ c2.epoch)
          ++ if earliestEpochStart ≤ c.epoch then [c] else [] := by
  rw [List.filter_append]
  by_cases h : earliestEpochStart ≤ c.epoch
  · simp [h]
  · simp [h]

/-- After any sequence of calls on the empty ledger, the ledger holds the recorded calls
of the sequence. -/
theorem Ledger.recordAll (ks : KeyScheme) (earliestEpochStart : Nat)
    (calls : List UsageCall) :
    Ledger ks ((emptyKeeper earliestEpochStart).NewEpochPaymentHandler.recordAll ks calls)
      (calls.filter fun c => earliestEpochStart ≤ c.epoch)
      (recordedCalls ks earliestEpochStart calls) := by
  induction calls using List.reverseRecOn with
  | nil => exact Ledger.init ks earliestEpochStart
  | append_singleton calls c ih =>
    rw [recordAll_append, recordedCalls_append, retained_append]
    by_cases hr : earliestEpochStart ≤ c.epoch
    · rw [if_pos hr]
      have hr2 : ((emptyKeeper earliestEpochStart).NewEpochPaymentHandler.recordAll ks
          calls).keeper.earliestEpochStart ≤ c.epoch := by
        rw [recordAll_keeper]
        exact hr
      have h := (ih.record ks c hr2).1
      rw [recordAll_keeper] at h
      exact h
    · rw [if_neg hr, List.append_nil]
      have hr2 : c.epoch < ((emptyKeeper earliestEpochStart).NewEpochPaymentHandler.recordAll
          ks calls).keeper.earliestEpochStart := by
        rw [recordAll_keeper]
        exact Nat.not_le.mp hr
      have h1 : (((emptyKeeper earliestEpochStart).NewEpochPaymentHandler.recordAll ks
          calls).record ks c).1
          = (emptyKeeper earliestEpochStart).NewEpochPaymentHandler.recordAll ks calls := by
        unfold EpochPaymentHandler.record
        rw [AddEpochPayment_of_stale ks _ _ _ _ _ _ _ hr2]
      have h2 : recordedStep ks earliestEpochStart
          (recordedCalls ks earliestEpochStart calls) c
          = recordedCalls ks earliestEpochStart calls := by
        unfold recordedStep
        rw [if_pos (Nat.not_le.mp hr)]
      rw [h1, h2]
      exact ih

end LedgerLemmas

/-! ## The key of an epoch determines the epoch -/

theorem hexDigitValue_digitChar (m : Nat) (h : m < 16) :
    hexDigitValue (Nat.digitChar m) = m := by
  interval_cases m <;> decide

theorem hexValue_append_singleton (l : List Char) (c : Char) :
    hexValue (l ++ [c]) = hexValue l * 16 + hexDigitValue c := by
  unfold hexValue
  rw [List.foldl_append]
  rfl

theorem toDigitsCore_append (fuel n : Nat) (ds : List Char) :
    Nat.toDigitsCore 16 fuel n ds = Nat.toDigitsCore 16 fuel n [] ++ ds := by
  induction fuel generalizing n ds with
  | zero => rfl
  | succ fuel ih =>
    simp only [Nat.toDigitsCore]
    by_cases h : n / 16 = 0
    · simp only [h, if_true, List.singleton_append]
    · simp only [h, if_false]
      rw [ih (n / 16) (Nat.digitChar (n % 16) :: ds), ih (n / 16) [Nat.digitChar (n % 16)]]
      simp

theorem hexValue_toDigitsCore (fuel n : Nat) (h : n < fuel) :
    hexValue (Nat.toDigitsCore 16 fuel n []) = n := by
  induction fuel generalizing n with
  | zero => exact absurd h (Nat.not_lt_zero n)
  | succ fuel ih =>
    simp only [Nat.toDigitsCore]
    by_cases h0 : n / 16 = 0
    · simp only [h0, if_true]
      have hn : n < 16 := by omega
      show hexValue ([] ++ [Nat.digitChar (n % 16)]) = n
      rw [hexValue_append_singleton, hexDigitValue_digitChar _ (Nat.mod_lt _ (by decide))]
      show 0 * 16 + n % 16 = n
      omega
    · simp only [h0, if_false]
      rw [toDigitsCore_append, hexValue_append_singleton,
        hexDigitValue_digitChar _ (Nat.mod_lt _ (by decide)), ih (n / 16) (by omega)]
      omega

/-- Reading the key of an epoch in base 16 gives the epoch back. -/
theorem hexValue_epochPaymentKey (epoch : Nat) :
    hexValue (epochPaymentKey epoch).data = epoch := by
  unfold epochPaymentKey Nat.toDigits
  exact hexValue_toDigitsCore (epoch + 1) epoch (Nat.lt_succ_self epoch)

theorem epochPaymentKey_injective {a b : Nat} (h : epochPaymentKey a = epochPaymentKey b) :
    a = b := by
  have := congrArg (fun s : String => hexValue s.data) h
  simp only [hexValue_epochPaymentKey] at this
  exact this

/-! ## Sums over the counted records -/

theorem sum_map_ite_eq {α : Type} [DecidableEq α] (l : List α) (hl : l.Nodup) (a : α)
    (v : Nat) :
    (l.map fun x => if a = x then v else 0).sum = if a ∈ l then v else 0 := by
  induction l with
  | nil => rfl
  | cons x rest ih =>
    rw [List.nodup_cons] at hl
    rw [List.map_cons, List.sum_cons, ih hl.2]
    by_cases hax : a = x
    · subst hax
      simp [hl.1]
    · have hxa : ¬ x = a := fun e => hax e.symm
      by_cases hm : a ∈ rest
      · simp [hax, hm]
      · simp [hax, hm]

theorem couplingTotal_cons (r : CountedRecord) (l : List CountedRecord)
    (c : couplingConsumerProvider) :
    couplingTotal (r :: l) c = (if r.coupling = c then r.usedCU else 0) + couplingTotal l c := by
  unfold couplingTotal
  by_cases h : r.coupling = c
  · simp [List.filter_cons, h]
  · simp [List.filter_cons, h]

theorem couplingTotal_le (l : List CountedRecord) (c : couplingConsumerProvider) :
    couplingTotal l c ≤ (l.map CountedRecord.usedCU).sum := by
  induction l with
  | nil => exact Nat.le_refl _
  | cons r rest ih =>
    rw [couplingTotal_cons, List.map_cons, List.sum_cons]
    by_cases h : r.coupling = c
    · rw [if_pos h]; omega
    · rw [if_neg h]; omega

/-- The totals of the pairs, each pair taken once, add up to the total of the records. -/
theorem sum_couplingTotal (records : List CountedRecord) (pairs : List couplingConsumerProvider)
    (hp : pairs.Nodup) (hall : ∀ r ∈ records, r.coupling ∈ pairs) :
    (pairs.map (couplingTotal records)).sum = (records.map CountedRecord.usedCU).sum := by
  induction records with
  | nil =>
    have : pairs.map (couplingTotal []) = pairs.map fun _ => 0 := by
      apply List.map_congr_left
      intro c _
      rfl
    rw [this]
    simp
  | cons r rest ih =>
    have h1 : pairs.map (couplingTotal (r :: rest))
        = pairs.map fun c => (if r.coupling = c then r.usedCU else 0) + couplingTotal rest c := by
      apply List.map_congr_left
      intro c _
      exact couplingTotal_cons r rest c
    rw [h1, List.sum_map_add, sum_map_ite_eq pairs hp, if_pos (hall r (List.mem_cons_self _ _)),
      ih (fun r2 hr2 => hall r2 (List.mem_cons_of_mem _ hr2)), List.map_cons, List.sum_cons]

theorem storageTotal_cons (ks : KeyScheme) (c : UsageCall) (l : List UsageCall) (s : String) :
    storageTotal ks (c :: l) s
      = (if c.storageKey ks = s then c.usedCU else 0) + storageTotal ks l s := by
  unfold storageTotal
  by_cases h : c.storageKey ks = s
  · simp [List.filter_cons, h]
  · simp [List.filter_cons, h]

/-- The totals of the storages, each storage taken once, add up to the total of the calls
of these storages. -/
theorem sum_storageTotal (ks : KeyScheme) (recorded : List UsageCall) (keys : List String)
    (hk : keys.Nodup) :
    (keys.map (storageTotal ks recorded)).sum
      = ((recorded.filter fun c => c.storageKey ks ∈ keys).map UsageCall.usedCU).sum := by
  induction recorded with
  | nil =>
    have : keys.map (storageTotal ks []) = keys.map fun _ => 0 := by
      apply List.map_congr_left
      intro c _
      rfl
    rw [this]
    simp
  | cons c rest ih =>
    have h1 : keys.map (storageTotal ks (c :: rest))
        = keys.map fun s =>
            (if c.storageKey ks = s then c.usedCU else 0) + storageTotal ks rest s := by
      apply List.map_congr_left
      intro s _
      exact storageTotal_cons ks c rest s
    rw [h1, List.sum_map_add, sum_map_ite_eq keys hk, ih]
    by_cases hm : c.storageKey ks ∈ keys
    · simp [List.filter_cons, hm]
    · simp [List.filter_cons, hm]

namespace Keeper

/-! ## The scan of a store in which every listed record is within the block for delete -/

theorem GetProvider_RemoveUnique (k : Keeper) (a s : String) :
    (k.RemoveUniquePaymentStorageClientProvider a).GetProviderPaymentStorage s
      = k.GetProviderPaymentStorage s := rfl

theorem GetUnique_RemoveProvider (k : Keeper) (a u : String) :
    (k.RemoveProviderPaymentStorage a).GetUniquePaymentStorageClientProvider u
      = k.GetUniquePaymentStorageClientProvider u := rfl

theorem GetProvider_RemoveProvider (k : Keeper) (a s : String) :
    (k.RemoveProviderPaymentStorage a).GetProviderPaymentStorage s
      = if s = a then none else k.GetProviderPaymentStorage s :=
  KVStore.Get_Delete _ _ _

/-- One step of the scan leaves the provider payment storages and the records under the
other keys as they are. -/
theorem countUniquePayment_frame (ks : KeyScheme) (blockForDelete : Nat)
    (providerPaymentStorage : ProviderPaymentStorage) (k : Keeper) (key : String) :
    (∀ s, (countUniquePayment ks blockForDelete providerPaymentStorage k
        key).1.GetProviderPaymentStorage s = k.GetProviderPaymentStorage s) ∧
    (∀ u, u ≠ key → (countUniquePayment ks blockForDelete providerPaymentStorage k
        key).1.GetUniquePaymentStorageClientProvider u
      = k.GetUniquePaymentStorageClientProvider u) := by
  cases hu : k.GetUniquePaymentStorageClientProvider key with
  | none =>
    rw [countUniquePayment_none ks blockForDelete providerPaymentStorage hu]
    exact ⟨fun _ => rfl, fun _ _ => rfl⟩
  | some r =>
    by_cases hb : r.Block > blockForDelete
    · rw [countUniquePayment_beyond ks providerPaymentStorage hu hb]
      exact ⟨fun _ => rfl, fun _ _ => rfl⟩
    · rw [countUniquePayment_within ks providerPaymentStorage hu hb]
      refine ⟨fun _ => rfl, fun u hne => ?_⟩
      show (k.RemoveUniquePaymentStorageClientProvider
        key).GetUniquePaymentStorageClientProvider u = _
      rw [GetUnique_RemoveUnique, if_neg hne]

theorem countUniquePayments_frame (ks : KeyScheme) (blockForDelete : Nat)
    (providerPaymentStorage : ProviderPaymentStorage) (keys : List String) (k : Keeper) :
    (∀ s, (countUniquePayments ks blockForDelete providerPaymentStorage k
        keys).1.GetProviderPaymentStorage s = k.GetProviderPaymentStorage s) ∧
    (∀ u, u ∉ keys → (countUniquePayments ks blockForDelete providerPaymentStorage k
        keys).1.GetUniquePaymentStorageClientProvider u
      = k.GetUniquePaymentStorageClientProvider u) := by
  induction keys generalizing k with
  | nil => exact ⟨fun _ => rfl, fun _ _ => rfl⟩
  | cons key rest ih =>
    obtain ⟨h1, h2⟩ := countUniquePayment_frame ks blockForDelete providerPaymentStorage k key
    obtain ⟨i1, i2⟩ := ih (countUniquePayment ks blockForDelete providerPaymentStorage k key).1
    simp only [countUniquePayments]
    refine ⟨fun s => (i1 s).trans (h1 s), fun u hu => ?_⟩
    rw [List.mem_cons, not_or] at hu
    exact (i2 u hu.2).trans (h2 u hu.1)

theorem usedCUAt_congr {k k2 : Keeper} {u : String}
    (h : k2.GetUniquePaymentStorageClientProvider u
      = k.GetUniquePaymentStorageClientProvider u) : k2.usedCUAt u = k.usedCUAt u := by
  unfold usedCUAt
  rw [h]

/-- When every key of a provider payment storage has a record within the block for delete
and the provider of the storage can be read, the scan counts all of them. -/
theorem countUniquePayments_all (ks : KeyScheme) (blockForDelete : Nat)
    (providerPaymentStorage : ProviderPaymentStorage)
    (hp : (ks.GetProviderFromProviderPaymentStorage providerPaymentStorage).isSome = true)
    (keys : List String) (k : Keeper) (hn : keys.Nodup)
    (hall : ∀ u ∈ keys, ∃ r, k.GetUniquePaymentStorageClientProvider u = some r ∧
      r.Block ≤ blockForDelete) :
    ((countUniquePayments ks blockForDelete providerPaymentStorage k keys).2.map
        CountedRecord.usedCU).sum = (keys.map k.usedCUAt).sum := by
  induction keys generalizing k with
  | nil => rfl
  | cons key rest ih =>
    rw [List.nodup_cons] at hn
    obtain ⟨r, hr, hb⟩ := hall key (List.mem_cons_self _ _)
    obtain ⟨p, hp2⟩ := Option.isSome_iff_exists.mp hp
    have hstep := countUniquePayment_within ks providerPaymentStorage hr (Nat.not_lt.mpr hb)
    have hframe := (countUniquePayment_frame ks blockForDelete providerPaymentStorage k key).2
    have hrest : ∀ u ∈ rest,
        (countUniquePayment ks blockForDelete providerPaymentStorage k
          key).1.GetUniquePaymentStorageClientProvider u
          = k.GetUniquePaymentStorageClientProvider u := by
      intro u hu
      apply hframe
      intro he
      exact hn.1 (he ▸ hu)
    have hih := ih (countUniquePayment ks blockForDelete providerPaymentStorage k key).1 hn.2
      (fun u hu => by
        rw [hrest u hu]
        exact hall u (List.mem_cons_of_mem _ hu))
    have hmap : rest.map (countUniquePayment ks blockForDelete providerPaymentStorage k
        key).1.usedCUAt = rest.map k.usedCUAt := by
      apply List.map_congr_left
      intro u hu
      exact usedCUAt_congr (hrest u hu)
    simp only [countUniquePayments, List.map_append, List.sum_append, hih, hmap, List.map_cons,
      List.sum_cons]
    rw [hstep, hp2]
    have hk : k.usedCUAt key = r.UsedCU := by
      unfold usedCUAt
      rw [hr]
    rw [hk]
    rfl

theorem storageUsage_congr {k k2 : Keeper} {s : String}
    (hs : k2.GetProviderPaymentStorage s = k.GetProviderPaymentStorage s)
    (hu : ∀ st, k.GetProviderPaymentStorage s = some st →
      ∀ u ∈ st.UniquePaymentStorageClientProviderKeys,
        k2.GetUniquePaymentStorageClientProvider u
          = k.GetUniquePaymentStorageClientProvider u) :
    k2.storageUsage s = k.storageUsage s := by
  unfold storageUsage
  rw [hs]
  cases hg : k.GetProviderPaymentStorage s with
  | none => rfl
  | some st =>
    simp only
    congr 1
    apply List.map_congr_left
    intro u hu2
    exact usedCUAt_congr (hu st hg u hu2)

/-- When the keys of the entry are distinct, the provider payment storages they name list
distinct records, all within the block for delete, and their providers can be read, the
scan counts every listed record once. -/
theorem countProviderPayments_all (ks : KeyScheme) (blockForDelete : Nat)
    (keys : List String) (k : Keeper) (hn : keys.Nodup)
    (hst : ∀ s ∈ keys, ∀ st, k.GetProviderPaymentStorage s = some st →
      st.UniquePaymentStorageClientProviderKeys.Nodup ∧
      (∀ u ∈ st.UniquePaymentStorageClientProviderKeys,
        ∃ r, k.GetUniquePaymentStorageClientProvider u = some r ∧
          r.Block ≤ blockForDelete) ∧
      (ks.GetProviderFromProviderPaymentStorage st).isSome = true)
    (hdis : ∀ s1 ∈ keys, ∀ s2 ∈ keys, s1 ≠ s2 → ∀ st1 st2,
      k.GetProviderPaymentStorage s1 = some st1 → k.GetProviderPaymentStorage s2 = some st2 →
      ∀ u ∈ st1.UniquePaymentStorageClientProviderKeys,
        u ∉ st2.UniquePaymentStorageClientProviderKeys) :
    ((countProviderPayments ks blockForDelete k keys).2.map CountedRecord.usedCU).sum
      = (keys.map k.storageUsage).sum := by
  induction keys generalizing k with
  | nil => rfl
  | cons s rest ih =>
    rw [List.nodup_cons] at hn
    have hrest_hst : ∀ s2 ∈ rest, ∀ st, k.GetProviderPaymentStorage s2 = some st →
        st.UniquePaymentStorageClientProviderKeys.Nodup ∧
        (∀ u ∈ st.UniquePaymentStorageClientProviderKeys,
          ∃ r, k.GetUniquePaymentStorageClientProvider u = some r ∧
            r.Block ≤ blockForDelete) ∧
        (ks.GetProviderFromProviderPaymentStorage st).isSome = true :=
      fun s2 hs2 => hst s2 (List.mem_cons_of_mem _ hs2)
    have hrest_dis : ∀ s1 ∈ rest, ∀ s2 ∈ rest, s1 ≠ s2 → ∀ st1 st2,
        k.GetProviderPaymentStorage s1 = some st1 →
        k.GetProviderPaymentStorage s2 = some st2 →
        ∀ u ∈ st1.UniquePaymentStorageClientProviderKeys,
          u ∉ st2.UniquePaymentStorageClientProviderKeys :=
      fun s1 hs1 s2 hs2 => hdis s1 (List.mem_cons_of_mem _ hs1) s2 (List.mem_cons_of_mem _ hs2)
    simp only [countProviderPayments, List.map_cons, List.sum_cons]
    cases hg : k.GetProviderPaymentStorage s with
    | none =>
      have h0 : k.storageUsage s = 0 := by
        unfold storageUsage
        rw [hg]
      simp only [h0, Nat.zero_add]
      exact ih k hn.2 hrest_hst hrest_dis
    | some st =>
      have hidx : st.Index = s := KVStore.Get_index hg
      obtain ⟨hkn, hrec, hp⟩ := hst s (List.mem_cons_self _ _) st hg
      obtain ⟨f1, f2⟩ := countUniquePayments_frame ks blockForDelete st
        st.UniquePaymentStorageClientProviderKeys k
      have hcount := countUniquePayments_all ks blockForDelete st hp
        st.UniquePaymentStorageClientProviderKeys k hkn hrec
      -- the keeper after the storage has been scanned and deleted
      have hP : ∀ s2 ∈ rest,
          ((countUniquePayments ks blockForDelete st k
            st.UniquePaymentStorageClientProviderKeys).1.RemoveProviderPaymentStorage
              st.Index).GetProviderPaymentStorage s2 = k.GetProviderPaymentStorage s2 := by
        intro s2 hs2
        have hne : s2 ≠ st.Index := by
          rw [hidx]
          intro he
          exact hn.1 (he ▸ hs2)
        rw [GetProvider_RemoveProvider, if_neg hne]
        exact f1 s2
      have hU : ∀ s2 ∈ rest, ∀ st2, k.GetProviderPaymentStorage s2 = some st2 →
          ∀ u ∈ st2.UniquePaymentStorageClientProviderKeys,
          ((countUniquePayments ks blockForDelete st k
            st.UniquePaymentStorageClientProviderKeys).1.RemoveProviderPaymentStorage
              st.Index).GetUniquePaymentStorageClientProvider u
            = k.GetUniquePaymentStorageClientProvider u := by
        intro s2 hs2 st2 hg2 u hu
        rw [GetUnique_RemoveProvider]
        apply f2
        intro hmem
        have hne : s ≠ s2 := fun he => hn.1 (he ▸ hs2)
        exact hdis s (List.mem_cons_self _ _) s2 (List.mem_cons_of_mem _ hs2) hne st st2 hg hg2
          u hmem hu
      have hih := ih ((countUniquePayments ks blockForDelete st k
          st.UniquePaymentStorageClientProviderKeys).1.RemoveProviderPaymentStorage st.Index)
        hn.2
        (fun s2 hs2 st2 hg2 => by
          rw [hP s2 hs2] at hg2
          obtain ⟨a, b, c⟩ := hrest_hst s2 hs2 st2 hg2
          refine ⟨a, fun u hu => ?_, c⟩
          rw [hU s2 hs2 st2 hg2 u hu]
          exact b u hu)
        (fun s1 hs1 s2 hs2 hne st1 st2 hg1 hg2 => by
          rw [hP s1 hs1] at hg1
          rw [hP s2 hs2] at hg2
          exact hrest_dis s1 hs1 s2 hs2 hne st1 st2 hg1 hg2)
      have hmap : rest.map ((countUniquePayments ks blockForDelete st k
          st.UniquePaymentStorageClientProviderKeys).1.RemoveProviderPaymentStorage
            st.Index).storageUsage = rest.map k.storageUsage := by
        apply List.map_congr_left
        intro s2 hs2
        exact storageUsage_congr (hP s2 hs2) (fun st2 hg2 u hu => hU s2 hs2 st2 hg2 u hu)
      have hs0 : k.storageUsage s
          = (st.UniquePaymentStorageClientProviderKeys.map k.usedCUAt).sum := by
        unfold storageUsage
        rw [hg]
      simp only [List.map_append, List.sum_append, hcount, hih, hmap, hs0]

end Keeper

section Conservation

open EpochPaymentHandler Keeper

/-- The usage that the flushed store holds under a key of the entry of an epoch is the
total of the recorded calls of that provider payment storage. -/
theorem Ledger.storageUsage_flush (ks : KeyScheme) {k : EpochPaymentHandler}
    {seen recorded : List UsageCall} (h : Ledger ks k seen recorded) (s : String) :
    k.Flush.keeper.storageUsage s = storageTotal ks recorded s := by
  unfold Keeper.storageUsage
  have hg : k.Flush.keeper.GetProviderPaymentStorage s = k.GetProviderPaymentStorageCached s :=
    rfl
  rw [hg]
  cases hs : k.GetProviderPaymentStorageCached s with
  | none =>
    have hf : (recorded.filter fun c => c.storageKey ks = s) = [] := by
      rw [List.filter_eq_nil_iff]
      intro c hc hsk
      have hsk2 : c.storageKey ks = s := of_decide_eq_true hsk
      have := h.stored c hc
      rw [hsk2, hs] at this
      cases this
    unfold storageTotal
    rw [hf]
    rfl
  | some st =>
    simp only
    rw [(h.storage s st hs).1, List.map_map]
    unfold storageTotal
    congr 1
    apply List.map_congr_left
    intro c hc
    have hc2 : c ∈ recorded := (List.mem_filter.mp hc).1
    show k.Flush.keeper.usedCUAt (c.uniqueKey ks) = c.usedCU
    unfold Keeper.usedCUAt
    have hu : k.Flush.keeper.GetUniquePaymentStorageClientProvider (c.uniqueKey ks)
        = k.GetUniquePaymentStorageClientProviderCached (c.uniqueKey ks) := rfl
    rw [hu, h.present c hc2]

/-- The calls recorded for an epoch are those whose provider payment storage is listed by
the entry of the epoch, when the storage key of a call determines its epoch. -/
theorem Ledger.listed_iff (ks : KeyScheme) {k : EpochPaymentHandler}
    {seen recorded : List UsageCall} (h : Ledger ks k seen recorded)
    (hepoch : ∀ c1 ∈ seen, ∀ c2 ∈ seen, c1.storageKey ks = c2.storageKey ks →
      c1.epoch = c2.epoch)
    (epoch : Nat) (ep : EpochPayments)
    (hep : k.GetEpochPaymentsCached (epochPaymentKey epoch) = some ep) (c : UsageCall)
    (hc : c ∈ recorded) :
    c.storageKey ks ∈ ep.ProviderPaymentStorageKeys ↔ c.epoch = epoch := by
  constructor
  · intro hm
    obtain ⟨c2, hc2, he, hsk⟩ := (h.entries _ ep hep).2 _ hm
    rw [hepoch c (h.sub c hc) c2 hc2 hsk]
    exact (epochPaymentKey_injective he).symm
  · intro he
    obtain ⟨ep2, hep2, hm⟩ := h.listed c hc
    rw [he, hep] at hep2
    cases hep2
    exact hm

/-- On a ledger that holds the recorded calls and has been flushed, the records counted by
the retirement of an epoch carry the compute units of the calls recorded for the epoch. -/
theorem Ledger.counted_sum (ks : KeyScheme) {k : EpochPaymentHandler}
    {seen recorded : List UsageCall} (h : Ledger ks k seen recorded)
    (hepoch : ∀ c1 ∈ seen, ∀ c2 ∈ seen, c1.storageKey ks = c2.storageKey ks →
      c1.epoch = c2.epoch)
    (hprov : ∀ c ∈ seen, ∀ st : ProviderPaymentStorage, st.Index = c.storageKey ks →
      (ks.GetProviderFromProviderPaymentStorage st).isSome = true)
    (epoch : Nat) :
    ((countedRecords ks k.Flush.keeper epoch).map CountedRecord.usedCU).sum
      = epochTotal recorded epoch := by
  unfold countedRecords
  have hg : k.Flush.keeper.GetEpochPayments (epochPaymentKey epoch)
      = k.GetEpochPaymentsCached (epochPaymentKey epoch) := rfl
  rw [hg]
  cases hep : k.GetEpochPaymentsCached (epochPaymentKey epoch) with
  | none =>
    have hf : (recorded.filter fun c => c.epoch = epoch) = [] := by
      rw [List.filter_eq_nil_iff]
      intro c hc he
      have he2 : c.epoch = epoch := of_decide_eq_true he
      obtain ⟨ep2, hep2, -⟩ := h.listed c hc
      rw [he2, hep] at hep2
      cases hep2
    unfold epochTotal
    rw [hf]
    rfl
  | some ep =>
    obtain ⟨hn, hall⟩ := h.entries _ ep hep
    have hcount := countProviderPayments_all ks epoch ep.ProviderPaymentStorageKeys
      k.Flush.keeper hn
      (by
        intro s hs st hst
        have hst2 : k.GetProviderPaymentStorageCached s = some st := hst
        obtain ⟨c2, hc2, he, hsk⟩ := hall s hs
        have hkeys := (h.storage s st hst2).1
        refine ⟨?_, ?_, ?_⟩
        · rw [hkeys]
          exact h.nodup.sublist (List.Sublist.map _ (List.filter_sublist _))
        · intro u hu
          rw [hkeys] at hu
          obtain ⟨c, hc, rfl⟩ := List.mem_map.mp hu
          obtain ⟨hcr, hcs⟩ := List.mem_filter.mp hc
          have hcs2 : c.storageKey ks = s := of_decide_eq_true hcs
          refine ⟨_, h.present c hcr, ?_⟩
          show c.epoch ≤ epoch
          rw [hepoch c (h.sub c hcr) c2 hc2 (hcs2.trans hsk),
            ← epochPaymentKey_injective he]
        · exact hprov c2 hc2 st ((KVStore.cacheGet_index hst2).trans hsk))
      (by
        intro s1 hs1 s2 hs2 hne st1 st2 hst1 hst2 u hu1 hu2
        have hst1b : k.GetProviderPaymentStorageCached s1 = some st1 := hst1
        have hst2b : k.GetProviderPaymentStorageCached s2 = some st2 := hst2
        rw [(h.storage s1 st1 hst1b).1] at hu1
        rw [(h.storage s2 st2 hst2b).1] at hu2
        obtain ⟨c1, hc1, hk1⟩ := List.mem_map.mp hu1
        obtain ⟨c2, hc2, hk2⟩ := List.mem_map.mp hu2
        obtain ⟨hr1, hsk1⟩ := List.mem_filter.mp hc1
        obtain ⟨hr2, hsk2⟩ := List.mem_filter.mp hc2
        have hcc : c1 = c2 := List.inj_on_of_nodup_map h.nodup hr1 hr2 (hk1.trans hk2.symm)
        apply hne
        rw [← of_decide_eq_true hsk1, ← of_decide_eq_true hsk2, hcc])
    rw [hcount]
    have hmap : ep.ProviderPaymentStorageKeys.map k.Flush.keeper.storageUsage
        = ep.ProviderPaymentStorageKeys.map (storageTotal ks recorded) := by
      apply List.map_congr_left
      intro s _
      exact h.storageUsage_flush ks s
    rw [hmap, sum_storageTotal ks recorded _ hn]
    unfold epochTotal
    congr 2
    apply List.filter_congr
    intro c hc
    exact decide_eq_decide.mpr (h.listed_iff ks hepoch epoch ep hep c hc)

end Conservation

section ConservationTheorems

open EpochPaymentHandler Keeper

/-- When the compute units of the counted records fit in a `uint64`, the pair totals of
the adjustments add up to them. -/
theorem adjustments_sum (ks : KeyScheme) (k : Keeper) (blockForDelete : Nat)
    (hfit : ((countedRecords ks k blockForDelete).map CountedRecord.usedCU).sum < 2 ^ 64) :
    ((RemoveAllEpochPaymentsForBlockAppendAdjustments ks k blockForDelete).2.map
        Adjustment.couplingUsage).sum
      = ((countedRecords ks k blockForDelete).map CountedRecord.usedCU).sum := by
  rw [RemoveAllEpochPaymentsForBlockAppendAdjustments_adjustments]
  unfold countedRecords at hfit ⊢
  cases hg : k.GetEpochPayments (epochPaymentKey blockForDelete) with
  | none => rfl
  | some ep =>
    rw [hg] at hfit
    simp only at hfit ⊢
    have h := removalScan_tallied ks k blockForDelete ep.ProviderPaymentStorageKeys
    have hmap : (appendAdjustments (removalScan ks k blockForDelete
        ep.ProviderPaymentStorageKeys)).map Adjustment.couplingUsage
        = (removalScan ks k blockForDelete ep.ProviderPaymentStorageKeys).iterationOrder.map
            (couplingTotal (countProviderPayments ks blockForDelete k
              ep.ProviderPaymentStorageKeys).2) := by
      unfold appendAdjustments
      rw [List.map_map]
      apply List.map_congr_left
      intro c _
      show (removalScan ks k blockForDelete ep.ProviderPaymentStorageKeys).couplingUsage.read c
        = _
      rw [h.coupling c]
      exact Nat.mod_eq_of_lt (Nat.lt_of_le_of_lt (couplingTotal_le _ c) hfit)
    rw [hmap]
    exact sum_couplingTotal _ _ h.nodup
      (fun r hr => (h.mem r.coupling).mpr (List.mem_map_of_mem _ hr))

end ConservationTheorems

namespace Keeper

/-! ## What the scan deletes and what it leaves -/

/-- One step of the scan deletes at most: a record is afterwards as before or gone. -/
theorem countUniquePayment_only_deletes (ks : KeyScheme) (blockForDelete : Nat)
    (providerPaymentStorage : ProviderPaymentStorage) (k : Keeper) (key u : String) :
    (countUniquePayment ks blockForDelete providerPaymentStorage k
        key).1.GetUniquePaymentStorageClientProvider u
        = k.GetUniquePaymentStorageClientProvider u ∨
      (countUniquePayment ks blockForDelete providerPaymentStorage k
        key).1.GetUniquePaymentStorageClientProvider u = none := by
  by_cases h : u = key
  · subst h
    cases hu : k.GetUniquePaymentStorageClientProvider u with
    | none =>
      rw [countUniquePayment_none ks blockForDelete providerPaymentStorage hu]
      exact Or.inr hu
    | some r =>
      by_cases hb : r.Block > blockForDelete
      · rw [countUniquePayment_beyond ks providerPaymentStorage hu hb]
        exact Or.inl hu
      · rw [countUniquePayment_within ks providerPaymentStorage hu hb]
        right
        show (k.RemoveUniquePaymentStorageClientProvider
          u).GetUniquePaymentStorageClientProvider u = none
        rw [GetUnique_RemoveUnique, if_pos rfl]
  · exact Or.inl ((countUniquePayment_frame ks blockForDelete providerPaymentStorage k key).2 u h)

theorem countUniquePayments_only_deletes (ks : KeyScheme) (blockForDelete : Nat)
    (providerPaymentStorage : ProviderPaymentStorage) (keys : List String) (k : Keeper)
    (u : String) :
    (countUniquePayments ks blockForDelete providerPaymentStorage k
        keys).1.GetUniquePaymentStorageClientProvider u
        = k.GetUniquePaymentStorageClientProvider u ∨
      (countUniquePayments ks blockForDelete providerPaymentStorage k
        keys).1.GetUniquePaymentStorageClientProvider u = none := by
  induction keys generalizing k with
  | nil => exact Or.inl rfl
  | cons key rest ih =>
    simp only [countUniquePayments]
    rcases ih (countUniquePayment ks blockForDelete providerPaymentStorage k key).1 with h | h
    · rcases countUniquePayment_only_deletes ks blockForDelete providerPaymentStorage k key u
        with h2 | h2
      · exact Or.inl (h.trans h2)
      · exact Or.inr (h.trans h2)
    · exact Or.inr h

/-- The scan of the keys of a provider payment storage deletes every record under one of
these keys whose block is at most the block for delete. -/
theorem countUniquePayments_deletes (ks : KeyScheme) (blockForDelete : Nat)
    (providerPaymentStorage : ProviderPaymentStorage) (keys : List String) (k : Keeper)
    (u : String) (hu : u ∈ keys) (r : UniquePaymentStorageClientProvider)
    (hr : k.GetUniquePaymentStorageClientProvider u = some r)
    (hb : r.Block ≤ blockForDelete) :
    (countUniquePayments ks blockForDelete providerPaymentStorage k
      keys).1.GetUniquePaymentStorageClientProvider u = none := by
  induction keys generalizing k with
  | nil => exact absurd hu (List.not_mem_nil u)
  | cons key rest ih =>
    simp only [countUniquePayments]
    by_cases h : u = key
    · subst h
      have hstep : (countUniquePayment ks blockForDelete providerPaymentStorage k
          u).1.GetUniquePaymentStorageClientProvider u = none := by
        rw [countUniquePayment_within ks providerPaymentStorage hr (Nat.not_lt.mpr hb)]
        show (k.RemoveUniquePaymentStorageClientProvider
          u).GetUniquePaymentStorageClientProvider u = none
        rw [GetUnique_RemoveUnique, if_pos rfl]
      rcases countUniquePayments_only_deletes ks blockForDelete providerPaymentStorage rest
        (countUniquePayment ks blockForDelete providerPaymentStorage k u).1 u with h2 | h2
      · exact h2.trans hstep
      · exact h2
    · have hmem : u ∈ rest := by
        rcases List.mem_cons.mp hu with h2 | h2
        · exact absurd h2 h
        · exact h2
      apply ih _ hmem
      rw [(countUniquePayment_frame ks blockForDelete providerPaymentStorage k key).2 u h]
      exact hr

/-- The step of the scan for one key of the entry, on the provider payment storages. -/
theorem countProviderPayments_single_provider (ks : KeyScheme) (blockForDelete : Nat)
    (k : Keeper) (key s : String) :
    (countProviderPayments ks blockForDelete k [key]).1.GetProviderPaymentStorage s
      = if s = key then none else k.GetProviderPaymentStorage s := by
  simp only [countProviderPayments]
  cases hg : k.GetProviderPaymentStorage key with
  | none =>
    simp only
    by_cases h : s = key
    · rw [if_pos h, h]; exact hg
    · rw [if_neg h]
  | some st =>
    have hidx : st.Index = key := KVStore.Get_index hg
    simp only
    rw [GetProvider_RemoveProvider, hidx]
    by_cases h : s = key
    · rw [if_pos h, if_pos h]
    · rw [if_neg h, if_neg h]
      exact (countUniquePayments_frame ks blockForDelete st _ k).1 s

/-- After the scan of the keys of an entry, the provider payment storages under these keys
are gone and the others are as before. -/
theorem countProviderPayments_provider (ks : KeyScheme) (blockForDelete : Nat)
    (keys : List String) (k : Keeper) (s : String) :
    (countProviderPayments ks blockForDelete k keys).1.GetProviderPaymentStorage s
      = if s ∈ keys then none else k.GetProviderPaymentStorage s := by
  induction keys generalizing k with
  | nil => rfl
  | cons key rest ih =>
    rw [countProviderPayments_cons]
    simp only
    rw [ih, countProviderPayments_single_provider]
    by_cases h1 : s ∈ rest
    · simp [h1]
    · by_cases h2 : s = key
      · simp [h2]
      · simp [h1, h2]

end Keeper

namespace Keeper

theorem countProviderPayments_single_unique (ks : KeyScheme) (blockForDelete : Nat)
    (k : Keeper) (key u : String) :
    (countProviderPayments ks blockForDelete k [key]).1.GetUniquePaymentStorageClientProvider u
      = match k.GetProviderPaymentStorage key with
        | none => k.GetUniquePaymentStorageClientProvider u
        | some st =>
          (countUniquePayments ks blockForDelete st k
            st.UniquePaymentStorageClientProviderKeys).1.GetUniquePaymentStorageClientProvider
              u := by
  simp only [countProviderPayments]
  cases k.GetProviderPaymentStorage key <;> rfl

theorem countProviderPayments_only_deletes (ks : KeyScheme) (blockForDelete : Nat)
    (keys : List String) (k : Keeper) (u : String) :
    (countProviderPayments ks blockForDelete k keys).1.GetUniquePaymentStorageClientProvider u
        = k.GetUniquePaymentStorageClientProvider u ∨
      (countProviderPayments ks blockForDelete k
        keys).1.GetUniquePaymentStorageClientProvider u = none := by
  induction keys generalizing k with
  | nil => exact Or.inl rfl
  | cons key rest ih =>
    rw [countProviderPayments_cons]
    simp only
    have hstep : (countProviderPayments ks blockForDelete k
        [key]).1.GetUniquePaymentStorageClientProvider u
          = k.GetUniquePaymentStorageClientProvider u ∨
        (countProviderPayments ks blockForDelete k
          [key]).1.GetUniquePaymentStorageClientProvider u = none := by
      rw [countProviderPayments_single_unique]
      cases k.GetProviderPaymentStorage key with
      | none => exact Or.inl rfl
      | some st => exact countUniquePayments_only_deletes ks blockForDelete st _ k u
    rcases ih (countProviderPayments ks blockForDelete k [key]).1 with h | h
    · rcases hstep with h2 | h2
      · exact Or.inl (h.trans h2)
      · exact Or.inr (h.trans h2)
    · exact Or.inr h

/-- After the scan of the keys of an entry, every record listed by a provider payment
storage found under one of these keys, with a block at most the block for delete, is
gone. -/
theorem countProviderPayments_deletes (ks : KeyScheme) (blockForDelete : Nat)
    (keys : List String) (k : Keeper) (s : String) (hs : s ∈ keys)
    (st : ProviderPaymentStorage) (hst : k.GetProviderPaymentStorage s = some st)
    (u : String) (hu : u ∈ st.UniquePaymentStorageClientProviderKeys)
    (r : UniquePaymentStorageClientProvider)
    (hr : k.GetUniquePaymentStorageClientProvider u = some r)
    (hb : r.Block ≤ blockForDelete) :
    (countProviderPayments ks blockForDelete k keys).1.GetUniquePaymentStorageClientProvider u
      = none := by
  induction keys generalizing k with
  | nil => exact absurd hs (List.not_mem_nil s)
  | cons key rest ih =>
    rw [countProviderPayments_cons]
    simp only
    by_cases h : s = key
    · subst h
      have hstep : (countProviderPayments ks blockForDelete k
          [s]).1.GetUniquePaymentStorageClientProvider u = none := by
        rw [countProviderPayments_single_unique, hst]
        exact countUniquePayments_deletes ks blockForDelete st _ k u hu r hr hb
      rcases countProviderPayments_only_deletes ks blockForDelete rest
        (countProviderPayments ks blockForDelete k [s]).1 u with h2 | h2
      · exact h2.trans hstep
      · exact h2
    · have hmem : s ∈ rest := by
        rcases List.mem_cons.mp hs with h2 | h2
        · exact absurd h2 h
        · exact h2
      have hst2 : (countProviderPayments ks blockForDelete k [key]).1.GetProviderPaymentStorage s
          = some st := by
        rw [countProviderPayments_single_provider, if_neg h]
        exact hst
      have hcase : (countProviderPayments ks blockForDelete k
          [key]).1.GetUniquePaymentStorageClientProvider u
            = k.GetUniquePaymentStorageClientProvider u ∨
          (countProviderPayments ks blockForDelete k
            [key]).1.GetUniquePaymentStorageClientProvider u = none :=
        countProviderPayments_only_deletes ks blockForDelete [key] k u
      rcases hcase with h2 | h2
      · exact ih _ hmem hst2 (h2.trans hr)
      · rcases countProviderPayments_only_deletes ks blockForDelete rest
          (countProviderPayments ks blockForDelete k [key]).1 u with h3 | h3
        · exact h3.trans h2
        · exact h3

/-- The scan of the keys of an entry leaves every record that no provider payment storage
found under these keys lists. -/
theorem countProviderPayments_unique_frame (ks : KeyScheme) (blockForDelete : Nat)
    (keys : List String) (k : Keeper) (u : String)
    (hu : ∀ s ∈ keys, ∀ st, k.GetProviderPaymentStorage s = some st →
      u ∉ st.UniquePaymentStorageClientProviderKeys) :
    (countProviderPayments ks blockForDelete k keys).1.GetUniquePaymentStorageClientProvider u
      = k.GetUniquePaymentStorageClientProvider u := by
  induction keys generalizing k with
  | nil => rfl
  | cons key rest ih =>
    rw [countProviderPayments_cons]
    simp only
    have hstep : (countProviderPayments ks blockForDelete k
        [key]).1.GetUniquePaymentStorageClientProvider u
          = k.GetUniquePaymentStorageClientProvider u := by
      rw [countProviderPayments_single_unique]
      cases hg : k.GetProviderPaymentStorage key with
      | none => rfl
      | some st =>
        exact (countUniquePayments_frame ks blockForDelete st _ k).2 u
          (hu key (List.mem_cons_self _ _) st hg)
    rw [ih, hstep]
    intro s hs st hst
    rw [countProviderPayments_single_provider] at hst
    by_cases h : s = key
    · rw [if_pos h] at hst
      cases hst
    · rw [if_neg h] at hst
      exact hu s (List.mem_cons_of_mem _ hs) st hst

end Keeper

namespace Keeper

/-! ## The calls of the scan -/

theorem uniquePaymentCalls_apply (ks : KeyScheme) (blockForDelete : Nat)
    (providerPaymentStorage : ProviderPaymentStorage) (k : Keeper) (key : String) :
    (uniquePaymentCalls blockForDelete k key).foldl RemovalCall.apply k
      = (countUniquePayment ks blockForDelete providerPaymentStorage k key).1 := by
  unfold uniquePaymentCalls countUniquePayment
  cases k.GetUniquePaymentStorageClientProvider key with
  | none => rfl
  | some u =>
    simp only
    by_cases hb : u.Block > blockForDelete
    · rw [if_pos hb, if_pos hb]; rfl
    · rw [if_neg hb, if_neg hb]; rfl

theorem uniquePaymentsCalls_apply (ks : KeyScheme) (blockForDelete : Nat)
    (providerPaymentStorage : ProviderPaymentStorage) (keys : List String) (k : Keeper) :
    (uniquePaymentsCalls blockForDelete k keys).foldl RemovalCall.apply k
      = (countUniquePayments ks blockForDelete providerPaymentStorage k keys).1 := by
  induction keys generalizing k with
  | nil => rfl
  | cons key rest ih =>
    simp only [uniquePaymentsCalls, countUniquePayments, List.foldl_append]
    rw [ih, uniquePaymentCalls_apply ks blockForDelete providerPaymentStorage]

theorem providerPaymentCalls_apply (ks : KeyScheme) (blockForDelete : Nat) (k : Keeper)
    (key : String) :
    (providerPaymentCalls blockForDelete k key).foldl RemovalCall.apply k
      = (countProviderPayments ks blockForDelete k [key]).1 := by
  simp only [providerPaymentCalls, countProviderPayments]
  cases k.GetProviderPaymentStorage key with
  | none => rfl
  | some st =>
    simp only [List.foldl_append]
    rw [uniquePaymentsCalls_apply ks blockForDelete st]
    rfl

/-- Replaying the calls of the scan gives the keeper the scan ends with. -/
theorem providerPaymentsCalls_apply (ks : KeyScheme) (blockForDelete : Nat)
    (keys : List String) (k : Keeper) :
    (providerPaymentsCalls blockForDelete k keys).foldl RemovalCall.apply k
      = (countProviderPayments ks blockForDelete k keys).1 := by
  induction keys generalizing k with
  | nil => rfl
  | cons key rest ih =>
    rw [countProviderPayments_cons ks blockForDelete k key rest]
    simp only [providerPaymentsCalls, List.foldl_append]
    rw [ih, providerPaymentCalls_apply ks]

/-- The calls of the inner loop delete records under keys of the list, in list order. -/
theorem uniquePaymentsCalls_eq (blockForDelete : Nat) (keys : List String) (k : Keeper) :
    ∃ deleted : List String, deleted.Sublist keys ∧
      uniquePaymentsCalls blockForDelete k keys = deleted.map RemovalCall.removeUnique := by
  induction keys generalizing k with
  | nil => exact ⟨[], List.Sublist.refl _, rfl⟩
  | cons key rest ih =>
    obtain ⟨deleted, hsub, hcalls⟩ := ih
      ((uniquePaymentCalls blockForDelete k key).foldl RemovalCall.apply k)
    simp only [uniquePaymentsCalls]
    rw [hcalls]
    unfold uniquePaymentCalls
    cases hu : k.GetUniquePaymentStorageClientProvider key with
    | none => exact ⟨deleted, hsub.cons _, rfl⟩
    | some u =>
      have hidx : u.Index = key := KVStore.Get_index hu
      simp only
      by_cases hb : u.Block > blockForDelete
      · rw [if_pos hb]
        exact ⟨deleted, hsub.cons _, rfl⟩
      · rw [if_neg hb, hidx]
        exact ⟨key :: deleted, hsub.cons₂ _, rfl⟩

/-- The calls of the scan come storage by storage: for each provider payment storage found
under a key of the entry, deletions of records it lists, then its own deletion. -/
theorem providerPaymentsCalls_eq (ks : KeyScheme) (blockForDelete : Nat) (keys : List String)
    (k : Keeper) :
    ∃ segments : List (List String × String),
      providerPaymentsCalls blockForDelete k keys
        = segments.flatMap (fun seg => storageCalls seg.1 seg.2) ∧
      ∀ seg ∈ segments, seg.2 ∈ keys ∧
        ∃ st, k.GetProviderPaymentStorage seg.2 = some st ∧
          seg.1.Sublist st.UniquePaymentStorageClientProviderKeys := by
  induction keys generalizing k with
  | nil => exact ⟨[], rfl, fun seg hseg => absurd hseg (List.not_mem_nil seg)⟩
  | cons key rest ih =>
    obtain ⟨segments, hcalls, hall⟩ := ih
      ((providerPaymentCalls blockForDelete k key).foldl RemovalCall.apply k)
    have hback : ∀ seg ∈ segments, seg.2 ∈ key :: rest ∧
        ∃ st, k.GetProviderPaymentStorage seg.2 = some st ∧
          seg.1.Sublist st.UniquePaymentStorageClientProviderKeys := by
      intro seg hseg
      obtain ⟨hmem, st, hst, hsub⟩ := hall seg hseg
      refine ⟨List.mem_cons_of_mem _ hmem, st, ?_, hsub⟩
      rw [providerPaymentCalls_apply ks, countProviderPayments_single_provider] at hst
      by_cases h : seg.2 = key
      · rw [if_pos h] at hst
        cases hst
      · rw [if_neg h] at hst
        exact hst
    simp only [providerPaymentsCalls]
    rw [hcalls]
    unfold providerPaymentCalls
    cases hg : k.GetProviderPaymentStorage key with
    | none => exact ⟨segments, rfl, hback⟩
    | some st =>
      have hidx : st.Index = key := KVStore.Get_index hg
      obtain ⟨deleted, hsub, hdel⟩ := uniquePaymentsCalls_eq blockForDelete
        st.UniquePaymentStorageClientProviderKeys k
      refine ⟨(deleted, key) :: segments, ?_, ?_⟩
      · simp only [List.flatMap_cons, storageCalls]
        rw [hdel, hidx]
      · intro seg hseg
        rcases List.mem_cons.mp hseg with h | h
        · subst h
          exact ⟨List.mem_cons_self _ _, st, hg, hsub⟩
        · exact hback seg h

/-- The keeper after a retirement, from the scan of the keys of the entry. -/
theorem RemoveAllEpochPaymentsForBlockAppendAdjustments_keeper (ks : KeyScheme)
    (k : Keeper) (blockForDelete : Nat) :
    (RemoveAllEpochPaymentsForBlockAppendAdjustments ks k blockForDelete).1
      = match k.GetEpochPayments (epochPaymentKey blockForDelete) with
        | none => k
        | some epochPayments =>
          (countProviderPayments ks blockForDelete k
            epochPayments.ProviderPaymentStorageKeys).1.RemoveEpochPayments
              (epochPaymentKey blockForDelete) := by
  unfold RemoveAllEpochPaymentsForBlockAppendAdjustments GetEpochPaymentsFromBlock
  cases k.GetEpochPayments (epochPaymentKey blockForDelete) with
  | none => rfl
  | some ep =>
    simp only
    rw [removalScan_keeper]

end Keeper

namespace Keeper

/-! ## What a retirement deletes, in which order, and what it leaves -/

theorem foldl_apply_appendAdjustment (adjustments : List Adjustment) (k : Keeper) :
    (adjustments.map RemovalCall.appendAdjustment).foldl RemovalCall.apply k = k := by
  induction adjustments with
  | nil => rfl
  | cons a rest ih => exact ih

/-- Replaying the calls of a retirement gives the keeper the retirement ends with. -/
theorem removalCalls_apply (ks : KeyScheme) (k : Keeper) (blockForDelete : Nat) :
    (removalCalls ks k blockForDelete).foldl RemovalCall.apply k
      = (RemoveAllEpochPaymentsForBlockAppendAdjustments ks k blockForDelete).1 := by
  rw [RemoveAllEpochPaymentsForBlockAppendAdjustments_keeper]
  unfold removalCalls GetEpochPaymentsFromBlock
  cases k.GetEpochPayments (epochPaymentKey blockForDelete) with
  | none => rfl
  | some ep =>
    simp only [List.foldl_append]
    rw [providerPaymentsCalls_apply ks, foldl_apply_appendAdjustment]
    rfl

/-- C11: when the epoch has an entry, after the retirement the store holds no entry for
the epoch, no provider payment storage under a key listed by the entry, and no record
listed by one of the storages found under these keys whose block is at most the block for
delete. The deletions are bottom-up: the calls of the retirement, which replayed on the
store give the store it ends with, are, storage by storage, deletions of records the
storage lists followed by the deletion of the storage, then all the adjustments, and last
the deletion of the entry. -/
theorem RemoveAllEpochPaymentsForBlockAppendAdjustments_bottom_up (ks : KeyScheme)
    (k : Keeper) (blockForDelete : Nat) (epochPayments : EpochPayments)
    (hep : k.GetEpochPayments (epochPaymentKey blockForDelete) = some epochPayments) :
    (RemoveAllEpochPaymentsForBlockAppendAdjustments ks k blockForDelete).1.GetEpochPayments
        (epochPaymentKey blockForDelete) = none ∧
    (∀ s ∈ epochPayments.ProviderPaymentStorageKeys,
      (RemoveAllEpochPaymentsForBlockAppendAdjustments ks k
        blockForDelete).1.GetProviderPaymentStorage s = none) ∧
    (∀ s ∈ epochPayments.ProviderPaymentStorageKeys, ∀ st,
      k.GetProviderPaymentStorage s = some st →
      ∀ u ∈ st.UniquePaymentStorageClientProviderKeys, ∀ r,
        k.GetUniquePaymentStorageClientProvider u = some r → r.Block ≤ blockForDelete →
        (RemoveAllEpochPaymentsForBlockAppendAdjustments ks k
          blockForDelete).1.GetUniquePaymentStorageClientProvider u = none) ∧
    (removalCalls ks k blockForDelete).foldl RemovalCall.apply k
      = (RemoveAllEpochPaymentsForBlockAppendAdjustments ks k blockForDelete).1 ∧
    ∃ segments : List (List String × String),
      removalCalls ks k blockForDelete
        = segments.flatMap (fun seg => storageCalls seg.1 seg.2) ++
            (RemoveAllEpochPaymentsForBlockAppendAdjustments ks k blockForDelete).2.map
              RemovalCall.appendAdjustment ++
            [RemovalCall.removeEpochPayments (epochPaymentKey blockForDelete)] ∧
      ∀ seg ∈ segments, seg.2 ∈ epochPayments.ProviderPaymentStorageKeys ∧
        ∃ st, k.GetProviderPaymentStorage seg.2 = some st ∧
          seg.1.Sublist st.UniquePaymentStorageClientProviderKeys := by
  have hkeeper := RemoveAllEpochPaymentsForBlockAppendAdjustments_keeper ks k blockForDelete
  rw [hep] at hkeeper
  simp only at hkeeper
  refine ⟨?_, ?_, ?_, removalCalls_apply ks k blockForDelete, ?_⟩
  · show (RemoveAllEpochPaymentsForBlockAppendAdjustments ks k
      blockForDelete).1.epochPayments.Get (epochPaymentKey blockForDelete) = none
    rw [RemoveAllEpochPaymentsForBlockAppendAdjustments_epochPayments, if_pos rfl]
  · intro s hs
    rw [hkeeper]
    show (countProviderPayments ks blockForDelete k
      epochPayments.ProviderPaymentStorageKeys).1.GetProviderPaymentStorage s = none
    rw [countProviderPayments_provider, if_pos hs]
  · intro s hs st hst u hu r hr hb
    rw [hkeeper]
    exact countProviderPayments_deletes ks blockForDelete _ k s hs st hst u hu r hr hb
  · obtain ⟨segments, hcalls, hall⟩ := providerPaymentsCalls_eq ks blockForDelete
      epochPayments.ProviderPaymentStorageKeys k
    refine ⟨segments, ?_, hall⟩
    have hfrom : k.GetEpochPaymentsFromBlock blockForDelete
        = (some epochPayments, epochPaymentKey blockForDelete) := by
      unfold GetEpochPaymentsFromBlock
      rw [hep]
    unfold removalCalls
    rw [hfrom]
    simp only
    rw [hcalls]

/-- Witness of C11: the retirement of epoch 7 in the scenario of the spec deletes the two
records, then the provider payment storage, appends the adjustment and deletes the entry
last. -/
theorem RemoveAllEpochPaymentsForBlockAppendAdjustments_bottom_up_witness :
    (RemoveAllEpochPaymentsForBlockAppendAdjustments sampleKeys scenarioKeeper
        7).1.GetEpochPayments (epochPaymentKey 7) = none ∧
    removalCalls sampleKeys scenarioKeeper 7
      = [RemovalCall.removeUnique (sampleKeys.EncodeUniquePaymentKey "LAV1" 7 "c1" "p1" "r1"),
         RemovalCall.removeUnique (sampleKeys.EncodeUniquePaymentKey "LAV1" 7 "c1" "p1" "r2"),
         RemovalCall.removeProvider (sampleKeys.GetProviderPaymentStorageKey "LAV1" 7 "p1"),
         RemovalCall.appendAdjustment
           { consumer := "c1", provider := "p1", consumerUsage := 80, couplingUsage := 80 },
         RemovalCall.removeEpochPayments (epochPaymentKey 7)] :=
  ⟨(RemoveAllEpochPaymentsForBlockAppendAdjustments_bottom_up sampleKeys scenarioKeeper 7
      { Index := epochPaymentKey 7
        ProviderPaymentStorageKeys := [sampleKeys.GetProviderPaymentStorageKey "LAV1" 7 "p1"] }
      (by decide)).1,
    by decide⟩

/-- C12: a retirement changes the store for one epoch only: every entry under another key
than the key of the epoch, every provider payment storage under a key that the entry of
the epoch does not list, and every record that no provider payment storage found under a
key of the entry lists, is after the call what it was before. -/
theorem RemoveAllEpochPaymentsForBlockAppendAdjustments_frame (ks : KeyScheme) (k : Keeper)
    (blockForDelete : Nat) :
    (∀ index, index ≠ epochPaymentKey blockForDelete →
      (RemoveAllEpochPaymentsForBlockAppendAdjustments ks k blockForDelete).1.GetEpochPayments
        index = k.GetEpochPayments index) ∧
    (∀ s,
      (∀ epochPayments,
        k.GetEpochPayments (epochPaymentKey blockForDelete) = some epochPayments →
        s ∉ epochPayments.ProviderPaymentStorageKeys) →
      (RemoveAllEpochPaymentsForBlockAppendAdjustments ks k
        blockForDelete).1.GetProviderPaymentStorage s = k.GetProviderPaymentStorage s) ∧
    (∀ u,
      (∀ epochPayments,
        k.GetEpochPayments (epochPaymentKey blockForDelete) = some epochPayments →
        ∀ s ∈ epochPayments.ProviderPaymentStorageKeys, ∀ st,
          k.GetProviderPaymentStorage s = some st →
          u ∉ st.UniquePaymentStorageClientProviderKeys) →
      (RemoveAllEpochPaymentsForBlockAppendAdjustments ks k
        blockForDelete).1.GetUniquePaymentStorageClientProvider u
        = k.GetUniquePaymentStorageClientProvider u) := by
  have hkeeper := RemoveAllEpochPaymentsForBlockAppendAdjustments_keeper ks k blockForDelete
  refine ⟨?_, ?_, ?_⟩
  · intro index hne
    show (RemoveAllEpochPaymentsForBlockAppendAdjustments ks k
      blockForDelete).1.epochPayments.Get index = _
    rw [RemoveAllEpochPaymentsForBlockAppendAdjustments_epochPayments, if_neg hne]
    rfl
  · intro s hs
    rw [hkeeper]
    cases hep : k.GetEpochPayments (epochPaymentKey blockForDelete) with
    | none => rfl
    | some ep =>
      show (countProviderPayments ks blockForDelete k
        ep.ProviderPaymentStorageKeys).1.GetProviderPaymentStorage s = _
      rw [countProviderPayments_provider, if_neg (hs ep hep)]
  · intro u hu
    rw [hkeeper]
    cases hep : k.GetEpochPayments (epochPaymentKey blockForDelete) with
    | none => rfl
    | some ep =>
      exact countProviderPayments_unique_frame ks blockForDelete _ k u (hu ep hep)

/-- Witness of C12: the retirement of epoch 7 leaves the entry of epoch 8 and the provider
payment storage and record of epoch 8 as they are. -/
theorem RemoveAllEpochPaymentsForBlockAppendAdjustments_frame_witness :
    (RemoveAllEpochPaymentsForBlockAppendAdjustments sampleKeys twoEpochsKeeper
        7).1.GetEpochPayments (epochPaymentKey 8)
      = twoEpochsKeeper.GetEpochPayments (epochPaymentKey 8) ∧
    twoEpochsKeeper.GetEpochPayments (epochPaymentKey 8)
      = some { Index := epochPaymentKey 8
               ProviderPaymentStorageKeys :=
                 [sampleKeys.GetProviderPaymentStorageKey "LAV1" 8 "p2"] } ∧
    (RemoveAllEpochPaymentsForBlockAppendAdjustments sampleKeys twoEpochsKeeper
        7).1.GetUniquePaymentStorageClientProvider
        (sampleKeys.EncodeUniquePaymentKey "LAV1" 8 "c2" "p2" "r3")
      = some { Index := sampleKeys.EncodeUniquePaymentKey "LAV1" 8 "c2" "p2" "r3"
               Block := 8
               UsedCU := 20 } :=
  ⟨(RemoveAllEpochPaymentsForBlockAppendAdjustments_frame sampleKeys twoEpochsKeeper 7).1
      (epochPaymentKey 8) (by decide),
    by decide, by decide⟩

end Keeper

/-! ## Block references of a batch -/

theorem CompareRequestedBlockInBatch_earliest_left (tags : BlockTags) (x : Int) :
    CompareRequestedBlockInBatch tags tags.EARLIEST_BLOCK x = (x, tags.EARLIEST_BLOCK) := by
  unfold CompareRequestedBlockInBatch
  rw [if_pos rfl]

theorem CompareRequestedBlockInBatch_earliest_right (tags : BlockTags) (x : Int) :
    CompareRequestedBlockInBatch tags x tags.EARLIEST_BLOCK = (x, tags.EARLIEST_BLOCK) := by
  unfold CompareRequestedBlockInBatch
  by_cases hx : x = tags.EARLIEST_BLOCK
  · rw [if_pos hx, hx]
  · rw [if_neg hx, if_pos rfl]

/-- Away from earliest the result depends on the signs and the numeric order only. -/
theorem CompareRequestedBlockInBatch_of_ne (tags : BlockTags) (a b : Int)
    (ha : a ≠ tags.EARLIEST_BLOCK) (hb : b ≠ tags.EARLIEST_BLOCK) :
    CompareRequestedBlockInBatch tags a b
      = if (a < 0 ↔ b < 0) then (max a b, min a b) else (min a b, max a b) := by
  unfold CompareRequestedBlockInBatch returnBigger
  rw [if_neg ha, if_neg hb]
  split_ifs <;> simp only [Prod.mk.injEq] <;> omega

theorem CompareRequestedBlockInBatch_fst_of_ne (tags : BlockTags) (a b : Int)
    (ha : a ≠ tags.EARLIEST_BLOCK) (hb : b ≠ tags.EARLIEST_BLOCK) :
    (CompareRequestedBlockInBatch tags a b).1
      = if (a < 0 ↔ b < 0) then max a b else min a b := by
  rw [CompareRequestedBlockInBatch_of_ne tags a b ha hb]
  split_ifs <;> rfl

theorem CompareRequestedBlockInBatch_snd_of_ne (tags : BlockTags) (a b : Int)
    (ha : a ≠ tags.EARLIEST_BLOCK) (hb : b ≠ tags.EARLIEST_BLOCK) :
    (CompareRequestedBlockInBatch tags a b).2
      = if (a < 0 ↔ b < 0) then min a b else max a b := by
  rw [CompareRequestedBlockInBatch_of_ne tags a b ha hb]
  split_ifs <;> rfl

theorem CompareRequestedBlockInBatch_fst_ne (tags : BlockTags) (a b : Int)
    (ha : a ≠ tags.EARLIEST_BLOCK) (hb : b ≠ tags.EARLIEST_BLOCK) :
    (CompareRequestedBlockInBatch tags a b).1 ≠ tags.EARLIEST_BLOCK := by
  rw [CompareRequestedBlockInBatch_fst_of_ne tags a b ha hb]
  split_ifs <;> omega

/-- The two operands may be exchanged. -/
theorem CompareRequestedBlockInBatch_comm (tags : BlockTags) (a b : Int) :
    CompareRequestedBlockInBatch tags a b = CompareRequestedBlockInBatch tags b a := by
  by_cases ha : a = tags.EARLIEST_BLOCK
  · rw [ha, CompareRequestedBlockInBatch_earliest_left,
      CompareRequestedBlockInBatch_earliest_right]
  by_cases hb : b = tags.EARLIEST_BLOCK
  · rw [hb, CompareRequestedBlockInBatch_earliest_left,
      CompareRequestedBlockInBatch_earliest_right]
  rw [CompareRequestedBlockInBatch_of_ne tags a b ha hb,
    CompareRequestedBlockInBatch_of_ne tags b a hb ha]
  split_ifs <;> simp only [Prod.mk.injEq] <;> omega

/-- The latest component is associative. -/
theorem CompareRequestedBlockInBatch_fst_assoc (tags : BlockTags) (a b c : Int) :
    (CompareRequestedBlockInBatch tags (CompareRequestedBlockInBatch tags a b).1 c).1
      = (CompareRequestedBlockInBatch tags a (CompareRequestedBlockInBatch tags b c).1).1 := by
  by_cases ha : a = tags.EARLIEST_BLOCK
  · simp only [ha, CompareRequestedBlockInBatch_earliest_left]
  by_cases hb : b = tags.EARLIEST_BLOCK
  · simp only [hb, CompareRequestedBlockInBatch_earliest_left,
      CompareRequestedBlockInBatch_earliest_right]
  by_cases hc : c = tags.EARLIEST_BLOCK
  · simp only [hc, CompareRequestedBlockInBatch_earliest_right]
  rw [CompareRequestedBlockInBatch_fst_of_ne tags _ c
      (CompareRequestedBlockInBatch_fst_ne tags a b ha hb) hc,
    CompareRequestedBlockInBatch_fst_of_ne tags a _ ha
      (CompareRequestedBlockInBatch_fst_ne tags b c hb hc),
    CompareRequestedBlockInBatch_fst_of_ne tags a b ha hb,
    CompareRequestedBlockInBatch_fst_of_ne tags b c hb hc]
  split_ifs <;> omega

/-- The earliest component is associative. -/
theorem CompareRequestedBlockInBatch_snd_assoc (tags : BlockTags) (a b c : Int) :
    (CompareRequestedBlockInBatch tags (CompareRequestedBlockInBatch tags a b).2 c).2
      = (CompareRequestedBlockInBatch tags a (CompareRequestedBlockInBatch tags b c).2).2 := by
  by_cases ha : a = tags.EARLIEST_BLOCK
  · simp only [ha, CompareRequestedBlockInBatch_earliest_left]
  by_cases hb : b = tags.EARLIEST_BLOCK
  · simp only [hb, CompareRequestedBlockInBatch_earliest_left,
      CompareRequestedBlockInBatch_earliest_right]
  by_cases hc : c = tags.EARLIEST_BLOCK
  · simp only [hc, CompareRequestedBlockInBatch_earliest_right]
  have hab : (CompareRequestedBlockInBatch tags a b).2 ≠ tags.EARLIEST_BLOCK := by
    rw [CompareRequestedBlockInBatch_snd_of_ne tags a b ha hb]
    split_ifs <;> omega
  have hbc : (CompareRequestedBlockInBatch tags b c).2 ≠ tags.EARLIEST_BLOCK := by
    rw [CompareRequestedBlockInBatch_snd_of_ne tags b c hb hc]
    split_ifs <;> omega
  rw [CompareRequestedBlockInBatch_snd_of_ne tags _ c hab hc,
    CompareRequestedBlockInBatch_snd_of_ne tags a _ ha hbc,
    CompareRequestedBlockInBatch_snd_of_ne tags a b ha hb,
    CompareRequestedBlockInBatch_snd_of_ne tags b c hb hc]
  split_ifs <;> omega

/-- C14: for all operands a and b the calls on (a, b) and on (b, a) return the same pair
of latest and earliest. -/
theorem CompareRequestedBlockInBatch_swap (tags : BlockTags) (a b : Int) :
    CompareRequestedBlockInBatch tags a b = CompareRequestedBlockInBatch tags b a ∧
    (CompareRequestedBlockInBatch tags a b).1 = (CompareRequestedBlockInBatch tags b a).1 ∧
    (CompareRequestedBlockInBatch tags a b).2 = (CompareRequestedBlockInBatch tags b a).2 := by
  have h := CompareRequestedBlockInBatch_comm tags a b
  exact ⟨h, congrArg Prod.fst h, congrArg Prod.snd h⟩

/-- C15: for every x, earliest itself included, the call on (earliest, x) and the call on
(x, earliest) both return x as latest and earliest as earliest. -/
theorem CompareRequestedBlockInBatch_earliest_dominance (tags : BlockTags) (x : Int) :
    CompareRequestedBlockInBatch tags tags.EARLIEST_BLOCK x = (x, tags.EARLIEST_BLOCK) ∧
    CompareRequestedBlockInBatch tags x tags.EARLIEST_BLOCK = (x, tags.EARLIEST_BLOCK) :=
  ⟨CompareRequestedBlockInBatch_earliest_left tags x,
    CompareRequestedBlockInBatch_earliest_right tags x⟩

/-- A symbolic tag of a ranked encoding is negative and is not earliest. -/
theorem BlockTags.Ranked.symbolic_neg {tags : BlockTags} (hr : tags.Ranked) {s : Int}
    (hs : s ∈ tags.symbolic) : s < 0 ∧ s ≠ tags.EARLIEST_BLOCK := by
  obtain ⟨h1, h2, h3, h4, h5, h6, h7⟩ := hr
  refine ⟨?_, fun h => h7 (h ▸ hs)⟩
  simp only [BlockTags.symbolic, List.mem_cons, List.mem_singleton, List.mem_nil_iff,
    or_false] at hs
  omega

/-- C16: for a symbolic tag s other than earliest and a concrete height n, which is not
negative, the call on (s, n) and the call on (n, s) both return s as latest and n as
earliest, whatever the size of n. -/
theorem CompareRequestedBlockInBatch_symbolic_concrete (tags : BlockTags)
    (hr : tags.Ranked) (s n : Int) (hs : s ∈ tags.symbolic) (hn : 0 ≤ n) :
    CompareRequestedBlockInBatch tags s n = (s, n) ∧
    CompareRequestedBlockInBatch tags n s = (s, n) := by
  obtain ⟨hneg, hne⟩ := hr.symbolic_neg hs
  have hE : tags.EARLIEST_BLOCK < 0 := hr.2.2.2.2.2.1
  have hnE : n ≠ tags.EARLIEST_BLOCK := by omega
  rw [← CompareRequestedBlockInBatch_comm tags s n,
    CompareRequestedBlockInBatch_of_ne tags s n hne hnE]
  have hiff : ¬ (s < 0 ↔ n < 0) := by omega
  rw [if_neg hiff]
  have h1 : min s n = s := by omega
  have h2 : max s n = n := by omega
  rw [h1, h2]
  exact ⟨rfl, rfl⟩

/-- Witness of C16: latest with the height 5000000, in both orders. -/
theorem CompareRequestedBlockInBatch_symbolic_concrete_witness :
    CompareRequestedBlockInBatch sampleTags sampleTags.LATEST_BLOCK 5000000
      = (sampleTags.LATEST_BLOCK, 5000000) ∧
    CompareRequestedBlockInBatch sampleTags 5000000 sampleTags.LATEST_BLOCK
      = (sampleTags.LATEST_BLOCK, 5000000) :=
  CompareRequestedBlockInBatch_symbolic_concrete sampleTags (by decide)
    sampleTags.LATEST_BLOCK 5000000 (by decide) (by decide)

/-- The priorities of the five tags of a ranked encoding. -/
theorem BlockTags.Ranked.priority_eq {tags : BlockTags} (hr : tags.Ranked) :
    tags.priority tags.NOT_APPLICABLE = 5 ∧ tags.priority tags.LATEST_BLOCK = 4 ∧
    tags.priority tags.PENDING_BLOCK = 3 ∧ tags.priority tags.SAFE_BLOCK = 2 ∧
    tags.priority tags.FINALIZED_BLOCK = 1 := by
  obtain ⟨h1, h2, h3, h4, h5, h6, h7⟩ := hr
  have n1 : tags.LATEST_BLOCK ≠ tags.NOT_APPLICABLE := by omega
  have n2 : tags.PENDING_BLOCK ≠ tags.NOT_APPLICABLE := by omega
  have n3 : tags.PENDING_BLOCK ≠ tags.LATEST_BLOCK := by omega
  have n4 : tags.SAFE_BLOCK ≠ tags.NOT_APPLICABLE := by omega
  have n5 : tags.SAFE_BLOCK ≠ tags.LATEST_BLOCK := by omega
  have n6 : tags.SAFE_BLOCK ≠ tags.PENDING_BLOCK := by omega
  have n7 : tags.FINALIZED_BLOCK ≠ tags.NOT_APPLICABLE := by omega
  have n8 : tags.FINALIZED_BLOCK ≠ tags.LATEST_BLOCK := by omega
  have n9 : tags.FINALIZED_BLOCK ≠ tags.PENDING_BLOCK := by omega
  have n10 : tags.FINALIZED_BLOCK ≠ tags.SAFE_BLOCK := by omega
  unfold BlockTags.priority
  refine ⟨?_, ?_, ?_, ?_, ?_⟩
  · rw [if_pos rfl]
  · rw [if_neg n1, if_pos rfl]
  · rw [if_neg n2, if_neg n3, if_pos rfl]
  · rw [if_neg n4, if_neg n5, if_neg n6, if_pos rfl]
  · rw [if_neg n7, if_neg n8, if_neg n9, if_neg n10, if_pos rfl]

/-- In a ranked encoding the priority of the symbolic tags is their numeric order. -/
theorem BlockTags.Ranked.priority_lt {tags : BlockTags} (hr : tags.Ranked) {s t : Int}
    (hs : s ∈ tags.symbolic) (ht : t ∈ tags.symbolic) :
    (tags.priority s < tags.priority t ↔ s < t) ∧ 0 < tags.priority s := by
  obtain ⟨p1, p2, p3, p4, p5⟩ := hr.priority_eq
  obtain ⟨h1, h2, h3, h4, h5, h6, h7⟩ := hr
  simp only [BlockTags.symbolic, List.mem_cons, List.mem_singleton, List.mem_nil_iff,
    or_false] at hs ht
  rcases hs with hs | hs | hs | hs | hs <;> rcases ht with ht | ht | ht | ht | ht <;>
    rw [hs, ht] <;> simp only [p1, p2, p3, p4, p5] <;> omega

/-- C17: for two symbolic tags s and t other than earliest the call returns as latest the
one of higher priority, in the order not applicable, latest, pending, safe, finalized, and
as earliest the other one, wherever the encoding of earliest lies among those of the
tags. -/
theorem CompareRequestedBlockInBatch_priority (tags : BlockTags) (hr : tags.Ranked)
    (s t : Int) (hs : s ∈ tags.symbolic) (ht : t ∈ tags.symbolic) :
    CompareRequestedBlockInBatch tags s t
      = if tags.priority s < tags.priority t then (t, s) else (s, t) := by
  obtain ⟨hsneg, hsne⟩ := hr.symbolic_neg hs
  obtain ⟨htneg, htne⟩ := hr.symbolic_neg ht
  have hp := (hr.priority_lt hs ht).1
  rw [CompareRequestedBlockInBatch_of_ne tags s t hsne htne]
  have hiff : (s < 0 ↔ t < 0) := by omega
  rw [if_pos hiff]
  by_cases hlt : s < t
  · rw [if_pos (hp.2 hlt)]
    have h1 : max s t = t := by omega
    have h2 : min s t = s := by omega
    rw [h1, h2]
  · rw [if_neg (fun h => hlt (hp.1 h))]
    have h1 : max s t = s := by omega
    have h2 : min s t = t := by omega
    rw [h1, h2]

/-- Witness of C17: latest and pending, whose encodings have that of earliest between
them, and finalized with not applicable. -/
theorem CompareRequestedBlockInBatch_priority_witness :
    (sampleTags.PENDING_BLOCK < sampleTags.EARLIEST_BLOCK ∧
      sampleTags.EARLIEST_BLOCK < sampleTags.LATEST_BLOCK) ∧
    CompareRequestedBlockInBatch sampleTags sampleTags.PENDING_BLOCK sampleTags.LATEST_BLOCK
      = (sampleTags.LATEST_BLOCK, sampleTags.PENDING_BLOCK) ∧
    CompareRequestedBlockInBatch sampleTags sampleTags.NOT_APPLICABLE
        sampleTags.FINALIZED_BLOCK
      = (sampleTags.NOT_APPLICABLE, sampleTags.FINALIZED_BLOCK) :=
  ⟨by decide,
    CompareRequestedBlockInBatch_priority sampleTags (by decide) sampleTags.PENDING_BLOCK
      sampleTags.LATEST_BLOCK (by decide) (by decide),
    CompareRequestedBlockInBatch_priority sampleTags (by decide) sampleTags.NOT_APPLICABLE
      sampleTags.FINALIZED_BLOCK (by decide) (by decide)⟩

/-- C18: for two concrete heights a and b, which are not negative, the call returns their
maximum as latest and their minimum as earliest; earliest is encoded by a negative
number. -/
theorem CompareRequestedBlockInBatch_concrete (tags : BlockTags)
    (hE : tags.EARLIEST_BLOCK < 0) (a b : Int) (ha : 0 ≤ a) (hb : 0 ≤ b) :
    CompareRequestedBlockInBatch tags a b = (max a b, min a b) := by
  have haE : a ≠ tags.EARLIEST_BLOCK := by omega
  have hbE : b ≠ tags.EARLIEST_BLOCK := by omega
  rw [CompareRequestedBlockInBatch_of_ne tags a b haE hbE]
  have hiff : (a < 0 ↔ b < 0) := by omega
  rw [if_pos hiff]

/-- Witness of C18: the heights 100 and 200. -/
theorem CompareRequestedBlockInBatch_concrete_witness :
    CompareRequestedBlockInBatch sampleTags 100 200 = (200, 100) :=
  CompareRequestedBlockInBatch_concrete sampleTags (by decide) 100 200 (by decide)
    (by decide)

theorem BlockTags.rank_earliest (tags : BlockTags) :
    tags.rank tags.EARLIEST_BLOCK = (0, 0) := by
  unfold BlockTags.rank
  rw [if_pos rfl]

theorem BlockTags.Ranked.rank_symbolic {tags : BlockTags} (hr : tags.Ranked) {s : Int}
    (hs : s ∈ tags.symbolic) : tags.rank s = (2, (tags.priority s : Int)) := by
  unfold BlockTags.rank
  rw [if_neg (hr.symbolic_neg hs).2, if_pos hs]

theorem BlockTags.Ranked.rank_concrete {tags : BlockTags} (hr : tags.Ranked) {n : Int}
    (hn : 0 ≤ n) : tags.rank n = (1, n) := by
  have hE : tags.EARLIEST_BLOCK < 0 := hr.2.2.2.2.2.1
  have h1 : n ≠ tags.EARLIEST_BLOCK := by omega
  have h2 : n ∉ tags.symbolic := fun h => by
    have := (hr.symbolic_neg h).1
    omega
  unfold BlockTags.rank
  rw [if_neg h1, if_neg h2]

/-- The result of the call on two block references of the domain, by their ranks. -/
theorem CompareRequestedBlockInBatch_rank (tags : BlockTags) (hr : tags.Ranked) (a b : Int)
    (ha : tags.InDomain a) (hb : tags.InDomain b) :
    CompareRequestedBlockInBatch tags a b
        = (if rankLT (tags.rank a) (tags.rank b) then (b, a) else (a, b)) ∧
      (a ≠ b → rankLT (tags.rank a) (tags.rank b) ∨ rankLT (tags.rank b) (tags.rank a)) := by
  have hE : tags.EARLIEST_BLOCK < 0 := hr.2.2.2.2.2.1
  -- the class of an operand that is not earliest
  have hclass : ∀ x, tags.InDomain x → x ≠ tags.EARLIEST_BLOCK →
      (x < 0 ∧ x ∈ tags.symbolic ∧ tags.rank x = (2, (tags.priority x : Int))) ∨
      (0 ≤ x ∧ tags.rank x = (1, x)) := by
    intro x hx hne
    rcases hx with hx | hx | hx
    · exact Or.inr ⟨hx, hr.rank_concrete hx⟩
    · exact absurd hx hne
    · exact Or.inl ⟨(hr.symbolic_neg hx).1, hx, hr.rank_symbolic hx⟩
  by_cases haE : a = tags.EARLIEST_BLOCK
  · rw [haE, CompareRequestedBlockInBatch_earliest_left, BlockTags.rank_earliest]
    by_cases hbE : b = tags.EARLIEST_BLOCK
    · rw [hbE, BlockTags.rank_earliest]
      refine ⟨?_, fun h => absurd rfl h⟩
      have hno : ¬ rankLT ((0 : Nat), (0 : Int)) ((0 : Nat), (0 : Int)) := by decide
      rw [if_neg hno]
    · have hlt : rankLT ((0 : Nat), (0 : Int)) (tags.rank b) := by
        rcases hclass b hb hbE with ⟨_, _, hrank⟩ | ⟨_, hrank⟩ <;> rw [hrank] <;>
          exact Or.inl (by dsimp only; omega)
      rw [if_pos hlt]
      exact ⟨rfl, fun _ => Or.inl hlt⟩
  by_cases hbE : b = tags.EARLIEST_BLOCK
  · rw [hbE, CompareRequestedBlockInBatch_earliest_right, BlockTags.rank_earliest]
    have hlt : rankLT ((0 : Nat), (0 : Int)) (tags.rank a) := by
      rcases hclass a ha haE with ⟨_, _, hrank⟩ | ⟨_, hrank⟩ <;> rw [hrank] <;>
        exact Or.inl (by dsimp only; omega)
    have hno : ¬ rankLT (tags.rank a) ((0 : Nat), (0 : Int)) := by
      rcases hclass a ha haE with ⟨_, _, hrank⟩ | ⟨_, hrank⟩ <;> rw [hrank] <;>
        (unfold rankLT; dsimp only; omega)
    rw [if_neg hno]
    exact ⟨rfl, fun _ => Or.inr hlt⟩
  rw [CompareRequestedBlockInBatch_of_ne tags a b haE hbE]
  rcases hclass a ha haE with ⟨han, has, hra⟩ | ⟨han, hra⟩ <;>
    rcases hclass b hb hbE with ⟨hbn, hbs, hrb⟩ | ⟨hbn, hrb⟩ <;> rw [hra, hrb]
  · have hp := (hr.priority_lt has hbs).1
    have hp2 := (hr.priority_lt hbs has).1
    unfold rankLT
    dsimp only
    refine ⟨?_, fun hne => ?_⟩
    · split_ifs <;> simp only [Prod.mk.injEq] <;> omega
    · omega
  · unfold rankLT
    dsimp only
    refine ⟨?_, fun hne => ?_⟩
    · split_ifs <;> simp only [Prod.mk.injEq] <;> omega
    · omega
  · unfold rankLT
    dsimp only
    refine ⟨?_, fun hne => ?_⟩
    · split_ifs <;> simp only [Prod.mk.injEq] <;> omega
    · omega
  · unfold rankLT
    dsimp only
    refine ⟨?_, fun hne => ?_⟩
    · split_ifs <;> simp only [Prod.mk.injEq] <;> omega
    · omega

theorem rankLT_asymm (r s : Nat × Int) : rankLT r s → ¬ rankLT s r := by
  unfold rankLT
  omega

theorem rankLT_trans (r s t : Nat × Int) : rankLT r s → rankLT s t → rankLT r t := by
  unfold rankLT
  omega

/-- C13: on the block references of the domain, ranked with earliest lowest, then the
concrete heights in their numeric order, then finalized, safe, pending, latest and not
applicable, the call returns the reference of higher rank as latest and the one of lower
rank as earliest; the ranks order the domain totally: two different references have
different ranks, one below the other, and the order of ranks is strict and transitive. -/
theorem CompareRequestedBlockInBatch_total_order (tags : BlockTags) (hr : tags.Ranked)
    (a b : Int) (ha : tags.InDomain a) (hb : tags.InDomain b) :
    CompareRequestedBlockInBatch tags a b
        = (if rankLT (tags.rank a) (tags.rank b) then (b, a) else (a, b)) ∧
      (a ≠ b → rankLT (tags.rank a) (tags.rank b) ∨ rankLT (tags.rank b) (tags.rank a)) ∧
      ¬ (rankLT (tags.rank a) (tags.rank b) ∧ rankLT (tags.rank b) (tags.rank a)) ∧
      ∀ c, rankLT (tags.rank a) (tags.rank b) → rankLT (tags.rank b) (tags.rank c) →
        rankLT (tags.rank a) (tags.rank c) :=
  ⟨(CompareRequestedBlockInBatch_rank tags hr a b ha hb).1,
    (CompareRequestedBlockInBatch_rank tags hr a b ha hb).2,
    fun h => rankLT_asymm _ _ h.1 h.2,
    fun c => rankLT_trans _ _ (tags.rank c)⟩

/-- Witness of C13: a height with finalized, and earliest with the height 0. -/
theorem CompareRequestedBlockInBatch_total_order_witness :
    CompareRequestedBlockInBatch sampleTags 5000000 sampleTags.FINALIZED_BLOCK
      = (sampleTags.FINALIZED_BLOCK, 5000000) ∧
    CompareRequestedBlockInBatch sampleTags 0 sampleTags.EARLIEST_BLOCK
      = (0, sampleTags.EARLIEST_BLOCK) :=
  ⟨(CompareRequestedBlockInBatch_total_order sampleTags (by decide) 5000000
      sampleTags.FINALIZED_BLOCK (by decide) (by decide)).1,
    (CompareRequestedBlockInBatch_total_order sampleTags (by decide) 0
      sampleTags.EARLIEST_BLOCK (by decide) (by decide)).1⟩

/-- A left fold of an associative and commutative operation over a list that is not
empty, from its first element, does not depend on the order of the list. -/
theorem foldl_perm_of_assoc_comm {α : Type} (op : α → α → α)
    (hcomm : ∀ a b, op a b = op b a) (hassoc : ∀ a b c, op (op a b) c = op a (op b c))
    (x y : α) (l l' : List α) (hperm : (x :: l).Perm (y :: l')) :
    l.foldl op x = l'.foldl op y := by
  let lift : Option α → α → Option α := fun s b =>
    match s with
    | none => some b
    | some a => some (op a b)
  have hlift : ∀ (l : List α) (a : α), l.foldl lift (some a) = some (l.foldl op a) := by
    intro l
    induction l with
    | nil => intro a; rfl
    | cons b rest ih => intro a; exact ih (op a b)
  have hswap : ∀ (s : Option α) (a b : α), lift (lift s a) b = lift (lift s b) a := by
    intro s a b
    cases s with
    | none => exact congrArg some (hcomm a b)
    | some c =>
      show some (op (op c a) b) = some (op (op c b) a)
      rw [hassoc, hassoc, hcomm a b]
  have h := List.Perm.foldl_eq' hperm (fun a _ b _ s => hswap s a b) none
  have h1 : (x :: l).foldl lift none = some (l.foldl op x) := hlift l x
  have h2 : (y :: l').foldl lift none = some (l'.foldl op y) := hlift l' y
  rw [h1, h2] at h
  exact Option.some.inj h

/-- The fold over a batch folds the two bounds apart. -/
theorem foldl_combineStep (tags : BlockTags) (l : List Int) (latest earliest : Int) :
    l.foldl (combineStep tags) (latest, earliest)
      = (l.foldl (fun a b => (CompareRequestedBlockInBatch tags a b).1) latest,
          l.foldl (fun a b => (CompareRequestedBlockInBatch tags a b).2) earliest) := by
  induction l generalizing latest earliest with
  | nil => rfl
  | cons x rest ih => exact ih _ _

theorem combineBatch_of_perm (tags : BlockTags) (l₁ l₂ : List Int) (hperm : l₁.Perm l₂) :
    combineBatch tags l₁ = combineBatch tags l₂ := by
  cases l₁ with
  | nil =>
    rw [List.Perm.eq_nil (List.Perm.symm hperm)]
  | cons x l =>
    cases l₂ with
    | nil => exact absurd (List.Perm.eq_nil hperm) (List.cons_ne_nil x l)
    | cons y l' =>
      show some (l.foldl (combineStep tags) (x, x)) = some (l'.foldl (combineStep tags) (y, y))
      rw [foldl_combineStep, foldl_combineStep,
        foldl_perm_of_assoc_comm (fun a b => (CompareRequestedBlockInBatch tags a b).1)
          (fun a b => congrArg Prod.fst (CompareRequestedBlockInBatch_comm tags a b))
          (CompareRequestedBlockInBatch_fst_assoc tags) x y l l' hperm,
        foldl_perm_of_assoc_comm (fun a b => (CompareRequestedBlockInBatch tags a b).2)
          (fun a b => congrArg Prod.snd (CompareRequestedBlockInBatch_comm tags a b))
          (CompareRequestedBlockInBatch_snd_assoc tags) x y l l' hperm]

/-- C19: the fold of the call over a sequence of block references that is not empty, left
to right from its first element, with the latest component for the latest bound and the
earliest component for the earliest bound, yields one pair of bounds, the same for every
permutation of the sequence; and the latest component and the earliest component of the
call are each commutative and associative. -/
theorem combineBatch_perm (tags : BlockTags) :
    (∀ l : List Int, l ≠ [] → ∃ bounds, combineBatch tags l = some bounds) ∧
    (∀ l₁ l₂ : List Int, l₁.Perm l₂ → combineBatch tags l₁ = combineBatch tags l₂) ∧
    (∀ a b, (CompareRequestedBlockInBatch tags a b).1
      = (CompareRequestedBlockInBatch tags b a).1) ∧
    (∀ a b c,
      (CompareRequestedBlockInBatch tags (CompareRequestedBlockInBatch tags a b).1 c).1
        = (CompareRequestedBlockInBatch tags a (CompareRequestedBlockInBatch tags b c).1).1) ∧
    (∀ a b, (CompareRequestedBlockInBatch tags a b).2
      = (CompareRequestedBlockInBatch tags b a).2) ∧
    (∀ a b c,
      (CompareRequestedBlockInBatch tags (CompareRequestedBlockInBatch tags a b).2 c).2
        = (CompareRequestedBlockInBatch tags a (CompareRequestedBlockInBatch tags b c).2).2) := by
  refine ⟨?_, combineBatch_of_perm tags,
    fun a b => congrArg Prod.fst (CompareRequestedBlockInBatch_comm tags a b),
    CompareRequestedBlockInBatch_fst_assoc tags,
    fun a b => congrArg Prod.snd (CompareRequestedBlockInBatch_comm tags a b),
    CompareRequestedBlockInBatch_snd_assoc tags⟩
  intro l hl
  cases l with
  | nil => exact absurd rfl hl
  | cons x rest => exact ⟨_, rfl⟩

/-- Witness of C19: a batch of two heights, latest and earliest, in two orders, has the
bounds latest and earliest. -/
theorem combineBatch_perm_witness :
    combineBatch sampleTags [100, sampleTags.LATEST_BLOCK, 200, sampleTags.EARLIEST_BLOCK]
      = combineBatch sampleTags
          [sampleTags.EARLIEST_BLOCK, 200, 100, sampleTags.LATEST_BLOCK] ∧
    combineBatch sampleTags [100, sampleTags.LATEST_BLOCK, 200, sampleTags.EARLIEST_BLOCK]
      = some (sampleTags.LATEST_BLOCK, sampleTags.EARLIEST_BLOCK) :=
  ⟨(combineBatch_perm sampleTags).2.1 _ _ (by decide), by decide⟩

/-! ## Relay timeout -/

/-- C20: for a message whose timeout override is not zero, and every average block time,
the relay timeout is that override; it is the same for every other message with that
override, whatever its compute units, its fixed timeout, its hanging flag, the average
block time and the settings. -/
theorem GetRelayTimeout_override (settings : TimeoutSettings)
    (chainMessage : ChainMessageForSend) (averageBlockTime : Int)
    (hover : chainMessage.TimeoutOverride ≠ 0) :
    GetRelayTimeout settings chainMessage averageBlockTime = chainMessage.TimeoutOverride ∧
    ∀ (settings' : TimeoutSettings) (other : ChainMessageForSend) (averageBlockTime' : Int),
      other.TimeoutOverride = chainMessage.TimeoutOverride →
      GetRelayTimeout settings' other averageBlockTime'
        = GetRelayTimeout settings chainMessage averageBlockTime := by
  have hret : ∀ (s : TimeoutSettings) (m : ChainMessageForSend) (t : Int),
      m.TimeoutOverride ≠ 0 → GetRelayTimeout s m t = m.TimeoutOverride := by
    intro s m t h
    unfold GetRelayTimeout
    rw [if_pos h]
  refine ⟨hret settings chainMessage averageBlockTime hover, ?_⟩
  intro settings' other averageBlockTime' hsame
  rw [hret settings' other averageBlockTime' (hsame ▸ hover),
    hret settings chainMessage averageBlockTime hover, hsame]

/-- Witness of C20: a hanging message of 10 compute units with a fixed timeout of 500
milliseconds and an override of 7 seconds has a relay timeout of 7 seconds. -/
theorem GetRelayTimeout_override_witness :
    GetRelayTimeout sampleSettings overrideMessage 12000000000 = 7000000000 :=
  (GetRelayTimeout_override sampleSettings overrideMessage 12000000000 (by decide)).1

/-! ## The relay timeout without an override -/

theorem wrapInt64_of_InInt64 {x : Int} (h : InInt64 x) : wrapInt64 x = x := by
  unfold InInt64 at h
  unfold wrapInt64
  omega

theorem wrapInt64_add_left (a b : Int) : wrapInt64 (wrapInt64 a + b) = wrapInt64 (a + b) := by
  unfold wrapInt64
  omega

theorem wrapInt64_Millisecond_mul (a : Int) :
    wrapInt64 (Millisecond * wrapInt64 a) = wrapInt64 (Millisecond * a) := by
  unfold wrapInt64 Millisecond
  omega

theorem GetRelayTimeout_of_override (settings : TimeoutSettings)
    (chainMessage : ChainMessageForSend) (averageBlockTime : Int)
    (hover : chainMessage.TimeoutOverride ≠ 0) :
    GetRelayTimeout settings chainMessage averageBlockTime = chainMessage.TimeoutOverride := by
  unfold GetRelayTimeout
  rw [if_pos hover]

/-- Without an override the relay timeout is the sum of the spec, wrapped to 64 bits. -/
theorem GetRelayTimeout_eq_wrap (settings : TimeoutSettings)
    (chainMessage : ChainMessageForSend) (averageBlockTime : Int)
    (hzero : chainMessage.TimeoutOverride = 0) :
    GetRelayTimeout settings chainMessage averageBlockTime
      = wrapInt64 (relayTimeoutSum settings chainMessage averageBlockTime) := by
  unfold GetRelayTimeout relayTimeoutSum
  rw [if_neg (fun h => h hzero)]
  simp only
  rw [wrapInt64_add_left]
  by_cases hms : chainMessage.TimeoutMs > 0 <;> by_cases hh : chainMessage.IsHangingApi = true
  · rw [if_pos hms, if_pos hms, if_pos hh, if_pos hh]
    unfold wrapInt64 Millisecond
    omega
  · rw [if_pos hms, if_pos hms, if_neg hh, if_neg hh]
    unfold wrapInt64 Millisecond
    omega
  · rw [if_neg hms, if_neg hms, if_pos hh, if_pos hh]
    unfold wrapInt64
    omega
  · rw [if_neg hms, if_neg hms, if_neg hh, if_neg hh]
    unfold wrapInt64
    omega

/-- Counterexample to C21 as stated: with a fixed timeout of 10^13 milliseconds and no
override the product of line 321 exceeds 64 bits and the relay timeout is negative, not
the fixed timeout plus the world latency. -/
theorem GetRelayTimeout_sum_wraps :
    (fixedMessage false 10000000000000).TimeoutOverride = 0 ∧
    relayTimeoutSum sampleSettings (fixedMessage false 10000000000000) 0
      = 10000000000300000000 ∧
    GetRelayTimeout sampleSettings (fixedMessage false 10000000000000) 0
      = -8446744073409551616 ∧
    GetRelayTimeout sampleSettings (fixedMessage false 10000000000000) 0
      ≠ relayTimeoutSum sampleSettings (fixedMessage false 10000000000000) 0 := by
  decide

/-- C21 (amended): for a message without an override the relay timeout is the base
duration plus the world latency plus the slack, reduced to a signed 64-bit number; it is
exactly that sum whenever the sum is a signed 64-bit number. The base duration is the
fixed timeout in milliseconds when it is greater than 0 and the time for the compute units
otherwise; the slack is twice the average block time for a hanging api and 0 otherwise. -/
theorem GetRelayTimeout_sum (settings : TimeoutSettings) (chainMessage : ChainMessageForSend)
    (averageBlockTime : Int) (hzero : chainMessage.TimeoutOverride = 0) :
    GetRelayTimeout settings chainMessage averageBlockTime
      = wrapInt64 (relayTimeoutSum settings chainMessage averageBlockTime) ∧
    (InInt64 (relayTimeoutSum settings chainMessage averageBlockTime) →
      GetRelayTimeout settings chainMessage averageBlockTime
        = relayTimeoutSum settings chainMessage averageBlockTime) := by
  have h := GetRelayTimeout_eq_wrap settings chainMessage averageBlockTime hzero
  refine ⟨h, fun hin => ?_⟩
  rw [h, wrapInt64_of_InInt64 hin]

/-- Witness of C21: a hanging api of 10 compute units with an average block time of 12
seconds gets 1 second, plus 300 milliseconds, plus 24 seconds; with a fixed timeout of 500
milliseconds and no hanging it gets 800 milliseconds. -/
theorem GetRelayTimeout_sum_witness :
    GetRelayTimeout sampleSettings (plainMessage true 10) 12000000000 = 25300000000 ∧
    GetRelayTimeout sampleSettings (fixedMessage false 500) 12000000000 = 800000000 :=
  ⟨((GetRelayTimeout_sum sampleSettings (plainMessage true 10) 12000000000 rfl).2
      (by decide)).trans (by decide),
    ((GetRelayTimeout_sum sampleSettings (fixedMessage false 500) 12000000000 rfl).2
      (by decide)).trans (by decide)⟩

theorem steadySettings_longer : steadySettings.LongerForHigherCost := by
  intro cu1 cu2 hcu
  show ((min cu1 1000000 : Nat) : Int) * (100 * Millisecond)
    ≤ ((min cu2 1000000 : Nat) : Int) * (100 * Millisecond)
  unfold Millisecond
  omega

/-- Counterexample to C22 as stated: the time per compute unit of these settings grows
with the cost, and yet of two hanging messages of 1 and 2 compute units, with an average
block time close to 2^62 nanoseconds, the second gets the shorter relay timeout, the sum
of line 324 having exceeded 64 bits. -/
theorem GetRelayTimeout_cost_wraps :
    steadySettings.LongerForHigherCost ∧
    GetRelayTimeout steadySettings (plainMessage true 1) 4611686018227387903
      = 9223372036854775806 ∧
    GetRelayTimeout steadySettings (plainMessage true 2) 4611686018227387903
      = -9223372036754775810 ∧
    ¬ (GetRelayTimeout steadySettings (plainMessage true 1) 4611686018227387903
      ≤ GetRelayTimeout steadySettings (plainMessage true 2) 4611686018227387903) :=
  ⟨steadySettings_longer, by decide, by decide, by decide⟩

/-- C22 (amended): with a time per compute unit that grows with the cost, as the spec says
of it, two messages that differ in their compute units only, the first of at most the
compute units of the second: the relay timeout of the first is at most that of the second
whenever the two sums of base duration, world latency and slack are signed 64-bit numbers,
and the two are equal when there is an override or a fixed timeout. -/
theorem GetRelayTimeout_cost_mono (settings : TimeoutSettings)
    (hspec : settings.LongerForHigherCost) (chainMessage : ChainMessageForSend)
    (averageBlockTime : Int) (cu1 cu2 : Nat) (hcu : cu1 ≤ cu2) :
    (InInt64 (relayTimeoutSum settings { chainMessage with GetComputeUnits := cu1 }
        averageBlockTime) →
      InInt64 (relayTimeoutSum settings { chainMessage with GetComputeUnits := cu2 }
        averageBlockTime) →
      GetRelayTimeout settings { chainMessage with GetComputeUnits := cu1 } averageBlockTime
        ≤ GetRelayTimeout settings { chainMessage with GetComputeUnits := cu2 }
            averageBlockTime) ∧
    (chainMessage.TimeoutOverride ≠ 0 ∨ chainMessage.TimeoutMs > 0 →
      GetRelayTimeout settings { chainMessage with GetComputeUnits := cu1 } averageBlockTime
        = GetRelayTimeout settings { chainMessage with GetComputeUnits := cu2 }
            averageBlockTime) := by
  have hmono : settings.GetTimePerCu cu1 ≤ settings.GetTimePerCu cu2 := hspec cu1 cu2 hcu
  by_cases hover : chainMessage.TimeoutOverride ≠ 0
  · have h1 := GetRelayTimeout_of_override settings
      { chainMessage with GetComputeUnits := cu1 } averageBlockTime hover
    have h2 := GetRelayTimeout_of_override settings
      { chainMessage with GetComputeUnits := cu2 } averageBlockTime hover
    rw [h1, h2]
    exact ⟨fun _ _ => le_refl _, fun _ => rfl⟩
  · have hzero : chainMessage.TimeoutOverride = 0 := not_not.mp hover
    have h1 := GetRelayTimeout_eq_wrap settings
      { chainMessage with GetComputeUnits := cu1 } averageBlockTime hzero
    have h2 := GetRelayTimeout_eq_wrap settings
      { chainMessage with GetComputeUnits := cu2 } averageBlockTime hzero
    rw [h1, h2]
    refine ⟨fun hin1 hin2 => ?_, fun h => ?_⟩
    · rw [wrapInt64_of_InInt64 hin1, wrapInt64_of_InInt64 hin2]
      unfold relayTimeoutSum
      simp only
      split_ifs <;> omega
    · rcases h with h | h
      · exact absurd h hover
      · unfold relayTimeoutSum
        simp only [if_pos h]

/-- Witness of C22: 10 and 20 compute units, for a hanging api and an average block time
of 12 seconds: 25.3 seconds and 26.3 seconds. -/
theorem GetRelayTimeout_cost_mono_witness :
    GetRelayTimeout steadySettings (plainMessage true 10) 12000000000
      ≤ GetRelayTimeout steadySettings (plainMessage true 20) 12000000000 ∧
    GetRelayTimeout steadySettings (plainMessage true 10) 12000000000 = 25300000000 ∧
    GetRelayTimeout steadySettings (plainMessage true 20) 12000000000 = 26300000000 :=
  ⟨(GetRelayTimeout_cost_mono steadySettings steadySettings_longer (plainMessage true 0)
      12000000000 10 20 (by decide)).1 (by decide) (by decide),
    by decide, by decide⟩

/-- Counterexample to C23 as stated: two messages with an override of 7 seconds that
differ in the hanging flag only both get 7 seconds, whatever the average block time; and
without an override, for an average block time of 2^62 nanoseconds, the relay timeout of
the hanging message is not that of the other plus twice the average block time. -/
theorem GetRelayTimeout_hanging_fails :
    (GetRelayTimeout sampleSettings (overriddenMessage true 7000000000) 12000000000
        = 7000000000 ∧
      GetRelayTimeout sampleSettings (overriddenMessage false 7000000000) 12000000000
        = 7000000000 ∧
      GetRelayTimeout sampleSettings (overriddenMessage true 7000000000) 12000000000
        ≠ GetRelayTimeout sampleSettings (overriddenMessage false 7000000000) 12000000000
            + 2 * 12000000000) ∧
    GetRelayTimeout sampleSettings (plainMessage true 1) 4611686018427387904
      ≠ GetRelayTimeout sampleSettings (plainMessage false 1) 4611686018427387904
          + 2 * 4611686018427387904 := by
  decide

/-- C23 (amended): two messages without an override that differ in the hanging flag only.
The relay timeout of the hanging one is that of the other plus twice the average block
time, reduced to a signed 64-bit number, so exactly that sum whenever it is a signed
64-bit number. With an override the two relay timeouts are the override. -/
theorem GetRelayTimeout_hanging (settings : TimeoutSettings)
    (chainMessage : ChainMessageForSend) (averageBlockTime : Int) :
    (chainMessage.TimeoutOverride = 0 →
      GetRelayTimeout settings { chainMessage with IsHangingApi := true } averageBlockTime
        = wrapInt64
            (GetRelayTimeout settings { chainMessage with IsHangingApi := false }
              averageBlockTime + 2 * averageBlockTime)) ∧
    (chainMessage.TimeoutOverride = 0 →
      InInt64 (GetRelayTimeout settings { chainMessage with IsHangingApi := false }
        averageBlockTime + 2 * averageBlockTime) →
      GetRelayTimeout settings { chainMessage with IsHangingApi := true } averageBlockTime
        = GetRelayTimeout settings { chainMessage with IsHangingApi := false }
            averageBlockTime + 2 * averageBlockTime) ∧
    (chainMessage.TimeoutOverride ≠ 0 →
      GetRelayTimeout settings { chainMessage with IsHangingApi := true } averageBlockTime
        = chainMessage.TimeoutOverride ∧
      GetRelayTimeout settings { chainMessage with IsHangingApi := false } averageBlockTime
        = chainMessage.TimeoutOverride) := by
  have hwrap : chainMessage.TimeoutOverride = 0 →
      GetRelayTimeout settings { chainMessage with IsHangingApi := true } averageBlockTime
        = wrapInt64
            (GetRelayTimeout settings { chainMessage with IsHangingApi := false }
              averageBlockTime + 2 * averageBlockTime) := by
    intro hzero
    rw [GetRelayTimeout_eq_wrap settings { chainMessage with IsHangingApi := true }
        averageBlockTime hzero,
      GetRelayTimeout_eq_wrap settings { chainMessage with IsHangingApi := false }
        averageBlockTime hzero, wrapInt64_add_left]
    unfold relayTimeoutSum
    simp only [if_true, Bool.false_eq_true, if_false, add_zero]
  refine ⟨hwrap, fun hzero hin => ?_, fun hover => ⟨?_, ?_⟩⟩
  · rw [hwrap hzero, wrapInt64_of_InInt64 hin]
  · exact GetRelayTimeout_of_override settings { chainMessage with IsHangingApi := true }
      averageBlockTime hover
  · exact GetRelayTimeout_of_override settings { chainMessage with IsHangingApi := false }
      averageBlockTime hover

/-- Witness of C23: 10 compute units and an average block time of 12 seconds: 25.3 seconds
for the hanging message, 1.3 seconds for the other. -/
theorem GetRelayTimeout_hanging_witness :
    GetRelayTimeout sampleSettings (plainMessage true 10) 12000000000
      = GetRelayTimeout sampleSettings (plainMessage false 10) 12000000000
          + 2 * 12000000000 ∧
    GetRelayTimeout sampleSettings (plainMessage false 10) 12000000000 = 1300000000 :=
  ⟨(GetRelayTimeout_hanging sampleSettings (plainMessage false 10) 12000000000).2.1 rfl
      (by decide),
    by decide⟩

/-- Counterexample to C24 as stated: an override of 1 millisecond is returned as it is,
below the world latency of 300 milliseconds; and a fixed timeout of 10^13 milliseconds
gives a negative relay timeout. -/
theorem GetRelayTimeout_floor_fails :
    (0 : Int) ≤ 12000000000 ∧
    GetRelayTimeout sampleSettings (overriddenMessage false 1000000) 12000000000
      < sampleSettings.AverageWorldLatency ∧
    GetRelayTimeout sampleSettings (fixedMessage false 10000000000000) 12000000000
      < sampleSettings.AverageWorldLatency :=
  ⟨by decide, by decide, by decide⟩

/-- C24 (amended): for a message without an override and an average block time that is
not negative, the time for the compute units not being negative when there is no fixed
timeout, the relay timeout is not below the world latency whenever the sum of base duration, world latency and slack is a
signed 64-bit number; with an override the relay timeout is the override, whatever the
world latency. -/
theorem GetRelayTimeout_floor (settings : TimeoutSettings)
    (chainMessage : ChainMessageForSend) (averageBlockTime : Int)
    (hblock : 0 ≤ averageBlockTime) :
    (chainMessage.TimeoutOverride = 0 →
      (chainMessage.TimeoutMs = 0 → 0 ≤ settings.GetTimePerCu chainMessage.GetComputeUnits) →
      InInt64 (relayTimeoutSum settings chainMessage averageBlockTime) →
      settings.AverageWorldLatency
        ≤ GetRelayTimeout settings chainMessage averageBlockTime) ∧
    (chainMessage.TimeoutOverride ≠ 0 →
      GetRelayTimeout settings chainMessage averageBlockTime
        = chainMessage.TimeoutOverride) := by
  refine ⟨fun hzero hcu hin => ?_,
    GetRelayTimeout_of_override settings chainMessage averageBlockTime⟩
  rw [GetRelayTimeout_eq_wrap settings chainMessage averageBlockTime hzero,
    wrapInt64_of_InInt64 hin]
  unfold relayTimeoutSum Millisecond
  by_cases hms : chainMessage.TimeoutMs > 0
  · rw [if_pos hms]
    split_ifs <;> omega
  · rw [if_neg hms]
    have hnonneg := hcu (Nat.eq_zero_of_not_pos hms)
    split_ifs <;> omega

/-- Witness of C24: 10 compute units, no hanging, an average block time of 12 seconds:
1.3 seconds, above the 300 milliseconds of the world latency. -/
theorem GetRelayTimeout_floor_witness :
    sampleSettings.AverageWorldLatency
      ≤ GetRelayTimeout sampleSettings (plainMessage false 10) 12000000000 :=
  (GetRelayTimeout_floor sampleSettings (plainMessage false 10) 12000000000
    (by decide)).1 rfl (fun _ => by decide) (by decide)

/-! ## Active verification containers -/

/-- C25: a verification container is active if and only if its expected value is not the
empty string or its latest distance is not zero; it is not active exactly when the value
is empty and the latest distance is 0; two containers with the same value and latest
distance are active together, whatever their other fields. -/
theorem VerificationContainer.IsActive_iff {ParseDirective Severity : Type}
    (vc : VerificationContainer ParseDirective Severity) :
    (vc.IsActive = true ↔ vc.Value ≠ "" ∨ vc.LatestDistance ≠ 0) ∧
    (vc.IsActive = false ↔ vc.Value = "" ∧ vc.LatestDistance = 0) ∧
    ∀ other : VerificationContainer ParseDirective Severity,
      other.Value = vc.Value → other.LatestDistance = vc.LatestDistance →
      other.IsActive = vc.IsActive := by
  refine ⟨?_, ?_, ?_⟩
  · unfold VerificationContainer.IsActive
    by_cases h : vc.Value = "" ∧ vc.LatestDistance = 0
    · rw [if_pos h]
      constructor
      · intro hf
        exact absurd hf (by decide)
      · rintro (hv | hd)
        · exact absurd h.1 hv
        · exact absurd h.2 hd
    · rw [if_neg h]
      refine ⟨fun _ => ?_, fun _ => rfl⟩
      by_cases hv : vc.Value = ""
      · exact Or.inr (fun hd => h ⟨hv, hd⟩)
      · exact Or.inl hv
  · unfold VerificationContainer.IsActive
    by_cases h : vc.Value = "" ∧ vc.LatestDistance = 0
    · rw [if_pos h]
      exact ⟨fun _ => h, fun _ => rfl⟩
    · rw [if_neg h]
      exact ⟨fun hf => absurd hf (by decide), fun hh => absurd hh h⟩
  · intro other hv hd
    unfold VerificationContainer.IsActive
    rw [hv, hd]

/-- Witness of C25: a container with an expected value, one with a latest distance, and
one with neither. -/
theorem VerificationContainer.IsActive_iff_witness :
    (sampleContainer "lava-1" 0).IsActive = true ∧
    (sampleContainer "" 10).IsActive = true ∧
    (sampleContainer "" 0).IsActive = false :=
  ⟨(VerificationContainer.IsActive_iff (sampleContainer "lava-1" 0)).1.2
      (Or.inl (by decide)),
    (VerificationContainer.IsActive_iff (sampleContainer "" 10)).1.2 (Or.inr (by decide)),
    (VerificationContainer.IsActive_iff (sampleContainer "" 0)).2.1.2
      ⟨by decide, by decide⟩⟩

/-! ## The key of an epoch is its hexadecimal numeral -/

theorem digitChar_hex (m : Nat) (h : m < 16) :
    Nat.digitChar m ∈ "0123456789abcdef".data := by
  interval_cases m <;> decide

theorem digitChar_eq_zero (m : Nat) (h : m < 16) (hc : Nat.digitChar m = '0') : m = 0 := by
  interval_cases m <;> first | rfl | exact absurd hc (by decide)

theorem toDigitsCore_hex (fuel n : Nat) :
    ∀ c ∈ Nat.toDigitsCore 16 fuel n [], c ∈ "0123456789abcdef".data := by
  induction fuel generalizing n with
  | zero =>
    intro c hc
    exact absurd hc (List.not_mem_nil c)
  | succ fuel ih =>
    intro c hc
    simp only [Nat.toDigitsCore] at hc
    by_cases h0 : n / 16 = 0
    · simp only [h0, if_true, List.mem_singleton] at hc
      rw [hc]
      exact digitChar_hex _ (Nat.mod_lt _ (by decide))
    · simp only [h0, if_false] at hc
      rw [toDigitsCore_append] at hc
      rcases List.mem_append.mp hc with hc | hc
      · exact ih (n / 16) c hc
      · rw [List.mem_singleton.mp hc]
        exact digitChar_hex _ (Nat.mod_lt _ (by decide))

theorem toDigitsCore_head (fuel n : Nat) (h : n < fuel) :
    ∃ c rest, Nat.toDigitsCore 16 fuel n [] = c :: rest ∧ (c = '0' → n = 0) := by
  induction fuel generalizing n with
  | zero => exact absurd h (Nat.not_lt_zero n)
  | succ fuel ih =>
    simp only [Nat.toDigitsCore]
    by_cases h0 : n / 16 = 0
    · simp only [h0, if_true]
      have hn : n < 16 := by omega
      refine ⟨Nat.digitChar (n % 16), [], rfl, fun hc => ?_⟩
      have := digitChar_eq_zero (n % 16) (Nat.mod_lt _ (by decide)) hc
      omega
    · simp only [h0, if_false]
      have hlt : n / 16 < fuel := by omega
      obtain ⟨c, rest, heq, hzero⟩ := ih (n / 16) hlt
      rw [toDigitsCore_append, heq]
      exact ⟨c, rest ++ [Nat.digitChar (n % 16)], rfl, fun hc => absurd (hzero hc) h0⟩

/-- C26: the key of an epoch is its numeral in base 16: its characters are lowercase
hexadecimal digits, it is not empty and starts with 0 for the epoch 0 only, reading it in
base 16 gives the epoch back, and two epochs with the same key are equal.
`GetEpochPaymentsFromBlock` reads the entry under this key and returns the key, and
`AddEpochPayment`, for an epoch that is not stale, leaves an entry with this index under
this key and every other key as it was. -/
theorem epochPaymentKey_hex (epoch : Nat) :
    (∀ c ∈ (epochPaymentKey epoch).data, c ∈ "0123456789abcdef".data) ∧
    (∃ c rest, (epochPaymentKey epoch).data = c :: rest ∧ (c = '0' → epoch = 0)) ∧
    hexValue (epochPaymentKey epoch).data = epoch ∧
    (∀ other, epochPaymentKey other = epochPaymentKey epoch → other = epoch) ∧
    (∀ k : Keeper, k.GetEpochPaymentsFromBlock epoch
      = (k.GetEpochPayments (epochPaymentKey epoch), epochPaymentKey epoch)) ∧
    (∀ (ks : KeyScheme) (k : EpochPaymentHandler) (chainID projectID providerAddress : String)
        (usedCU : Nat) (uniqueIdentifier : String),
      k.keeper.earliestEpochStart ≤ epoch →
      (∃ epochPayments,
        (EpochPaymentHandler.AddEpochPayment ks k chainID epoch projectID providerAddress
          usedCU uniqueIdentifier).1.GetEpochPaymentsCached (epochPaymentKey epoch)
          = some epochPayments ∧
        epochPayments.Index = epochPaymentKey epoch ∧
        ks.GetProviderPaymentStorageKey chainID epoch providerAddress
          ∈ epochPayments.ProviderPaymentStorageKeys) ∧
      ∀ index, index ≠ epochPaymentKey epoch →
        (EpochPaymentHandler.AddEpochPayment ks k chainID epoch projectID providerAddress
          usedCU uniqueIdentifier).1.GetEpochPaymentsCached index
          = k.GetEpochPaymentsCached index) := by
  refine ⟨?_, ?_, hexValue_epochPaymentKey epoch, fun other h => epochPaymentKey_injective h,
    fun k => rfl, ?_⟩
  · exact toDigitsCore_hex (epoch + 1) epoch
  · exact toDigitsCore_head (epoch + 1) epoch (Nat.lt_succ_self epoch)
  · intro ks k chainID projectID providerAddress usedCU uniqueIdentifier hretained
    refine ⟨⟨entryWithKey (k.GetEpochPaymentsCached (epochPaymentKey epoch))
      (epochPaymentKey epoch) (ks.GetProviderPaymentStorageKey chainID epoch providerAddress),
      ?_, ?_, ?_⟩, fun index hne => ?_⟩
    · rw [EpochPaymentHandler.AddEpochPayment_entries ks k chainID epoch projectID
        providerAddress usedCU uniqueIdentifier hretained, if_pos rfl]
    · exact entryWithKey_Index _ (fun ep hep => KVStore.cacheGet_index hep)
    · exact mem_entryWithKey _ _ _
    · rw [EpochPaymentHandler.AddEpochPayment_entries ks k chainID epoch projectID
        providerAddress usedCU uniqueIdentifier hretained, if_neg hne]

/-- Witness of C26: the key of the epoch 255 is `ff`, that of the epoch 4096 is `1000`,
and the first call of the scenario leaves the entry of the epoch 7 under the key `7`. -/
theorem epochPaymentKey_hex_witness :
    epochPaymentKey 255 = "ff" ∧ epochPaymentKey 4096 = "1000" ∧ epochPaymentKey 0 = "0" ∧
    hexValue (epochPaymentKey 48879).data = 48879 ∧
    ∀ index, index ≠ epochPaymentKey 7 →
      (EpochPaymentHandler.AddEpochPayment sampleKeys (emptyKeeper 0).NewEpochPaymentHandler
        "LAV1" 7 "c1" "p1" 50 "r1").1.GetEpochPaymentsCached index
        = (emptyKeeper 0).NewEpochPaymentHandler.GetEpochPaymentsCached index :=
  ⟨by decide, by decide, by decide, (epochPaymentKey_hex 48879).2.2.1,
    ((epochPaymentKey_hex 7).2.2.2.2.2 sampleKeys (emptyKeeper 0).NewEpochPaymentHandler
      "LAV1" "c1" "p1" 50 "r1" (by decide)).2⟩

/-! ## The overlay of a handler -/

namespace EpochPaymentHandler

theorem Flush_GetEpochPayments (k : EpochPaymentHandler) (index : String) :
    k.Flush.keeper.GetEpochPayments index = k.GetEpochPaymentsCached index := rfl

theorem GetEpochPaymentsCached_Set (k : EpochPaymentHandler) (epochPayments : EpochPayments)
    (index : String) :
    (k.SetEpochPaymentsCached epochPayments).GetEpochPaymentsCached index
      = if index = epochPayments.Index then some epochPayments
        else k.GetEpochPaymentsCached index :=
  KVStore.cacheGet_Set _ _ _ _

theorem SetEpochPaymentsCached_keeper (k : EpochPaymentHandler)
    (epochPayments : EpochPayments) :
    (k.SetEpochPaymentsCached epochPayments).keeper = k.keeper := rfl

/-- The read after a sequence of cached writes: the last write under the index, if any. -/
theorem GetEpochPaymentsCached_foldl (writes : List EpochPayments) (k : EpochPaymentHandler)
    (index : String) :
    (writes.foldl SetEpochPaymentsCached k).GetEpochPaymentsCached index
      = match writes.reverse.find? (fun e => decide (e.Index = index)) with
        | some e => some e
        | none => k.GetEpochPaymentsCached index := by
  induction writes generalizing k with
  | nil => rfl
  | cons e rest ih =>
    rw [List.foldl_cons, ih, List.reverse_cons, List.find?_append]
    cases hfind : rest.reverse.find? (fun e => decide (e.Index = index)) with
    | some found => rfl
    | none =>
      rw [GetEpochPaymentsCached_Set]
      by_cases he : e.Index = index
      · have : index = e.Index := he.symm
        rw [if_pos this]
        simp [List.find?, he]
      · have : ¬ index = e.Index := fun h => he h.symm
        rw [if_neg this]
        simp [List.find?, he]

/-- C27: a sequence of calls of `AddEpochPayment` on a handler, with no `Flush`, leaves
the keeper under the handler as it was, so every entry read by `GetEpochPayments` is what
it was; `Flush` is what brings the entries of the overlay to the store: after it
`GetEpochPayments` reads what `GetEpochPaymentsCached` read before it. -/
theorem recordAll_unflushed (ks : KeyScheme) (k : EpochPaymentHandler)
    (calls : List UsageCall) :
    (k.recordAll ks calls).keeper = k.keeper ∧
    (∀ index, (k.recordAll ks calls).keeper.GetEpochPayments index
      = k.keeper.GetEpochPayments index) ∧
    (∀ index, (k.recordAll ks calls).Flush.keeper.GetEpochPayments index
      = (k.recordAll ks calls).GetEpochPaymentsCached index) := by
  have h := recordAll_keeper ks k calls
  refine ⟨h, fun index => ?_, fun index => rfl⟩
  rw [h]

/-- C28: a read through the overlay returns the entry written last under the index by
`SetEpochPaymentsCached` on the handler, before any `Flush`; with no such write it is the
read of the handler before the writes, which with nothing in the overlay under the index
is the read of the store; it finds nothing exactly when neither the overlay nor the store
holds the index. A second call of `AddEpochPayment` for an epoch reads the entry that the
first call wrote, so the entry it leaves lists the provider payment storage key of the
first call as well as its own. -/
theorem GetEpochPaymentsCached_overlay (k : EpochPaymentHandler) (index : String) :
    (∀ writes : List EpochPayments,
      (writes.foldl SetEpochPaymentsCached k).GetEpochPaymentsCached index
        = match writes.reverse.find? (fun e => decide (e.Index = index)) with
          | some e => some e
          | none => k.GetEpochPaymentsCached index) ∧
    (∀ epochPayments : EpochPayments, epochPayments.Index = index →
      (k.SetEpochPaymentsCached epochPayments).GetEpochPaymentsCached index
        = some epochPayments ∧
      (k.SetEpochPaymentsCached epochPayments).keeper.GetEpochPayments index
        = k.keeper.GetEpochPayments index) ∧
    (k.EpochPaymentsCache.Get index = none →
      k.GetEpochPaymentsCached index = k.keeper.GetEpochPayments index) ∧
    (k.GetEpochPaymentsCached index = none ↔
      k.EpochPaymentsCache.Get index = none ∧ k.keeper.GetEpochPayments index = none) ∧
    (∀ (ks : KeyScheme) (chainID : String) (epoch : Nat)
        (projectID projectID2 providerAddress providerAddress2 : String) (usedCU usedCU2 : Nat)
        (uniqueIdentifier uniqueIdentifier2 : String),
      k.keeper.earliestEpochStart ≤ epoch →
      ∃ first second,
        (AddEpochPayment ks k chainID epoch projectID providerAddress usedCU
          uniqueIdentifier).1.GetEpochPaymentsCached (epochPaymentKey epoch) = some first ∧
        (AddEpochPayment ks
          (AddEpochPayment ks k chainID epoch projectID providerAddress usedCU
            uniqueIdentifier).1
          chainID epoch projectID2 providerAddress2 usedCU2
          uniqueIdentifier2).1.GetEpochPaymentsCached (epochPaymentKey epoch) = some second ∧
        second = entryWithKey (some first) (epochPaymentKey epoch)
          (ks.GetProviderPaymentStorageKey chainID epoch providerAddress2) ∧
        ks.GetProviderPaymentStorageKey chainID epoch providerAddress
          ∈ second.ProviderPaymentStorageKeys ∧
        ks.GetProviderPaymentStorageKey chainID epoch providerAddress2
          ∈ second.ProviderPaymentStorageKeys) := by
  refine ⟨fun writes => GetEpochPaymentsCached_foldl writes k index, ?_, ?_, ?_, ?_⟩
  · intro epochPayments hindex
    refine ⟨?_, rfl⟩
    rw [GetEpochPaymentsCached_Set, if_pos hindex.symm]
  · intro hnone
    show KVStore.cacheGet k.EpochPaymentsCache k.keeper.epochPayments index = _
    unfold KVStore.cacheGet
    rw [hnone]
    rfl
  · show KVStore.cacheGet k.EpochPaymentsCache k.keeper.epochPayments index = none ↔ _
    unfold KVStore.cacheGet
    cases hc : k.EpochPaymentsCache.Get index with
    | none => exact ⟨fun h => ⟨rfl, h⟩, fun h => h.2⟩
    | some v =>
      exact ⟨fun h => absurd h (Option.some_ne_none v), fun h => absurd h.1 (Option.some_ne_none v)⟩
  · intro ks chainID epoch projectID projectID2 providerAddress providerAddress2 usedCU usedCU2
      uniqueIdentifier uniqueIdentifier2 hretained
    have hkeeper := AddEpochPayment_keeper ks k chainID epoch projectID providerAddress usedCU
      uniqueIdentifier
    have hfirst := AddEpochPayment_entries ks k chainID epoch projectID providerAddress usedCU
      uniqueIdentifier hretained (epochPaymentKey epoch)
    rw [if_pos rfl] at hfirst
    have hretained2 : (AddEpochPayment ks k chainID epoch projectID providerAddress usedCU
        uniqueIdentifier).1.keeper.earliestEpochStart ≤ epoch := by
      rw [hkeeper]
      exact hretained
    have hsecond := AddEpochPayment_entries ks _ chainID epoch projectID2 providerAddress2
      usedCU2 uniqueIdentifier2 hretained2 (epochPaymentKey epoch)
    rw [if_pos rfl, hfirst] at hsecond
    refine ⟨_, _, hfirst, hsecond, rfl, ?_, mem_entryWithKey _ _ _⟩
    exact mem_entryWithKey_of_mem _ _ (mem_entryWithKey _ _ _)

end EpochPaymentHandler

/-- Witness of C27: after the two calls of the scenario the store has no entry for the
epoch 7 while the overlay has one, and the store has it after `Flush`. -/
theorem recordAll_unflushed_witness :
    ((emptyKeeper 0).NewEpochPaymentHandler.recordAll sampleKeys
        [scenarioCall1, scenarioCall2]).keeper.GetEpochPayments (epochPaymentKey 7) = none ∧
    ((emptyKeeper 0).NewEpochPaymentHandler.recordAll sampleKeys
        [scenarioCall1, scenarioCall2]).Flush.keeper.GetEpochPayments (epochPaymentKey 7)
      = some { Index := epochPaymentKey 7
               ProviderPaymentStorageKeys :=
                 [sampleKeys.GetProviderPaymentStorageKey "LAV1" 7 "p1"] } :=
  ⟨((EpochPaymentHandler.recordAll_unflushed sampleKeys
      (emptyKeeper 0).NewEpochPaymentHandler [scenarioCall1, scenarioCall2]).2.1
      (epochPaymentKey 7)).trans (by decide),
    by decide⟩

/-- Witness of C28: on an empty ledger, after usage of provider `p1` and then of provider
`p2` in epoch 7, with no `Flush`, the entry of the epoch lists the two provider payment
storage keys. -/
theorem GetEpochPaymentsCached_overlay_witness :
    ∃ first second,
      (EpochPaymentHandler.AddEpochPayment sampleKeys (emptyKeeper 0).NewEpochPaymentHandler
        "LAV1" 7 "c1" "p1" 50 "r1").1.GetEpochPaymentsCached (epochPaymentKey 7)
        = some first ∧
      (EpochPaymentHandler.AddEpochPayment sampleKeys
        (EpochPaymentHandler.AddEpochPayment sampleKeys (emptyKeeper 0).NewEpochPaymentHandler
          "LAV1" 7 "c1" "p1" 50 "r1").1
        "LAV1" 7 "c2" "p2" 20 "r3").1.GetEpochPaymentsCached (epochPaymentKey 7)
        = some second ∧
      second = entryWithKey (some first) (epochPaymentKey 7)
        (sampleKeys.GetProviderPaymentStorageKey "LAV1" 7 "p2") ∧
      sampleKeys.GetProviderPaymentStorageKey "LAV1" 7 "p1"
        ∈ second.ProviderPaymentStorageKeys ∧
      sampleKeys.GetProviderPaymentStorageKey "LAV1" 7 "p2"
        ∈ second.ProviderPaymentStorageKeys :=
  (EpochPaymentHandler.GetEpochPaymentsCached_overlay (emptyKeeper 0).NewEpochPaymentHandler
    (epochPaymentKey 7)).2.2.2.2 sampleKeys "LAV1" 7 "c1" "c2" "p1" "p2" 50 20 "r1" "r3"
    (by decide)

/-! ## Lookup in the api registry -/

theorem getSupportedApi_of_stored (apip : Option RestChainParser)
    (name connectionType : String) :
    getSupportedApi apip name connectionType
      = match storedApi apip name connectionType with
        | none => .error (.NotFound name)
        | some apiCont => if apiCont.api.Enabled then .ok apiCont else .error .Disabled := by
  cases apip with
  | none => rfl
  | some parser => rfl

/-- C29: for every registry, name and connection type, `getSupportedApi` returns a
container without error exactly when that container is stored under the key of the name
and the connection type and its api is enabled; it fails with the error of text
`rest api not supported` followed by the name exactly when nothing is stored under the
key, and with the error of text `api is disabled` exactly when a container is stored whose
api is not enabled. -/
theorem getSupportedApi_iff (apip : Option RestChainParser) (name connectionType : String) :
    (∀ apiCont, getSupportedApi apip name connectionType = .ok apiCont ↔
      storedApi apip name connectionType = some apiCont ∧ apiCont.api.Enabled = true) ∧
    (getSupportedApi apip name connectionType = .error (.NotFound name) ↔
      storedApi apip name connectionType = none) ∧
    (getSupportedApi apip name connectionType = .error .Disabled ↔
      ∃ apiCont, storedApi apip name connectionType = some apiCont ∧
        apiCont.api.Enabled = false) ∧
    (LookupError.NotFound name).Error = "rest api not supported " ++ name ∧
    LookupError.Disabled.Error = "api is disabled" := by
  rw [getSupportedApi_of_stored]
  cases hstored : storedApi apip name connectionType with
  | none =>
    refine ⟨fun apiCont => ⟨fun h => ?_, fun h => ?_⟩, ⟨fun _ => rfl, fun _ => rfl⟩,
      ⟨fun h => ?_, fun h => ?_⟩, rfl, rfl⟩
    · cases h
    · cases h.1
    · cases h
    · obtain ⟨c, hc, -⟩ := h
      cases hc
  | some found =>
    by_cases hen : found.api.Enabled = true
    · dsimp only
      rw [if_pos hen]
      refine ⟨fun apiCont => ⟨fun h => ?_, fun h => ?_⟩, ⟨fun h => ?_, fun h => ?_⟩,
        ⟨fun h => ?_, fun h => ?_⟩, rfl, rfl⟩
      · cases h
        exact ⟨rfl, hen⟩
      · cases h.1
        rfl
      · cases h
      · cases h
      · cases h
      · obtain ⟨c, hc, hdis⟩ := h
        cases hc
        rw [hen] at hdis
        cases hdis
    · have hdis : found.api.Enabled = false := Bool.not_eq_true _ ▸ hen
      dsimp only
      rw [if_neg hen]
      refine ⟨fun apiCont => ⟨fun h => ?_, fun h => ?_⟩, ⟨fun h => ?_, fun h => ?_⟩,
        ⟨fun _ => ⟨found, rfl, hdis⟩, fun _ => rfl⟩, rfl, rfl⟩
      · cases h
      · obtain ⟨hc, hen2⟩ := h
        cases hc
        rw [hdis] at hen2
        cases hen2
      · cases h
      · cases h

/-- Witness of C29: the three cases of `TestRestGetSupportedApi`. -/
theorem getSupportedApi_iff_witness :
    getSupportedApi (some (testParser true)) "API1" "test"
      = .ok { api := { Name := "API1", Enabled := true, ComputeUnits := 0, TimeoutMs := 0 }
              collectionKey := { ConnectionType := "test", InternalPath := "", Addon := "" } } ∧
    getSupportedApi (some (testParser true)) "API2" "test" = .error (.NotFound "API2") ∧
    (LookupError.NotFound "API2").Error = "rest api not supported API2" ∧
    getSupportedApi (some (testParser false)) "API1" "test" = .error .Disabled :=
  ⟨((getSupportedApi_iff (some (testParser true)) "API1" "test").1 _).2 ⟨by decide, rfl⟩,
    (getSupportedApi_iff (some (testParser true)) "API2" "test").2.1.2 (by decide),
    by decide,
    (getSupportedApi_iff (some (testParser false)) "API1" "test").2.2.1.2
      ⟨{ api := { Name := "API1", Enabled := false, ComputeUnits := 0, TimeoutMs := 0 }
         collectionKey := { ConnectionType := "test", InternalPath := "", Addon := "" } },
        by decide, rfl⟩⟩

/-- C30: on a parser that was not constructed, and on the zero value of a parser,
`SetSpec`, `DataReliabilityParams`, `ChainBlockStats`, `getSupportedApi` and `ParseMsg`
return: the accessors return zero results, and for every name and connection type
`getSupportedApi` and `ParseMsg` return the error `NotFound` and no container. -/
theorem getSupportedApi_unconstructed (name connectionType : String) (spec : Spec)
    (data : List Nat) :
    SetSpec none spec = none ∧
    DataReliabilityParams none = (false, 0) ∧
    ChainBlockStats none = (0, 0, 0, 0) ∧
    getSupportedApi none name connectionType = .error (.NotFound name) ∧
    ParseMsg none name data connectionType = .error (.NotFound name) ∧
    (∀ apiCont, getSupportedApi none name connectionType ≠ .ok apiCont) ∧
    SetSpec (some RestChainParser.zero) spec = some { RestChainParser.zero with spec := spec } ∧
    DataReliabilityParams (some RestChainParser.zero) = (false, 0) ∧
    ChainBlockStats (some RestChainParser.zero) = (0, 0, 0, 0) ∧
    getSupportedApi (some RestChainParser.zero) name connectionType
      = .error (.NotFound name) ∧
    ParseMsg (some RestChainParser.zero) name data connectionType
      = .error (.NotFound name) ∧
    (∀ apiCont, getSupportedApi (some RestChainParser.zero) name connectionType
      ≠ .ok apiCont) :=
  ⟨rfl, rfl, rfl, rfl, rfl, (fun _ h => by cases h), rfl, rfl, (by decide), rfl, rfl,
    (fun _ h => by cases h)⟩

/-! ## The retirement of an epoch that has no entry -/

namespace Keeper

/-- C32: for an epoch with no entry in the store the retirement returns the keeper as it
is, so that no entry, provider payment storage or record is deleted, appends no
adjustment and makes no call on the store. -/
theorem RemoveAllEpochPaymentsForBlockAppendAdjustments_no_entry (ks : KeyScheme)
    (k : Keeper) (blockForDelete : Nat)
    (hnone : k.GetEpochPayments (epochPaymentKey blockForDelete) = none) :
    RemoveAllEpochPaymentsForBlockAppendAdjustments ks k blockForDelete = (k, []) ∧
    (∀ index, (RemoveAllEpochPaymentsForBlockAppendAdjustments ks k
        blockForDelete).1.GetEpochPayments index = k.GetEpochPayments index) ∧
    (∀ index, (RemoveAllEpochPaymentsForBlockAppendAdjustments ks k
        blockForDelete).1.GetProviderPaymentStorage index
      = k.GetProviderPaymentStorage index) ∧
    (∀ index, (RemoveAllEpochPaymentsForBlockAppendAdjustments ks k
        blockForDelete).1.GetUniquePaymentStorageClientProvider index
      = k.GetUniquePaymentStorageClientProvider index) ∧
    (RemoveAllEpochPaymentsForBlockAppendAdjustments ks k blockForDelete).2 = [] ∧
    removalCalls ks k blockForDelete = [] := by
  have hfrom : k.GetEpochPaymentsFromBlock blockForDelete
      = (none, epochPaymentKey blockForDelete) := by
    unfold GetEpochPaymentsFromBlock
    rw [hnone]
  have hcall : RemoveAllEpochPaymentsForBlockAppendAdjustments ks k blockForDelete
      = (k, []) := by
    unfold RemoveAllEpochPaymentsForBlockAppendAdjustments
    rw [hfrom]
  have hcalls : removalCalls ks k blockForDelete = [] := by
    unfold removalCalls
    rw [hfrom]
  rw [hcall]
  exact ⟨rfl, fun _ => rfl, fun _ => rfl, fun _ => rfl, rfl, hcalls⟩

/-- Witness of C32: the ledger of the scenario has no entry for the epoch 9, and its
retirement leaves the ledger as it is and appends nothing. -/
theorem RemoveAllEpochPaymentsForBlockAppendAdjustments_no_entry_witness :
    RemoveAllEpochPaymentsForBlockAppendAdjustments sampleKeys scenarioKeeper 9
      = (scenarioKeeper, []) ∧
    scenarioKeeper.GetEpochPayments (epochPaymentKey 7)
      = some { Index := epochPaymentKey 7
               ProviderPaymentStorageKeys :=
                 [sampleKeys.GetProviderPaymentStorageKey "LAV1" 7 "p1"] } :=
  ⟨(RemoveAllEpochPaymentsForBlockAppendAdjustments_no_entry sampleKeys scenarioKeeper 9
      (by decide)).1,
    by decide⟩

end Keeper

/-! ## The pair returned for two requested blocks holds the two operands -/

/-- C33: for all operands a and b, negative numbers that are no tag included, the pair
returned is (a, b) or (b, a): its two components are the two operands, and for equal
operands the pair is (a, a). -/
theorem CompareRequestedBlockInBatch_operands (tags : BlockTags) (a b : Int) :
    (CompareRequestedBlockInBatch tags a b = (a, b) ∨
      CompareRequestedBlockInBatch tags a b = (b, a)) ∧
    CompareRequestedBlockInBatch tags a a = (a, a) := by
  have hpair : ∀ x y : Int, CompareRequestedBlockInBatch tags x y = (x, y) ∨
      CompareRequestedBlockInBatch tags x y = (y, x) := by
    intro x y
    unfold CompareRequestedBlockInBatch returnBigger
    split_ifs <;> first | exact Or.inl rfl | exact Or.inr rfl
  refine ⟨hpair a b, ?_⟩
  rcases hpair a a with h | h <;> exact h

/-! ## The records that a retirement deletes and the records that it counts -/

namespace Keeper

theorem countUniquePayments_cons (ks : KeyScheme) (blockForDelete : Nat)
    (providerPaymentStorage : ProviderPaymentStorage) (k : Keeper) (key : String)
    (rest : List String) :
    countUniquePayments ks blockForDelete providerPaymentStorage k (key :: rest)
      = ((countUniquePayments ks blockForDelete providerPaymentStorage
            (countUniquePayment ks blockForDelete providerPaymentStorage k key).1 rest).1,
         (countUniquePayment ks blockForDelete providerPaymentStorage k key).2.toList ++
           (countUniquePayments ks blockForDelete providerPaymentStorage
            (countUniquePayment ks blockForDelete providerPaymentStorage k key).1 rest).2) :=
  rfl

/-- A record that is in the store after one step of the scan was there before it. -/
theorem countUniquePayment_still (ks : KeyScheme) (blockForDelete : Nat)
    (providerPaymentStorage : ProviderPaymentStorage) (k : Keeper) (key u : String)
    (r : UniquePaymentStorageClientProvider)
    (h : (countUniquePayment ks blockForDelete providerPaymentStorage k
      key).1.GetUniquePaymentStorageClientProvider u = some r) :
    k.GetUniquePaymentStorageClientProvider u = some r := by
  rcases countUniquePayment_only_deletes ks blockForDelete providerPaymentStorage k key u
    with h2 | h2
  · rw [← h2]
    exact h
  · rw [h2] at h
    cases h

theorem countProviderPayments_still (ks : KeyScheme) (blockForDelete : Nat)
    (keys : List String) (k : Keeper) (u : String) (r : UniquePaymentStorageClientProvider)
    (h : (countProviderPayments ks blockForDelete k
      keys).1.GetUniquePaymentStorageClientProvider u = some r) :
    k.GetUniquePaymentStorageClientProvider u = some r := by
  rcases countProviderPayments_only_deletes ks blockForDelete keys k u with h2 | h2
  · rw [← h2]
    exact h
  · rw [h2] at h
    cases h

/-- The record that one step of the scan counts: it was stored under the key of the step
with the counted usage and a block within the block for delete, the step deletes it, and
its pair is the consumer of the key and the provider read from the storage. -/
theorem countUniquePayment_counted (ks : KeyScheme) (blockForDelete : Nat)
    (providerPaymentStorage : ProviderPaymentStorage) (k : Keeper) (key : String)
    (c : CountedRecord)
    (hc : c ∈ (countUniquePayment ks blockForDelete providerPaymentStorage k key).2.toList) :
    c.key = key ∧
    (∃ r, k.GetUniquePaymentStorageClientProvider key = some r ∧ r.UsedCU = c.usedCU ∧
      r.Block ≤ blockForDelete) ∧
    (countUniquePayment ks blockForDelete providerPaymentStorage k
      key).1.GetUniquePaymentStorageClientProvider key = none ∧
    c.coupling.consumer = ks.GetConsumerFromUniquePayment key ∧
    ks.GetProviderFromProviderPaymentStorage providerPaymentStorage
      = some c.coupling.provider := by
  cases hg : k.GetUniquePaymentStorageClientProvider key with
  | none =>
    rw [countUniquePayment_none ks blockForDelete providerPaymentStorage hg] at hc
    exact absurd hc (List.not_mem_nil c)
  | some r =>
    by_cases hb : r.Block > blockForDelete
    · rw [countUniquePayment_beyond ks providerPaymentStorage hg hb] at hc
      exact absurd hc (List.not_mem_nil c)
    · rw [countUniquePayment_within ks providerPaymentStorage hg hb] at hc ⊢
      cases hp : ks.GetProviderFromProviderPaymentStorage providerPaymentStorage with
      | none =>
        rw [hp] at hc
        exact absurd hc (List.not_mem_nil c)
      | some provider =>
        rw [hp] at hc
        have hceq : c = { key := key
                          coupling :=
                            { consumer := ks.GetConsumerFromUniquePayment key
                              provider := provider }
                          usedCU := r.UsedCU } := List.mem_singleton.mp hc
        subst hceq
        refine ⟨rfl, ⟨r, rfl, rfl, Nat.not_lt.mp hb⟩, ?_, rfl, rfl⟩
        show (k.RemoveUniquePaymentStorageClientProvider
          key).GetUniquePaymentStorageClientProvider key = none
        rw [GetUnique_RemoveUnique, if_pos rfl]

/-- A record that one step of the scan deletes is counted by the step when the provider of
the storage can be read. -/
theorem countUniquePayment_deleted (ks : KeyScheme) (blockForDelete : Nat)
    (providerPaymentStorage : ProviderPaymentStorage) (k : Keeper) (key u : String)
    (r : UniquePaymentStorageClientProvider) (provider : String)
    (hp : ks.GetProviderFromProviderPaymentStorage providerPaymentStorage = some provider)
    (hr : k.GetUniquePaymentStorageClientProvider u = some r)
    (hgone : (countUniquePayment ks blockForDelete providerPaymentStorage k
      key).1.GetUniquePaymentStorageClientProvider u = none) :
    (countUniquePayment ks blockForDelete providerPaymentStorage k key).2
      = some { key := u
               coupling :=
                 { consumer := ks.GetConsumerFromUniquePayment u, provider := provider }
               usedCU := r.UsedCU } := by
  by_cases hu : u = key
  · subst hu
    by_cases hb : r.Block > blockForDelete
    · rw [countUniquePayment_beyond ks providerPaymentStorage hr hb] at hgone
      rw [hr] at hgone
      cases hgone
    · rw [countUniquePayment_within ks providerPaymentStorage hr hb, hp]
      rfl
  · rw [(countUniquePayment_frame ks blockForDelete providerPaymentStorage k key).2 u hu,
      hr] at hgone
    cases hgone

/-- The records counted under the keys of one storage were stored with the counted usage
and are gone after the scan of the keys. -/
theorem countUniquePayments_counted (ks : KeyScheme) (blockForDelete : Nat)
    (providerPaymentStorage : ProviderPaymentStorage) (keys : List String) (k : Keeper)
    (c : CountedRecord)
    (hc : c ∈ (countUniquePayments ks blockForDelete providerPaymentStorage k keys).2) :
    (∃ r, k.GetUniquePaymentStorageClientProvider c.key = some r ∧ r.UsedCU = c.usedCU ∧
      r.Block ≤ blockForDelete) ∧
    (countUniquePayments ks blockForDelete providerPaymentStorage k
      keys).1.GetUniquePaymentStorageClientProvider c.key = none ∧
    c.coupling.consumer = ks.GetConsumerFromUniquePayment c.key := by
  induction keys generalizing k with
  | nil => exact absurd hc (List.not_mem_nil c)
  | cons key rest ih =>
    rw [countUniquePayments_cons] at hc ⊢
    rcases List.mem_append.mp hc with h | h
    · obtain ⟨hkey, hstored, hgone, hcons, -⟩ :=
        countUniquePayment_counted ks blockForDelete providerPaymentStorage k key c h
      rw [hkey]
      refine ⟨hstored, ?_, hcons⟩
      rcases countUniquePayments_only_deletes ks blockForDelete providerPaymentStorage rest
        (countUniquePayment ks blockForDelete providerPaymentStorage k key).1 key with h2 | h2
      · exact h2.trans hgone
      · exact h2
    · obtain ⟨⟨r, hr, hcu, hb⟩, hgone, hcons⟩ := ih _ h
      exact ⟨⟨r, countUniquePayment_still ks blockForDelete providerPaymentStorage k key _ r hr,
        hcu, hb⟩, hgone, hcons⟩

/-- A record that the scan of the keys of one storage deletes is counted by it when the
provider of the storage can be read. -/
theorem countUniquePayments_deleted (ks : KeyScheme) (blockForDelete : Nat)
    (providerPaymentStorage : ProviderPaymentStorage) (provider : String)
    (hp : ks.GetProviderFromProviderPaymentStorage providerPaymentStorage = some provider)
    (keys : List String) (k : Keeper) (u : String) (r : UniquePaymentStorageClientProvider)
    (hr : k.GetUniquePaymentStorageClientProvider u = some r)
    (hgone : (countUniquePayments ks blockForDelete providerPaymentStorage k
      keys).1.GetUniquePaymentStorageClientProvider u = none) :
    ({ key := u
       coupling := { consumer := ks.GetConsumerFromUniquePayment u, provider := provider }
       usedCU := r.UsedCU } : CountedRecord)
      ∈ (countUniquePayments ks blockForDelete providerPaymentStorage k keys).2 := by
  induction keys generalizing k with
  | nil =>
    have hsame : (countUniquePayments ks blockForDelete providerPaymentStorage k
        []).1.GetUniquePaymentStorageClientProvider u
        = k.GetUniquePaymentStorageClientProvider u := rfl
    rw [hsame, hr] at hgone
    cases hgone
  | cons key rest ih =>
    rw [countUniquePayments_cons] at hgone ⊢
    rcases countUniquePayment_only_deletes ks blockForDelete providerPaymentStorage k key u
      with h | h
    · exact List.mem_append_right _ (ih _ (h.trans hr) hgone)
    · apply List.mem_append_left
      rw [countUniquePayment_deleted ks blockForDelete providerPaymentStorage k key u r provider
        hp hr h]
      exact List.mem_singleton.mpr rfl

theorem toList_map_key_nodup (o : Option CountedRecord) :
    (o.toList.map CountedRecord.key).Nodup := by
  cases o with
  | none => exact List.nodup_nil
  | some c => exact List.nodup_singleton _

/-- No key is counted twice under the keys of one storage. -/
theorem countUniquePayments_nodup (ks : KeyScheme) (blockForDelete : Nat)
    (providerPaymentStorage : ProviderPaymentStorage) (keys : List String) (k : Keeper) :
    ((countUniquePayments ks blockForDelete providerPaymentStorage k keys).2.map
      CountedRecord.key).Nodup := by
  induction keys generalizing k with
  | nil => exact List.nodup_nil
  | cons key rest ih =>
    rw [countUniquePayments_cons, List.map_append]
    refine List.Nodup.append (toList_map_key_nodup _) (ih _) ?_
    intro a ha1 ha2
    obtain ⟨c1, hc1, rfl⟩ := List.mem_map.mp ha1
    obtain ⟨c2, hc2, hkeys⟩ := List.mem_map.mp ha2
    obtain ⟨hkey, -, hgone, -, -⟩ :=
      countUniquePayment_counted ks blockForDelete providerPaymentStorage k key c1 hc1
    obtain ⟨⟨r, hr, -, -⟩, -, -⟩ :=
      countUniquePayments_counted ks blockForDelete providerPaymentStorage rest _ c2 hc2
    rw [hkeys, hkey, hgone] at hr
    cases hr

/-- Nothing is counted under the keys of a storage whose provider cannot be read. -/
theorem countUniquePayments_unresolved (ks : KeyScheme) (blockForDelete : Nat)
    (providerPaymentStorage : ProviderPaymentStorage)
    (hp : ks.GetProviderFromProviderPaymentStorage providerPaymentStorage = none)
    (keys : List String) (k : Keeper) :
    (countUniquePayments ks blockForDelete providerPaymentStorage k keys).2 = [] := by
  induction keys generalizing k with
  | nil => rfl
  | cons key rest ih =>
    rw [countUniquePayments_cons, ih]
    have hstep : (countUniquePayment ks blockForDelete providerPaymentStorage k key).2
        = none := by
      cases hc : (countUniquePayment ks blockForDelete providerPaymentStorage k key).2 with
      | none => rfl
      | some c =>
        have hmem : c ∈ (countUniquePayment ks blockForDelete providerPaymentStorage k
            key).2.toList := by
          rw [hc]
          exact List.mem_singleton.mpr rfl
        have := (countUniquePayment_counted ks blockForDelete providerPaymentStorage k key c
          hmem).2.2.2.2
        rw [hp] at this
        cases this
    rw [hstep]
    rfl

/-- The records counted by the step of the scan for one key of the entry. -/
theorem countProviderPayments_single_records (ks : KeyScheme) (blockForDelete : Nat)
    (k : Keeper) (key : String) :
    (countProviderPayments ks blockForDelete k [key]).2
      = match k.GetProviderPaymentStorage key with
        | none => []
        | some st =>
          (countUniquePayments ks blockForDelete st k
            st.UniquePaymentStorageClientProviderKeys).2 := by
  simp only [countProviderPayments]
  cases k.GetProviderPaymentStorage key with
  | none => rfl
  | some st => exact List.append_nil _

/-- The records counted by the scan of the keys of an entry were stored with the counted
usage and are gone after the scan. -/
theorem countProviderPayments_counted (ks : KeyScheme) (blockForDelete : Nat)
    (keys : List String) (k : Keeper) (c : CountedRecord)
    (hc : c ∈ (countProviderPayments ks blockForDelete k keys).2) :
    (∃ r, k.GetUniquePaymentStorageClientProvider c.key = some r ∧ r.UsedCU = c.usedCU ∧
      r.Block ≤ blockForDelete) ∧
    (countProviderPayments ks blockForDelete k
      keys).1.GetUniquePaymentStorageClientProvider c.key = none ∧
    c.coupling.consumer = ks.GetConsumerFromUniquePayment c.key := by
  induction keys generalizing k with
  | nil => exact absurd hc (List.not_mem_nil c)
  | cons key rest ih =>
    rw [countProviderPayments_cons] at hc ⊢
    simp only at hc ⊢
    rcases List.mem_append.mp hc with h | h
    · rw [countProviderPayments_single_records] at h
      cases hg : k.GetProviderPaymentStorage key with
      | none =>
        rw [hg] at h
        exact absurd h (List.not_mem_nil c)
      | some st =>
        rw [hg] at h
        obtain ⟨hstored, hgone, hcons⟩ := countUniquePayments_counted ks blockForDelete st _ k c h
        refine ⟨hstored, ?_, hcons⟩
        have hstep : (countProviderPayments ks blockForDelete k
            [key]).1.GetUniquePaymentStorageClientProvider c.key = none := by
          rw [countProviderPayments_single_unique, hg]
          exact hgone
        rcases countProviderPayments_only_deletes ks blockForDelete rest
          (countProviderPayments ks blockForDelete k [key]).1 c.key with h2 | h2
        · exact h2.trans hstep
        · exact h2
    · obtain ⟨⟨r, hr, hcu, hb⟩, hgone, hcons⟩ := ih _ h
      exact ⟨⟨r, countProviderPayments_still ks blockForDelete [key] k _ r hr, hcu, hb⟩,
        hgone, hcons⟩

/-- A record that the scan of the keys of an entry deletes is counted by it when the
provider of every storage found under these keys can be read. -/
theorem countProviderPayments_deleted (ks : KeyScheme) (blockForDelete : Nat)
    (keys : List String) (k : Keeper)
    (hres : ∀ s ∈ keys, ∀ st, k.GetProviderPaymentStorage s = some st →
      ∃ provider, ks.GetProviderFromProviderPaymentStorage st = some provider)
    (u : String) (r : UniquePaymentStorageClientProvider)
    (hr : k.GetUniquePaymentStorageClientProvider u = some r)
    (hgone : (countProviderPayments ks blockForDelete k
      keys).1.GetUniquePaymentStorageClientProvider u = none) :
    ∃ c ∈ (countProviderPayments ks blockForDelete k keys).2,
      c.key = u ∧ c.usedCU = r.UsedCU ∧
      c.coupling.consumer = ks.GetConsumerFromUniquePayment u := by
  induction keys generalizing k with
  | nil =>
    have hsame : (countProviderPayments ks blockForDelete k
        []).1.GetUniquePaymentStorageClientProvider u
        = k.GetUniquePaymentStorageClientProvider u := rfl
    rw [hsame, hr] at hgone
    cases hgone
  | cons key rest ih =>
    rw [countProviderPayments_cons] at hgone ⊢
    simp only at hgone ⊢
    rcases countProviderPayments_only_deletes ks blockForDelete [key] k u with h | h
    · have hres2 : ∀ s ∈ rest, ∀ st,
          (countProviderPayments ks blockForDelete k [key]).1.GetProviderPaymentStorage s
            = some st →
          ∃ provider, ks.GetProviderFromProviderPaymentStorage st = some provider := by
        intro s hs st hst
        rw [countProviderPayments_single_provider] at hst
        by_cases hsk : s = key
        · rw [if_pos hsk] at hst
          cases hst
        · rw [if_neg hsk] at hst
          exact hres s (List.mem_cons_of_mem _ hs) st hst
      obtain ⟨c, hc, hprops⟩ := ih _ hres2 (h.trans hr) hgone
      exact ⟨c, List.mem_append_right _ hc, hprops⟩
    · rw [countProviderPayments_single_unique] at h
      cases hg : k.GetProviderPaymentStorage key with
      | none =>
        rw [hg] at h
        simp only at h
        rw [hr] at h
        cases h
      | some st =>
        rw [hg] at h
        simp only at h
        obtain ⟨provider, hp⟩ := hres key (List.mem_cons_self _ _) st hg
        have hmem := countUniquePayments_deleted ks blockForDelete st provider hp _ k u r hr h
        refine ⟨{ key := u
                  coupling :=
                    { consumer := ks.GetConsumerFromUniquePayment u, provider := provider }
                  usedCU := r.UsedCU }, List.mem_append_left _ ?_, rfl, rfl, rfl⟩
        rw [countProviderPayments_single_records, hg]
        exact hmem

/-- No key is counted twice by the scan of the keys of an entry. -/
theorem countProviderPayments_nodup (ks : KeyScheme) (blockForDelete : Nat)
    (keys : List String) (k : Keeper) :
    ((countProviderPayments ks blockForDelete k keys).2.map CountedRecord.key).Nodup := by
  induction keys generalizing k with
  | nil => exact List.nodup_nil
  | cons key rest ih =>
    rw [countProviderPayments_cons]
    simp only
    rw [List.map_append]
    have hsingle : ((countProviderPayments ks blockForDelete k [key]).2.map
        CountedRecord.key).Nodup := by
      rw [countProviderPayments_single_records]
      cases k.GetProviderPaymentStorage key with
      | none => exact List.nodup_nil
      | some st => exact countUniquePayments_nodup ks blockForDelete st _ k
    refine List.Nodup.append hsingle (ih _) ?_
    intro a ha1 ha2
    obtain ⟨c1, hc1, rfl⟩ := List.mem_map.mp ha1
    obtain ⟨c2, hc2, hkeys⟩ := List.mem_map.mp ha2
    obtain ⟨-, hgone, -⟩ := countProviderPayments_counted ks blockForDelete [key] k c1 hc1
    obtain ⟨⟨r, hr, -, -⟩, -, -⟩ := countProviderPayments_counted ks blockForDelete rest _ c2 hc2
    rw [hkeys, hgone] at hr
    cases hr

/-- Nothing is counted by the scan of the keys of an entry when the provider of no storage
found under these keys can be read. -/
theorem countProviderPayments_unresolved (ks : KeyScheme) (blockForDelete : Nat)
    (keys : List String) (k : Keeper)
    (hres : ∀ s ∈ keys, ∀ st, k.GetProviderPaymentStorage s = some st →
      ks.GetProviderFromProviderPaymentStorage st = none) :
    (countProviderPayments ks blockForDelete k keys).2 = [] := by
  induction keys generalizing k with
  | nil => rfl
  | cons key rest ih =>
    rw [countProviderPayments_cons]
    simp only
    have hsingle : (countProviderPayments ks blockForDelete k [key]).2 = [] := by
      rw [countProviderPayments_single_records]
      cases hg : k.GetProviderPaymentStorage key with
      | none => rfl
      | some st =>
        exact countUniquePayments_unresolved ks blockForDelete st
          (hres key (List.mem_cons_self _ _) st hg) _ k
    rw [hsingle, List.nil_append]
    apply ih
    intro s hs st hst
    rw [countProviderPayments_single_provider] at hst
    by_cases hsk : s = key
    · rw [if_pos hsk] at hst
      cases hst
    · rw [if_neg hsk] at hst
      exact hres s (List.mem_cons_of_mem _ hs) st hst

end Keeper

namespace Keeper

theorem RemoveAllEpochPaymentsForBlockAppendAdjustments_unique (ks : KeyScheme) (k : Keeper)
    (blockForDelete : Nat) (u : String) :
    (RemoveAllEpochPaymentsForBlockAppendAdjustments ks k
        blockForDelete).1.GetUniquePaymentStorageClientProvider u
      = match k.GetEpochPayments (epochPaymentKey blockForDelete) with
        | none => k.GetUniquePaymentStorageClientProvider u
        | some epochPayments =>
          (countProviderPayments ks blockForDelete k
            epochPayments.ProviderPaymentStorageKeys).1.GetUniquePaymentStorageClientProvider
              u := by
  rw [RemoveAllEpochPaymentsForBlockAppendAdjustments_keeper]
  cases k.GetEpochPayments (epochPaymentKey blockForDelete) <;> rfl

/-- The adjustment of the pair of a counted record: there is one, no other adjustment has
the pair, and it carries the totals of the pair and of the consumer over the counted
records, which count the usage of the record. -/
theorem removalScan_adjustment_of_counted (ks : KeyScheme) (k : Keeper) (blockForDelete : Nat)
    (keys : List String) (c : CountedRecord)
    (hc : c ∈ (countProviderPayments ks blockForDelete k keys).2) :
    c.usedCU ≤ couplingTotal (countProviderPayments ks blockForDelete k keys).2 c.coupling ∧
    c.usedCU
      ≤ consumerTotal (countProviderPayments ks blockForDelete k keys).2 c.coupling.consumer ∧
    ∃ a ∈ appendAdjustments (removalScan ks k blockForDelete keys),
      a.coupling = c.coupling ∧
      a.couplingUsage
        = couplingTotal (countProviderPayments ks blockForDelete k keys).2 c.coupling
            % 2 ^ 64 ∧
      a.consumerUsage
        = consumerTotal (countProviderPayments ks blockForDelete k keys).2 c.coupling.consumer
            % 2 ^ 64 ∧
      ∀ b ∈ appendAdjustments (removalScan ks k blockForDelete keys),
        b.coupling = c.coupling → b = a := by
  have h := removalScan_tallied ks k blockForDelete keys
  have hmem : c.coupling ∈ (removalScan ks k blockForDelete keys).iterationOrder :=
    (h.mem c.coupling).mpr (List.mem_map_of_mem _ hc)
  refine ⟨?_, ?_, ?_⟩
  · unfold couplingTotal
    apply List.single_le_sum (fun _ _ => Nat.zero_le _)
    exact List.mem_map_of_mem _ (List.mem_filter.mpr ⟨hc, decide_eq_true rfl⟩)
  · unfold consumerTotal
    apply List.single_le_sum (fun _ _ => Nat.zero_le _)
    exact List.mem_map_of_mem _ (List.mem_filter.mpr ⟨hc, decide_eq_true rfl⟩)
  · refine ⟨{ consumer := c.coupling.consumer
              provider := c.coupling.provider
              consumerUsage :=
                (removalScan ks k blockForDelete keys).consumerUsage.read c.coupling.consumer
              couplingUsage :=
                (removalScan ks k blockForDelete keys).couplingUsage.read c.coupling },
      ?_, rfl, h.coupling c.coupling, h.consumer c.coupling.consumer, ?_⟩
    · unfold appendAdjustments
      exact List.mem_map.mpr ⟨c.coupling, hmem, rfl⟩
    · intro b hb hbc
      unfold appendAdjustments at hb
      obtain ⟨cp, -, rfl⟩ := List.mem_map.mp hb
      have hcp : cp = c.coupling := hbc
      rw [hcp]

/-- Counterexample to C31 as stated. On a ledger where the provider of a storage cannot be
read, the retirement of the epoch 7 deletes the record of 50 compute units (line 212)
before it asks for the provider (line 215), whose failure ends the iteration (line 218):
the record is gone from the store, no adjustment is appended and no record is counted. And
on the ledger with two records of `2 ^ 63` compute units for one pair both records are
deleted and the adjustment of the pair carries 0. -/
theorem RemoveAllEpochPaymentsForBlockAppendAdjustments_uncounted :
    (unresolvedKeeper.GetProviderPaymentStorage "orphan"
        = some { Index := "orphan"
                 UniquePaymentStorageClientProviderKeys :=
                   [sampleKeys.EncodeUniquePaymentKey "LAV1" 7 "c1" "p1" "r1"]
                 UsedCU := 50 } ∧
      sampleKeys.GetProviderFromProviderPaymentStorage
          { Index := "orphan"
            UniquePaymentStorageClientProviderKeys :=
              [sampleKeys.EncodeUniquePaymentKey "LAV1" 7 "c1" "p1" "r1"]
            UsedCU := 50 } = none ∧
      unresolvedKeeper.GetUniquePaymentStorageClientProvider
          (sampleKeys.EncodeUniquePaymentKey "LAV1" 7 "c1" "p1" "r1")
        = some { Index := sampleKeys.EncodeUniquePaymentKey "LAV1" 7 "c1" "p1" "r1"
                 Block := 7
                 UsedCU := 50 } ∧
      (RemoveAllEpochPaymentsForBlockAppendAdjustments sampleKeys unresolvedKeeper
          7).1.GetUniquePaymentStorageClientProvider
          (sampleKeys.EncodeUniquePaymentKey "LAV1" 7 "c1" "p1" "r1") = none ∧
      (RemoveAllEpochPaymentsForBlockAppendAdjustments sampleKeys unresolvedKeeper 7).2 = [] ∧
      countedRecords sampleKeys unresolvedKeeper 7 = [] ∧
      removalCalls sampleKeys unresolvedKeeper 7
        = [RemovalCall.removeUnique
             (sampleKeys.EncodeUniquePaymentKey "LAV1" 7 "c1" "p1" "r1"),
           RemovalCall.removeProvider "orphan",
           RemovalCall.removeEpochPayments (epochPaymentKey 7)]) ∧
    ((wrapKeeper.GetUniquePaymentStorageClientProvider
          (sampleKeys.EncodeUniquePaymentKey "LAV1" 7 "c1" "p1" "r1")).map
        UniquePaymentStorageClientProvider.UsedCU = some (2 ^ 63) ∧
      (RemoveAllEpochPaymentsForBlockAppendAdjustments sampleKeys wrapKeeper
          7).1.GetUniquePaymentStorageClientProvider
          (sampleKeys.EncodeUniquePaymentKey "LAV1" 7 "c1" "p1" "r1") = none ∧
      (RemoveAllEpochPaymentsForBlockAppendAdjustments sampleKeys wrapKeeper 7).2
        = [{ consumer := "c1", provider := "p1", consumerUsage := 0, couplingUsage := 0 }]) := by
  refine ⟨⟨?_, ?_, ?_, ?_, ?_, ?_, ?_⟩, ?_, ?_, ?_⟩ <;> decide

/-- C31 (amended): for every store state, (1) when the provider of every provider payment
storage found under a key of the entry can be read, every record that the retirement
deletes is counted: a counted record carries its key, its `UsedCU` and the consumer of its
key; (2) no key is counted twice; (3) every counted record was stored with the counted
`UsedCU` and is deleted; (4) the pair of a counted record has exactly one adjustment, whose
pair total and consumer total are the sums over the counted records of the pair and of the
consumer, modulo `2 ^ 64`, sums that count the `UsedCU` of the record; (5) when the
provider of no found storage can be read, nothing is counted and no adjustment is
appended, whatever is deleted. -/
theorem RemoveAllEpochPaymentsForBlockAppendAdjustments_deleted_counted (ks : KeyScheme)
    (k : Keeper) (blockForDelete : Nat) :
    ((∀ epochPayments,
        k.GetEpochPayments (epochPaymentKey blockForDelete) = some epochPayments →
        ∀ s ∈ epochPayments.ProviderPaymentStorageKeys, ∀ st,
          k.GetProviderPaymentStorage s = some st →
          ∃ provider, ks.GetProviderFromProviderPaymentStorage st = some provider) →
      ∀ u r, k.GetUniquePaymentStorageClientProvider u = some r →
        (RemoveAllEpochPaymentsForBlockAppendAdjustments ks k
          blockForDelete).1.GetUniquePaymentStorageClientProvider u = none →
        ∃ c ∈ countedRecords ks k blockForDelete,
          c.key = u ∧ c.usedCU = r.UsedCU ∧
          c.coupling.consumer = ks.GetConsumerFromUniquePayment u) ∧
    ((countedRecords ks k blockForDelete).map CountedRecord.key).Nodup ∧
    (∀ c ∈ countedRecords ks k blockForDelete,
      ∃ r, k.GetUniquePaymentStorageClientProvider c.key = some r ∧ r.UsedCU = c.usedCU ∧
        (RemoveAllEpochPaymentsForBlockAppendAdjustments ks k
          blockForDelete).1.GetUniquePaymentStorageClientProvider c.key = none) ∧
    (∀ c ∈ countedRecords ks k blockForDelete,
      c.usedCU ≤ couplingTotal (countedRecords ks k blockForDelete) c.coupling ∧
      c.usedCU ≤ consumerTotal (countedRecords ks k blockForDelete) c.coupling.consumer ∧
      ∃ a ∈ (RemoveAllEpochPaymentsForBlockAppendAdjustments ks k blockForDelete).2,
        a.coupling = c.coupling ∧
        a.couplingUsage
          = couplingTotal (countedRecords ks k blockForDelete) c.coupling % 2 ^ 64 ∧
        a.consumerUsage
          = consumerTotal (countedRecords ks k blockForDelete) c.coupling.consumer
              % 2 ^ 64 ∧
        ∀ b ∈ (RemoveAllEpochPaymentsForBlockAppendAdjustments ks k blockForDelete).2,
          b.coupling = c.coupling → b = a) ∧
    ((∀ epochPayments,
        k.GetEpochPayments (epochPaymentKey blockForDelete) = some epochPayments →
        ∀ s ∈ epochPayments.ProviderPaymentStorageKeys, ∀ st,
          k.GetProviderPaymentStorage s = some st →
          ks.GetProviderFromProviderPaymentStorage st = none) →
      countedRecords ks k blockForDelete = [] ∧
      (RemoveAllEpochPaymentsForBlockAppendAdjustments ks k blockForDelete).2 = []) := by
  have hunique := RemoveAllEpochPaymentsForBlockAppendAdjustments_unique ks k blockForDelete
  have hadj := RemoveAllEpochPaymentsForBlockAppendAdjustments_adjustments ks k blockForDelete
  rw [hadj]
  unfold countedRecords
  cases hentry : k.GetEpochPayments (epochPaymentKey blockForDelete) with
  | none =>
    rw [hentry] at hunique
    refine ⟨fun _ u r hr hgone => ?_, List.nodup_nil,
      fun c hc => absurd hc (List.not_mem_nil c),
      fun c hc => absurd hc (List.not_mem_nil c), fun _ => ⟨rfl, rfl⟩⟩
    rw [hunique u, hr] at hgone
    cases hgone
  | some ep =>
    rw [hentry] at hunique
    simp only at hunique ⊢
    refine ⟨fun hres u r hr hgone => ?_,
      countProviderPayments_nodup ks blockForDelete _ k, fun c hc => ?_,
      fun c hc => removalScan_adjustment_of_counted ks k blockForDelete _ c hc,
      fun hres => ?_⟩
    · rw [hunique u] at hgone
      exact countProviderPayments_deleted ks blockForDelete _ k (hres ep rfl) u r hr hgone
    · obtain ⟨⟨r, hr, hcu, -⟩, hgone, -⟩ :=
        countProviderPayments_counted ks blockForDelete _ k c hc
      exact ⟨r, hr, hcu, (hunique c.key).trans hgone⟩
    · have hnone := countProviderPayments_unresolved ks blockForDelete _ k (hres ep rfl)
      refine ⟨hnone, ?_⟩
      have h := removalScan_tallied ks k blockForDelete ep.ProviderPaymentStorageKeys
      have horder : (removalScan ks k blockForDelete
          ep.ProviderPaymentStorageKeys).iterationOrder = [] := by
        apply List.eq_nil_iff_forall_not_mem.mpr
        intro cp hcp
        have := (h.mem cp).mp hcp
        rw [hnone] at this
        exact absurd this (List.not_mem_nil cp)
      unfold appendAdjustments
      rw [horder]
      rfl

/-- Witness of C31: in the scenario of the spec the provider of the storage of `p1` can
be read, the retirement of the epoch 7 deletes the record of request `r1`, and the record
is counted with its 50 compute units. -/
theorem RemoveAllEpochPaymentsForBlockAppendAdjustments_deleted_counted_witness :
    ∃ c ∈ countedRecords sampleKeys scenarioKeeper 7,
      c.key = sampleKeys.EncodeUniquePaymentKey "LAV1" 7 "c1" "p1" "r1" ∧
      c.usedCU
        = (UniquePaymentStorageClientProvider.mk
            (sampleKeys.EncodeUniquePaymentKey "LAV1" 7 "c1" "p1" "r1") 7 50).UsedCU ∧
      c.coupling.consumer
        = sampleKeys.GetConsumerFromUniquePayment
            (sampleKeys.EncodeUniquePaymentKey "LAV1" 7 "c1" "p1" "r1") :=
  (RemoveAllEpochPaymentsForBlockAppendAdjustments_deleted_counted sampleKeys scenarioKeeper
    7).1
    (by
      intro epochPayments hep s hs st hst
      have hentry : scenarioKeeper.GetEpochPayments (epochPaymentKey 7)
          = some { Index := epochPaymentKey 7
                   ProviderPaymentStorageKeys :=
                     [sampleKeys.GetProviderPaymentStorageKey "LAV1" 7 "p1"] } := by
        decide
      rw [hentry] at hep
      cases hep
      have hs2 : s = sampleKeys.GetProviderPaymentStorageKey "LAV1" 7 "p1" :=
        List.mem_singleton.mp hs
      subst hs2
      have hidx : st.Index = sampleKeys.GetProviderPaymentStorageKey "LAV1" 7 "p1" :=
        KVStore.Get_index hst
      have hmem : '_' ∈ st.Index.data := by
        rw [hidx]
        decide
      refine ⟨String.mk (st.Index.data.reverse.takeWhile fun c => c ≠ '_').reverse, ?_⟩
      show (if '_' ∈ st.Index.data then _ else none : Option String) = _
      rw [if_pos hmem])
    (sampleKeys.EncodeUniquePaymentKey "LAV1" 7 "c1" "p1" "r1")
    { Index := sampleKeys.EncodeUniquePaymentKey "LAV1" 7 "c1" "p1" "r1"
      Block := 7
      UsedCU := 50 }
    (by decide) (by decide)

end Keeper

/-! ## A key scheme that can be read back -/

theorem epochPaymentKey_no_underscore (n : Nat) : '_' ∉ (epochPaymentKey n).data := by
  intro h
  have := toDigitsCore_hex (n + 1) n '_' h
  exact absurd this (by decide)

theorem dropWhile_underscore (a b : List Char) (ha : '_' ∉ a) :
    (a ++ '_' :: b).dropWhile (fun c => c ≠ '_') = '_' :: b := by
  induction a with
  | nil =>
    rw [List.nil_append, List.dropWhile_cons, if_neg (by decide)]
  | cons x rest ih =>
    have hx : x ≠ '_' := fun h => ha (h ▸ List.mem_cons_self _ _)
    have hrest : '_' ∉ rest := fun h => ha (List.mem_cons_of_mem _ h)
    rw [List.cons_append, List.dropWhile_cons, if_pos (decide_eq_true hx)]
    exact ih hrest

theorem takeWhile_underscore (a b : List Char) (ha : '_' ∉ a) :
    (a ++ '_' :: b).takeWhile (fun c => c ≠ '_') = a := by
  induction a with
  | nil =>
    rw [List.nil_append, List.takeWhile_cons, if_neg (by decide)]
  | cons x rest ih =>
    have hx : x ≠ '_' := fun h => ha (h ▸ List.mem_cons_self _ _)
    have hrest : '_' ∉ rest := fun h => ha (List.mem_cons_of_mem _ h)
    rw [List.cons_append, List.takeWhile_cons, if_pos (decide_eq_true hx), ih hrest]

theorem append_underscore_inj {a b a2 b2 : List Char} (ha : '_' ∉ a) (ha2 : '_' ∉ a2)
    (h : a ++ '_' :: b = a2 ++ '_' :: b2) : a = a2 ∧ b = b2 := by
  have h1 := congrArg (List.takeWhile fun c => c ≠ '_') h
  have h2 := congrArg (List.dropWhile fun c => c ≠ '_') h
  rw [takeWhile_underscore a b ha, takeWhile_underscore a2 b2 ha2] at h1
  rw [dropWhile_underscore a b ha, dropWhile_underscore a2 b2 ha2] at h2
  exact ⟨h1, List.tail_eq_of_cons_eq h2⟩

theorem lawfulKeys_data (chainID : String) (epoch : Nat) (provider : String) :
    (lawfulKeys.GetProviderPaymentStorageKey chainID epoch provider).data
      = (epochPaymentKey epoch).data ++
          '_' :: ((epochPaymentKey provider.data.length).data ++
            '_' :: (provider.data ++ chainID.data)) := by
  show (epochPaymentKey epoch ++ "_" ++ epochPaymentKey provider.length ++ "_" ++ provider ++
    chainID).data = _
  simp only [String.data_append, List.append_assoc]
  rfl

theorem lawfulKeys_lawful : lawfulKeys.Lawful where
  storageKey_injective := by
    intro chainID epoch provider chainID2 epoch2 provider2 h
    have hd := congrArg String.data h
    rw [lawfulKeys_data, lawfulKeys_data] at hd
    obtain ⟨h1, h2⟩ := append_underscore_inj (epochPaymentKey_no_underscore _)
      (epochPaymentKey_no_underscore _) hd
    obtain ⟨h3, h4⟩ := append_underscore_inj (epochPaymentKey_no_underscore _)
      (epochPaymentKey_no_underscore _) h2
    have hepoch : epoch = epoch2 := by
      have := congrArg hexValue h1
      rw [hexValue_epochPaymentKey, hexValue_epochPaymentKey] at this
      exact this
    have hlen : provider.data.length = provider2.data.length := by
      have := congrArg hexValue h3
      rw [hexValue_epochPaymentKey, hexValue_epochPaymentKey] at this
      exact this
    obtain ⟨h5, h6⟩ := List.append_inj h4 hlen
    exact ⟨String.ext h6, hepoch, String.ext h5⟩
  provider_of_storageKey := by
    intro st chainID epoch provider h
    have hd : st.Index.data
        = (epochPaymentKey epoch).data ++
          '_' :: ((epochPaymentKey provider.data.length).data ++
            '_' :: (provider.data ++ chainID.data)) := by
      rw [h]
      exact lawfulKeys_data chainID epoch provider
    show (if hexValue
          ((((st.Index.data.dropWhile fun c => c ≠ '_').drop 1).takeWhile fun c => c ≠ '_'))
        ≤ ((((st.Index.data.dropWhile fun c => c ≠ '_').drop 1).dropWhile
            fun c => c ≠ '_').drop 1).length
      then some (String.mk
        (((((st.Index.data.dropWhile fun c => c ≠ '_').drop 1).dropWhile
            fun c => c ≠ '_').drop 1).take
          (hexValue
            ((((st.Index.data.dropWhile fun c => c ≠ '_').drop 1).takeWhile
              fun c => c ≠ '_')))))
      else none) = some provider
    rw [hd, dropWhile_underscore _ _ (epochPaymentKey_no_underscore _)]
    simp only [List.drop_succ_cons, List.drop_zero]
    rw [takeWhile_underscore _ _ (epochPaymentKey_no_underscore _),
      dropWhile_underscore _ _ (epochPaymentKey_no_underscore _), hexValue_epochPaymentKey]
    simp only [List.drop_succ_cons, List.drop_zero]
    rw [if_pos (by rw [List.length_append]; exact Nat.le_add_right _ _), List.take_left']
    rfl

/-! ## The ledger after any number of transactions -/

section LedgerLemmas

open EpochPaymentHandler

/-- The handler after `Flush` is a new handler on the flushed keeper. -/
theorem Flush_eq_NewEpochPaymentHandler (k : EpochPaymentHandler) :
    k.Flush = k.Flush.keeper.NewEpochPaymentHandler := rfl

/-- A `Flush` changes nothing of what is read through the caches. -/
theorem Ledger.flush (ks : KeyScheme) {k : EpochPaymentHandler}
    {seen recorded : List UsageCall} (h : Ledger ks k seen recorded) :
    Ledger ks k.Flush seen recorded where
  sub := h.sub
  nodup := h.nodup
  present := h.present
  absent := h.absent
  storage := h.storage
  stored := h.stored
  listed := h.listed
  entries := h.entries

theorem run_append (ks : KeyScheme) (k : EpochPaymentHandler) (steps : List LedgerStep)
    (s : LedgerStep) : k.run ks (steps ++ [s]) = (k.run ks steps).step ks s := by
  unfold EpochPaymentHandler.run
  rw [List.foldl_append]
  rfl

theorem step_earliestEpochStart (ks : KeyScheme) (k : EpochPaymentHandler) (s : LedgerStep) :
    (k.step ks s).keeper.earliestEpochStart = k.keeper.earliestEpochStart := by
  cases s with
  | usage c =>
    show (AddEpochPayment ks k c.chainID c.epoch c.projectID c.providerAddress c.usedCU
      c.uniqueIdentifier).1.keeper.earliestEpochStart = _
    rw [AddEpochPayment_keeper]
  | flush => rfl

theorem run_earliestEpochStart (ks : KeyScheme) (k : EpochPaymentHandler)
    (steps : List LedgerStep) :
    (k.run ks steps).keeper.earliestEpochStart = k.keeper.earliestEpochStart := by
  induction steps using List.reverseRecOn with
  | nil => rfl
  | append_singleton steps s ih => rw [run_append, step_earliestEpochStart, ih]

theorem calls_append_usage (steps : List LedgerStep) (c : UsageCall) :
    LedgerStep.calls (steps ++ [LedgerStep.usage c]) = LedgerStep.calls steps ++ [c] := by
  induction steps with
  | nil => rfl
  | cons s rest ih =>
    cases s with
    | usage c2 =>
      show c2 :: LedgerStep.calls (rest ++ [LedgerStep.usage c]) = c2 :: _ ++ [c]
      rw [ih]
      rfl
    | flush => exact ih

theorem calls_append_flush (steps : List LedgerStep) :
    LedgerStep.calls (steps ++ [LedgerStep.flush]) = LedgerStep.calls steps := by
  induction steps with
  | nil => rfl
  | cons s rest ih =>
    cases s with
    | usage c2 =>
      show c2 :: LedgerStep.calls (rest ++ [LedgerStep.flush]) = c2 :: _
      rw [ih]
    | flush => exact ih

/-- After any sequence of calls and flushes on the empty ledger, the ledger holds the
recorded calls of the sequence. -/
theorem Ledger.run (ks : KeyScheme) (earliestEpochStart : Nat) (steps : List LedgerStep) :
    Ledger ks ((emptyKeeper earliestEpochStart).NewEpochPaymentHandler.run ks steps)
      ((LedgerStep.calls steps).filter fun c => earliestEpochStart ≤ c.epoch)
      (recordedCalls ks earliestEpochStart (LedgerStep.calls steps)) := by
  induction steps using List.reverseRecOn with
  | nil => exact Ledger.init ks earliestEpochStart
  | append_singleton steps s ih =>
    rw [run_append]
    cases s with
    | flush =>
      rw [calls_append_flush]
      exact ih.flush ks
    | usage c =>
      rw [calls_append_usage, recordedCalls_append, retained_append]
      have hstart : ((emptyKeeper earliestEpochStart).NewEpochPaymentHandler.run ks
          steps).keeper.earliestEpochStart = earliestEpochStart :=
        run_earliestEpochStart ks _ steps
      by_cases hr : earliestEpochStart ≤ c.epoch
      · rw [if_pos hr]
        have hr2 : ((emptyKeeper earliestEpochStart).NewEpochPaymentHandler.run ks
            steps).keeper.earliestEpochStart ≤ c.epoch := by
          rw [hstart]
          exact hr
        have h := (ih.record ks c hr2).1
        rw [hstart] at h
        exact h
      · rw [if_neg hr, List.append_nil]
        have hr2 : c.epoch < ((emptyKeeper earliestEpochStart).NewEpochPaymentHandler.run
            ks steps).keeper.earliestEpochStart := by
          rw [hstart]
          exact Nat.not_le.mp hr
        have h1 : ((emptyKeeper earliestEpochStart).NewEpochPaymentHandler.run ks steps).step ks
            (LedgerStep.usage c)
            = (emptyKeeper earliestEpochStart).NewEpochPaymentHandler.run ks steps := by
          show (AddEpochPayment ks _ c.chainID c.epoch c.projectID c.providerAddress c.usedCU
            c.uniqueIdentifier).1 = _
          rw [AddEpochPayment_of_stale ks _ _ _ _ _ _ _ hr2]
        have h2 : recordedStep ks earliestEpochStart
            (recordedCalls ks earliestEpochStart (LedgerStep.calls steps)) c
            = recordedCalls ks earliestEpochStart (LedgerStep.calls steps) := by
          unfold recordedStep
          rw [if_pos (Nat.not_le.mp hr)]
        rw [h1, h2]
        exact ih

/-- With a key scheme that can be read back, the total of a provider payment storage is
the total of its provider in its epoch on its chain. -/
theorem storageTotal_eq_providerTotal (ks : KeyScheme) (hlaw : ks.Lawful)
    (recorded : List UsageCall) (c : UsageCall) :
    storageTotal ks recorded (c.storageKey ks)
      = providerTotal recorded c.chainID c.epoch c.providerAddress := by
  unfold storageTotal providerTotal
  congr 2
  apply List.filter_congr
  intro c2 _
  apply decide_eq_decide.mpr
  constructor
  · intro h
    exact hlaw.storageKey_injective _ _ _ _ _ _ h
  · rintro ⟨h1, h2, h3⟩
    show ks.GetProviderPaymentStorageKey c2.chainID c2.epoch c2.providerAddress
      = ks.GetProviderPaymentStorageKey c.chainID c.epoch c.providerAddress
    rw [h1, h2, h3]

end LedgerLemmas

namespace EpochPaymentHandler

/-- Counterexample to C3 as stated: after a first request of `2 ^ 63` compute units, a
second, distinct request of `2 ^ 63` compute units to the same provider in the same epoch
returns 0, while the two recorded requests of the provider sum to `2 ^ 64`. -/
theorem AddEpochPayment_total_wraps :
    (AddEpochPayment sampleKeys wrapHandler "LAV1" 7 "c1" "p1" (2 ^ 63) "r2").2 = 0 ∧
    wrapHandler = (emptyKeeper 0).NewEpochPaymentHandler.recordAll sampleKeys [wrapCall1] ∧
    recordedCalls sampleKeys 0 [wrapCall1, wrapCall2] = [wrapCall1, wrapCall2] ∧
    storageTotal sampleKeys (recordedCalls sampleKeys 0 [wrapCall1, wrapCall2])
      (wrapCall2.storageKey sampleKeys) = 2 ^ 64 ∧
    providerTotal (recordedCalls sampleKeys 0 [wrapCall1, wrapCall2]) "LAV1" 7 "p1"
      = 2 ^ 64 := by
  refine ⟨by decide, rfl, by decide, by decide, by decide⟩

/-- C3, amended: on a ledger built from the empty one by any sequence of calls and
flushes, that is by any number of transactions, a call of `AddEpochPayment` for a retained
epoch returns the total of the provider for the epoch after the write, reduced modulo
`2 ^ 64`: the sum of `usedCU` over the distinct recorded requests of the provider payment
storage of the call, which with a key scheme that can be read back are the recorded
requests of the provider of the call in its epoch, on its chain; the request of the call
is among them. In the scenario of the spec the second call returns 80, in the transaction
of the first call or in the next one. -/
theorem AddEpochPayment_total :
    (∀ (ks : KeyScheme) (earliestEpochStart : Nat) (steps : List LedgerStep) (c : UsageCall),
      earliestEpochStart ≤ c.epoch →
      (((emptyKeeper earliestEpochStart).NewEpochPaymentHandler.run ks steps).record
          ks c).2
        = storageTotal ks (recordedCalls ks earliestEpochStart (LedgerStep.calls steps ++ [c]))
            (c.storageKey ks) % 2 ^ 64 ∧
      (ks.Lawful →
        (((emptyKeeper earliestEpochStart).NewEpochPaymentHandler.run ks steps).record
            ks c).2
          = providerTotal (recordedCalls ks earliestEpochStart (LedgerStep.calls steps ++ [c]))
              c.chainID c.epoch c.providerAddress % 2 ^ 64) ∧
      ((recordedCalls ks earliestEpochStart (LedgerStep.calls steps ++ [c])).map
          (UsageCall.uniqueKey ks)).Nodup ∧
      c.uniqueKey ks
        ∈ (recordedCalls ks earliestEpochStart (LedgerStep.calls steps ++ [c])).map
            (UsageCall.uniqueKey ks)) ∧
    (AddEpochPayment sampleKeys
      (AddEpochPayment sampleKeys (emptyKeeper 0).NewEpochPaymentHandler
        "LAV1" 7 "c1" "p1" 50 "r1").1
      "LAV1" 7 "c1" "p1" 30 "r2").2 = 80 ∧
    (AddEpochPayment sampleKeys
      (AddEpochPayment sampleKeys (emptyKeeper 0).NewEpochPaymentHandler
        "LAV1" 7 "c1" "p1" 50 "r1").1.Flush.keeper.NewEpochPaymentHandler
      "LAV1" 7 "c1" "p1" 30 "r2").2 = 80 := by
  refine ⟨?_, by decide, by decide⟩
  intro ks earliestEpochStart steps c hr
  have hL := Ledger.run ks earliestEpochStart steps
  have hstart : ((emptyKeeper earliestEpochStart).NewEpochPaymentHandler.run ks
      steps).keeper.earliestEpochStart = earliestEpochStart :=
    run_earliestEpochStart ks _ steps
  have hr2 : ((emptyKeeper earliestEpochStart).NewEpochPaymentHandler.run ks
      steps).keeper.earliestEpochStart ≤ c.epoch := by
    rw [hstart]
    exact hr
  obtain ⟨hL2, hret⟩ := hL.record ks c hr2
  rw [hstart] at hL2 hret
  rw [recordedCalls_append]
  refine ⟨hret, fun hlaw => ?_, hL2.nodup, ?_⟩
  · rw [hret, storageTotal_eq_providerTotal ks hlaw]
  · unfold recordedStep
    rw [if_neg (Nat.not_lt.mpr hr)]
    by_cases hseen : c.uniqueKey ks
        ∈ (recordedCalls ks earliestEpochStart (LedgerStep.calls steps)).map
            (UsageCall.uniqueKey ks)
    · rw [if_pos hseen]
      exact hseen
    · rw [if_neg hseen, List.map_append]
      exact List.mem_append_right _ (List.mem_singleton.mpr rfl)

/-- Witness of C3: the second call of the scenario of the spec, made in a second
transaction, after the first call and a `Flush`; with the key scheme that can be read back
the value returned is the total of provider `p1` in epoch 7, which is 80. -/
theorem AddEpochPayment_total_witness :
    ((((emptyKeeper 0).NewEpochPaymentHandler.run sampleKeys
          [LedgerStep.usage scenarioCall1, LedgerStep.flush]).record
        sampleKeys scenarioCall2).2
      = storageTotal sampleKeys
          (recordedCalls sampleKeys 0
            (LedgerStep.calls [LedgerStep.usage scenarioCall1, LedgerStep.flush]
              ++ [scenarioCall2]))
          (scenarioCall2.storageKey sampleKeys) % 2 ^ 64) ∧
    ((((emptyKeeper 0).NewEpochPaymentHandler.run lawfulKeys
          [LedgerStep.usage scenarioCall1, LedgerStep.flush]).record
        lawfulKeys scenarioCall2).2
      = providerTotal
          (recordedCalls lawfulKeys 0
            (LedgerStep.calls [LedgerStep.usage scenarioCall1, LedgerStep.flush]
              ++ [scenarioCall2]))
          "LAV1" 7 "p1" % 2 ^ 64) ∧
    providerTotal
      (recordedCalls lawfulKeys 0
        (LedgerStep.calls [LedgerStep.usage scenarioCall1, LedgerStep.flush]
          ++ [scenarioCall2]))
      "LAV1" 7 "p1" = 80 :=
  ⟨(AddEpochPayment_total.1 sampleKeys 0 [LedgerStep.usage scenarioCall1, LedgerStep.flush]
      scenarioCall2 (by decide)).1,
    (AddEpochPayment_total.1 lawfulKeys 0 [LedgerStep.usage scenarioCall1, LedgerStep.flush]
      scenarioCall2 (by decide)).2.1 lawfulKeys_lawful,
    by decide⟩

end EpochPaymentHandler

/-! ## Conservation of the usage of an epoch -/

section ConservationTheorems

open EpochPaymentHandler Keeper

theorem sum_map_mod (l : List Nat) (n : Nat) :
    (l.map fun x => x % n).sum % n = l.sum % n := by
  induction l with
  | nil => rfl
  | cons x rest ih =>
    rw [List.map_cons, List.sum_cons, List.sum_cons, Nat.add_mod, ih, Nat.mod_mod,
      ← Nat.add_mod]

/-- The pair totals of the adjustments add up to the compute units of the counted
records, modulo `2 ^ 64`. -/
theorem adjustments_sum_mod (ks : KeyScheme) (k : Keeper) (blockForDelete : Nat) :
    ((RemoveAllEpochPaymentsForBlockAppendAdjustments ks k blockForDelete).2.map
        Adjustment.couplingUsage).sum % 2 ^ 64
      = ((countedRecords ks k blockForDelete).map CountedRecord.usedCU).sum % 2 ^ 64 := by
  rw [RemoveAllEpochPaymentsForBlockAppendAdjustments_adjustments]
  unfold countedRecords
  cases hg : k.GetEpochPayments (epochPaymentKey blockForDelete) with
  | none => rfl
  | some ep =>
    simp only
    have h := removalScan_tallied ks k blockForDelete ep.ProviderPaymentStorageKeys
    have hmap : (appendAdjustments (removalScan ks k blockForDelete
        ep.ProviderPaymentStorageKeys)).map Adjustment.couplingUsage
        = ((removalScan ks k blockForDelete ep.ProviderPaymentStorageKeys).iterationOrder.map
            (couplingTotal (countProviderPayments ks blockForDelete k
              ep.ProviderPaymentStorageKeys).2)).map fun x => x % 2 ^ 64 := by
      unfold appendAdjustments
      rw [List.map_map, List.map_map]
      apply List.map_congr_left
      intro c _
      exact h.coupling c
    rw [hmap, sum_map_mod]
    congr 1
    exact sum_couplingTotal _ _ h.nodup
      (fun r hr => (h.mem r.coupling).mpr (List.mem_map_of_mem _ hr))

/-- Counterexample to C9 as stated: two distinct requests of `2 ^ 63` compute units for
one pair in epoch 7, recorded in two transactions, are both recorded, and the retirement
of the epoch appends one adjustment whose pair total is 0, while the recorded calls of the
epoch carry `2 ^ 64` compute units. -/
theorem adjustment_conservation_fails :
    ((RemoveAllEpochPaymentsForBlockAppendAdjustments lawfulKeys
        ((emptyKeeper 0).NewEpochPaymentHandler.run lawfulKeys
          [LedgerStep.usage wrapCall1, LedgerStep.flush,
            LedgerStep.usage wrapCall2]).Flush.keeper 7).2.map
        Adjustment.couplingUsage).sum = 0 ∧
    recordedCalls lawfulKeys 0
        (LedgerStep.calls
          [LedgerStep.usage wrapCall1, LedgerStep.flush, LedgerStep.usage wrapCall2])
      = [wrapCall1, wrapCall2] ∧
    epochTotal
      (recordedCalls lawfulKeys 0
        (LedgerStep.calls
          [LedgerStep.usage wrapCall1, LedgerStep.flush, LedgerStep.usage wrapCall2])) 7
      = 2 ^ 64 := by
  refine ⟨by decide, by decide, by decide⟩

/-- C9, amended: on a ledger built from the empty one by any sequence of calls of
`AddEpochPayment` and flushes, that is by any number of transactions, the last one
flushed, the pair totals of the adjustments appended by the retirement of an epoch add up
to the sum of `usedCU` over the calls recorded for that epoch whenever this sum is below
`2 ^ 64`, and modulo `2 ^ 64` in every case; the key scheme is one that can be read
back. -/
theorem adjustment_conservation (ks : KeyScheme) (hlaw : ks.Lawful)
    (earliestEpochStart : Nat) (steps : List LedgerStep) (epoch : Nat) :
    (epochTotal (recordedCalls ks earliestEpochStart (LedgerStep.calls steps)) epoch < 2 ^ 64 →
      ((RemoveAllEpochPaymentsForBlockAppendAdjustments ks
          ((emptyKeeper earliestEpochStart).NewEpochPaymentHandler.run ks
            steps).Flush.keeper epoch).2.map Adjustment.couplingUsage).sum
        = epochTotal (recordedCalls ks earliestEpochStart (LedgerStep.calls steps)) epoch) ∧
    ((RemoveAllEpochPaymentsForBlockAppendAdjustments ks
        ((emptyKeeper earliestEpochStart).NewEpochPaymentHandler.run ks
          steps).Flush.keeper epoch).2.map Adjustment.couplingUsage).sum % 2 ^ 64
      = epochTotal (recordedCalls ks earliestEpochStart (LedgerStep.calls steps)) epoch
          % 2 ^ 64 := by
  have hL := Ledger.run ks earliestEpochStart steps
  have hsum := hL.counted_sum ks
    (fun c1 _ c2 _ h => (hlaw.storageKey_injective _ _ _ _ _ _ h).2.1)
    (fun c _ st hst => by
      rw [hlaw.provider_of_storageKey st c.chainID c.epoch c.providerAddress hst]
      rfl)
    epoch
  refine ⟨fun hfit => ?_, ?_⟩
  · rw [adjustments_sum ks _ epoch (by rw [hsum]; exact hfit), hsum]
  · rw [adjustments_sum_mod, hsum]

/-- Witness of C9: the scenario of the spec in two transactions, 50 compute units in the
first and 30 in the second, then the retirement of epoch 7: one adjustment of 80. -/
theorem adjustment_conservation_witness :
    ((RemoveAllEpochPaymentsForBlockAppendAdjustments lawfulKeys
        ((emptyKeeper 0).NewEpochPaymentHandler.run lawfulKeys
          [LedgerStep.usage scenarioCall1, LedgerStep.flush,
            LedgerStep.usage scenarioCall2]).Flush.keeper 7).2.map
        Adjustment.couplingUsage).sum
      = epochTotal
          (recordedCalls lawfulKeys 0
            (LedgerStep.calls
              [LedgerStep.usage scenarioCall1, LedgerStep.flush,
                LedgerStep.usage scenarioCall2])) 7 ∧
    epochTotal
      (recordedCalls lawfulKeys 0
        (LedgerStep.calls
          [LedgerStep.usage scenarioCall1, LedgerStep.flush,
            LedgerStep.usage scenarioCall2])) 7 = 80 ∧
    (RemoveAllEpochPaymentsForBlockAppendAdjustments lawfulKeys
      ((emptyKeeper 0).NewEpochPaymentHandler.run lawfulKeys
        [LedgerStep.usage scenarioCall1, LedgerStep.flush,
          LedgerStep.usage scenarioCall2]).Flush.keeper 7).2
      = [{ consumer := "c1", provider := "p1", consumerUsage := 80, couplingUsage := 80 }] :=
  ⟨(adjustment_conservation lawfulKeys lawfulKeys_lawful 0
      [LedgerStep.usage scenarioCall1, LedgerStep.flush, LedgerStep.usage scenarioCall2]
      7).1 (by decide),
    by decide, by decide⟩

end ConservationTheorems

end Lava
